import Mathlib

/-!
Verification development for the neo4j-request convenience layer.

The repository wraps the neo4j JavaScript driver: connection bootstrap with
retry (`init`/`connect`), three transaction helpers (`readTransaction`,
`writeTransaction`, `multipleStatements`), a result normalizer
(`extractRecords`/`convertValues`) and an array pruner (`removeEmptyArrays`).

This file gives a shallow embedding of those functions and proves or refutes
the frozen specification claims about them.  Driver values are embedded as
the inductive type `Value`; JavaScript objects are association lists in field
order; fallible JavaScript code (thrown `TypeError`s, rejected promises) is
embedded with `Except`.  The external driver (network, sessions,
transactions) is an oracle: its possible outcomes are parameters of the
embedded functions.
-/

set_option maxHeartbeats 1000000

namespace Neo4jRequest

/-- Shallow embedding of the JavaScript/driver values the library manipulates.

* `vnull` — JavaScript `null`.
* `vbool`, `vnum`, `vstr` — plain scalars.  All numbers occurring in this
  library are integral (driver integers in safe range via `toNumber`), so
  numbers are modelled as `Int`.
* `vint i` — a neo4j driver `Integer` object (64-bit in the driver; the
  embedding does not need the bound).  Its own enumerable fields (`low`,
  `high`) carry no information beyond `i` and are not modelled separately.
* `vtemporal fields repr` — a driver temporal/spatial object
  (`Date`, `DateTime`, `LocalTime`, `LocalDateTime`, `Time`, `Duration`,
  `Point`): `fields` are its own enumerable properties, `repr` is the string
  its `toString()` produces.
* `vnode props` — a driver `Node` wrapper; only its `properties` object is
  relevant to the code under verification.
* `varr` — a JavaScript array, `vobj` — a plain JavaScript object given as
  its fields in enumeration (insertion) order. -/
inductive Value where
  | vnull : Value
  | vbool (b : Bool) : Value
  | vnum (n : Int) : Value
  | vstr (s : String) : Value
  | vint (i : Int) : Value
  | vtemporal (fields : List (String × Value)) (repr : String) : Value
  | vnode (props : List (String × Value)) : Value
  | varr (xs : List Value) : Value
  | vobj (fields : List (String × Value)) : Value

/-- A driver `Record`, reduced to what `extractRecords` reads from it: the
declared column names (`record.keys`) with the value `record.get(key)`
returns for each, in declaration order. -/
abbrev DriverRecord := List (String × Value)

theorem sizeOf_snd_lt_of_mem {kv : String × Value} {l : List (String × Value)}
    (h : kv ∈ l) : sizeOf kv.2 < 1 + sizeOf l := by
  have h1 := List.sizeOf_lt_of_mem h
  have h2 : sizeOf kv.2 < sizeOf kv := by
    cases kv with
    | mk a b => simp
  omega

/-- Structural induction principle for `Value` that exposes the elements of
nested lists through membership, so proofs can recurse through arrays,
objects, node properties and temporal fields. -/
theorem Value.myInduction (motive : Value → Prop)
    (hnull : motive .vnull)
    (hbool : ∀ b, motive (.vbool b))
    (hnum : ∀ n, motive (.vnum n))
    (hstr : ∀ s, motive (.vstr s))
    (hint : ∀ i, motive (.vint i))
    (htemporal : ∀ fs r, (∀ kv ∈ fs, motive kv.2) → motive (.vtemporal fs r))
    (hnode : ∀ ps, (∀ kv ∈ ps, motive kv.2) → motive (.vnode ps))
    (harr : ∀ xs, (∀ v ∈ xs, motive v) → motive (.varr xs))
    (hobj : ∀ fs, (∀ kv ∈ fs, motive kv.2) → motive (.vobj fs)) :
    ∀ v, motive v
  | .vnull => hnull
  | .vbool b => hbool b
  | .vnum n => hnum n
  | .vstr s => hstr s
  | .vint i => hint i
  | .vtemporal fs r => htemporal fs r (fun kv hkv =>
      have : sizeOf kv.2 < 1 + sizeOf fs := sizeOf_snd_lt_of_mem hkv
      Value.myInduction motive hnull hbool hnum hstr hint htemporal hnode harr hobj kv.2)
  | .vnode ps => hnode ps (fun kv hkv =>
      have : sizeOf kv.2 < 1 + sizeOf ps := sizeOf_snd_lt_of_mem hkv
      Value.myInduction motive hnull hbool hnum hstr hint htemporal hnode harr hobj kv.2)
  | .varr xs => harr xs (fun v hv =>
      have : sizeOf v < 1 + sizeOf xs := by
        have := List.sizeOf_lt_of_mem hv
        omega
      Value.myInduction motive hnull hbool hnum hstr hint htemporal hnode harr hobj v)
  | .vobj fs => hobj fs (fun kv hkv =>
      have : sizeOf kv.2 < 1 + sizeOf fs := sizeOf_snd_lt_of_mem hkv
      Value.myInduction motive hnull hbool hnum hstr hint htemporal hnode harr hobj kv.2)
termination_by v => sizeOf v

/-! ## The result normalizer (`convertValues`, `extractRecords`) -/

/-- The constant `Number.MAX_SAFE_INTEGER` = 2^53 - 1. -/
def maxSafeInteger : Int := 9007199254740991

/-- Embeds `neo4j.integer.inSafeRange`: the integer fits between
`Integer.MIN_SAFE_VALUE` (= -(2^53 - 1)) and `Integer.MAX_SAFE_VALUE`
(= 2^53 - 1) inclusive. -/
def inSafeRange (i : Int) : Bool :=
  decide (-maxSafeInteger ≤ i ∧ i ≤ maxSafeInteger)

mutual

/-- Embeds `convertValues` from `src/src/index.ts` (lines 273-338).  Branch
order of the source: `null` check, neo4j integer (safe range → `toNumber`,
otherwise `toString`), temporal/spatial (→ `toString`), `Node` unwrap to its
`properties` object (which then falls into the recursive-object branch and
comes back as a plain object), recursive array, recursive object, and all
remaining scalars returned unchanged. -/
def convertValues : Value → Value
  | .vnull => .vnull
  | .vint i => if inSafeRange i then .vnum i else .vstr (toString i)
  | .vtemporal _ r => .vstr r
  | .vnode props => .vobj (convertFields props)
  | .varr xs => .varr (convertList xs)
  | .vobj fields => .vobj (convertFields fields)
  | .vbool b => .vbool b
  | .vnum n => .vnum n
  | .vstr s => .vstr s

/-- Embeds `value.map(v => convertValues(v))` over an array's elements. -/
def convertList : List Value → List Value
  | [] => []
  | v :: vs => convertValues v :: convertList vs

/-- Embeds the recursive-object branch
`for (const key of Object.keys(value)) value[key] = convertValues(value[key])`:
field keys and their order are unchanged, values are converted. -/
def convertFields : List (String × Value) → List (String × Value)
  | [] => []
  | (k, v) :: rest => (k, convertValues v) :: convertFields rest

end

/-- Embeds `extractRecords` from `src/src/index.ts` (lines 243-271).  The
`!data` guard returns `[]` for a `null`/`undefined` record list (modelled by
`none`); the `!Array.isArray(data)` passthrough branch is unreachable for a
typed `Record[]` argument and has no counterpart in the model.  Otherwise
each record is mapped to a fresh plain object whose fields are the record's
keys in order, with converted values. -/
def extractRecords : Option (List DriverRecord) → List Value
  | none => []
  | some data =>
      data.map (fun record => .vobj (record.map (fun kv => (kv.1, convertValues kv.2))))

mutual

/-- A value built only from plain scalars, `null`, arrays and plain objects:
no driver integer, temporal/spatial or node wrapper anywhere inside. -/
def isPlain : Value → Bool
  | .vnull => true
  | .vbool _ => true
  | .vnum _ => true
  | .vstr _ => true
  | .vint _ => false
  | .vtemporal _ _ => false
  | .vnode _ => false
  | .varr xs => isPlainL xs
  | .vobj fs => isPlainF fs

def isPlainL : List Value → Bool
  | [] => true
  | v :: vs => isPlain v && isPlainL vs

def isPlainF : List (String × Value) → Bool
  | [] => true
  | kv :: fs => isPlain kv.2 && isPlainF fs

end

theorem isPlainL_mem {xs : List Value} (h : isPlainL xs = true) :
    ∀ v ∈ xs, isPlain v = true := by
  induction xs with
  | nil => intro v hv; cases hv
  | cons a as ih =>
    rw [isPlainL, Bool.and_eq_true] at h
    intro v hv
    rcases List.mem_cons.mp hv with rfl | hv
    · exact h.1
    · exact ih h.2 v hv

theorem isPlainF_mem {fs : List (String × Value)} (h : isPlainF fs = true) :
    ∀ kv ∈ fs, isPlain kv.2 = true := by
  induction fs with
  | nil => intro kv hkv; cases hkv
  | cons a as ih =>
    rw [isPlainF, Bool.and_eq_true] at h
    intro kv hkv
    rcases List.mem_cons.mp hkv with rfl | hkv
    · exact h.1
    · exact ih h.2 kv hkv

theorem convertList_of_id {xs : List Value}
    (h : ∀ v ∈ xs, convertValues v = v) : convertList xs = xs := by
  induction xs with
  | nil => rfl
  | cons a as ih =>
    rw [convertList, h a (List.mem_cons_self a as), ih (fun v hv => h v (List.mem_cons_of_mem a hv))]

theorem convertFields_of_id {fs : List (String × Value)}
    (h : ∀ kv ∈ fs, convertValues kv.2 = kv.2) : convertFields fs = fs := by
  induction fs with
  | nil => rfl
  | cons a as ih =>
    cases a with
    | mk k v =>
      rw [convertFields, h (k, v) (List.mem_cons_self (k, v) as),
        ih (fun kv hkv => h kv (List.mem_cons_of_mem (k, v) hkv))]

theorem convertValues_plain_id : ∀ v, isPlain v = true → convertValues v = v := by
  intro v
  induction v using Value.myInduction with
  | hnull => intro _; rfl
  | hbool b => intro _; rfl
  | hnum n => intro _; rfl
  | hstr s => intro _; rfl
  | hint i => intro h; cases h
  | htemporal fs r ih => intro h; cases h
  | hnode ps ih => intro h; cases h
  | harr xs ih =>
    intro h
    rw [isPlain] at h
    rw [convertValues, convertList_of_id (fun v hv => ih v hv (isPlainL_mem h v hv))]
  | hobj fs ih =>
    intro h
    rw [isPlain] at h
    rw [convertValues, convertFields_of_id (fun kv hkv => ih kv hkv (isPlainF_mem h kv hkv))]

/-! ## The other two `convertValues` implementations in the repository -/

mutual

/-- Embeds `convertValues` from `src/index.js` (lines 191-224).  Branch order
of that file: neo4j integer first, then `Node` unwrap, recursive array,
recursive object (guarded by `value !== null`), and a final `return value`.
There is no `null` short-circuit (a `null` falls through every guard and is
returned unchanged) and, unlike the TypeScript source, there is no
temporal/spatial branch: a temporal object is caught by the recursive-object
branch, which converts its enumerable fields in place and returns the object
itself. -/
def convertValuesJs : Value → Value
  | .vint i => if inSafeRange i then .vnum i else .vstr (toString i)
  | .vnode props => .vobj (convertFieldsJs props)
  | .varr xs => .varr (convertListJs xs)
  | .vtemporal fs r => .vtemporal (convertFieldsJs fs) r
  | .vobj fields => .vobj (convertFieldsJs fields)
  | .vnull => .vnull
  | .vbool b => .vbool b
  | .vnum n => .vnum n
  | .vstr s => .vstr s

def convertListJs : List Value → List Value
  | [] => []
  | v :: vs => convertValuesJs v :: convertListJs vs

def convertFieldsJs : List (String × Value) → List (String × Value)
  | [] => []
  | (k, v) :: rest => (k, convertValuesJs v) :: convertFieldsJs rest

end

mutual

/-- Embeds `convertValues` from `src/unnamed/part_002` (lines 241-287, the
bundled CommonJS build).  Branch order there: `null` check, `Node` unwrap,
recursive array, recursive object, and only then the neo4j-integer and
temporal branches.  A driver `Integer` and every temporal/spatial value have
`typeof value === 'object'`, so the recursive-object branch captures them
first: their enumerable fields are converted in place (for an `Integer`, the
`low`/`high` numbers are unchanged, so the object is returned as is) and the
later integer/temporal branches are unreachable for them. -/
def convertValuesP2 : Value → Value
  | .vnull => .vnull
  | .vnode props => .vobj (convertFieldsP2 props)
  | .varr xs => .varr (convertListP2 xs)
  | .vobj fields => .vobj (convertFieldsP2 fields)
  | .vint i => .vint i
  | .vtemporal fs r => .vtemporal (convertFieldsP2 fs) r
  | .vbool b => .vbool b
  | .vnum n => .vnum n
  | .vstr s => .vstr s

def convertListP2 : List Value → List Value
  | [] => []
  | v :: vs => convertValuesP2 v :: convertListP2 vs

def convertFieldsP2 : List (String × Value) → List (String × Value)
  | [] => []
  | (k, v) :: rest => (k, convertValuesP2 v) :: convertFieldsP2 rest

end

mutual

/-- No temporal/spatial value occurs anywhere inside the value. -/
def noTemporal : Value → Bool
  | .vtemporal _ _ => false
  | .vnode ps => noTemporalF ps
  | .varr xs => noTemporalL xs
  | .vobj fs => noTemporalF fs
  | _ => true

def noTemporalL : List Value → Bool
  | [] => true
  | v :: vs => noTemporal v && noTemporalL vs

def noTemporalF : List (String × Value) → Bool
  | [] => true
  | kv :: fs => noTemporal kv.2 && noTemporalF fs

end

mutual

/-- Neither a driver integer nor a temporal/spatial value occurs anywhere
inside the value. -/
def noIntTemporal : Value → Bool
  | .vtemporal _ _ => false
  | .vint _ => false
  | .vnode ps => noIntTemporalF ps
  | .varr xs => noIntTemporalL xs
  | .vobj fs => noIntTemporalF fs
  | _ => true

def noIntTemporalL : List Value → Bool
  | [] => true
  | v :: vs => noIntTemporal v && noIntTemporalL vs

def noIntTemporalF : List (String × Value) → Bool
  | [] => true
  | kv :: fs => noIntTemporal kv.2 && noIntTemporalF fs

end

theorem noTemporalL_mem {xs : List Value} (h : noTemporalL xs = true) :
    ∀ v ∈ xs, noTemporal v = true := by
  induction xs with
  | nil => intro v hv; cases hv
  | cons a as ih =>
    rw [noTemporalL, Bool.and_eq_true] at h
    intro v hv
    rcases List.mem_cons.mp hv with rfl | hv
    · exact h.1
    · exact ih h.2 v hv

theorem noTemporalF_mem {fs : List (String × Value)} (h : noTemporalF fs = true) :
    ∀ kv ∈ fs, noTemporal kv.2 = true := by
  induction fs with
  | nil => intro kv hkv; cases hkv
  | cons a as ih =>
    rw [noTemporalF, Bool.and_eq_true] at h
    intro kv hkv
    rcases List.mem_cons.mp hkv with rfl | hkv
    · exact h.1
    · exact ih h.2 kv hkv

theorem noIntTemporalL_mem {xs : List Value} (h : noIntTemporalL xs = true) :
    ∀ v ∈ xs, noIntTemporal v = true := by
  induction xs with
  | nil => intro v hv; cases hv
  | cons a as ih =>
    rw [noIntTemporalL, Bool.and_eq_true] at h
    intro v hv
    rcases List.mem_cons.mp hv with rfl | hv
    · exact h.1
    · exact ih h.2 v hv

theorem noIntTemporalF_mem {fs : List (String × Value)} (h : noIntTemporalF fs = true) :
    ∀ kv ∈ fs, noIntTemporal kv.2 = true := by
  induction fs with
  | nil => intro kv hkv; cases hkv
  | cons a as ih =>
    rw [noIntTemporalF, Bool.and_eq_true] at h
    intro kv hkv
    rcases List.mem_cons.mp hkv with rfl | hkv
    · exact h.1
    · exact ih h.2 kv hkv

theorem convertListJs_congr {xs : List Value}
    (h : ∀ v ∈ xs, convertValuesJs v = convertValues v) :
    convertListJs xs = convertList xs := by
  induction xs with
  | nil => rfl
  | cons a as ih =>
    rw [convertListJs, convertList, h a (List.mem_cons_self a as),
      ih (fun v hv => h v (List.mem_cons_of_mem a hv))]

theorem convertFieldsJs_congr {fs : List (String × Value)}
    (h : ∀ kv ∈ fs, convertValuesJs kv.2 = convertValues kv.2) :
    convertFieldsJs fs = convertFields fs := by
  induction fs with
  | nil => rfl
  | cons a as ih =>
    cases a with
    | mk k v =>
      rw [convertFieldsJs, convertFields, h (k, v) (List.mem_cons_self (k, v) as),
        ih (fun kv hkv => h kv (List.mem_cons_of_mem (k, v) hkv))]

theorem convertValuesJs_agrees :
    ∀ v, noTemporal v = true → convertValuesJs v = convertValues v := by
  intro v
  induction v using Value.myInduction with
  | hnull => intro _; rfl
  | hbool b => intro _; rfl
  | hnum n => intro _; rfl
  | hstr s => intro _; rfl
  | hint i => intro _; rfl
  | htemporal fs r ih => intro h; cases h
  | hnode ps ih =>
    intro h
    rw [noTemporal] at h
    rw [convertValuesJs, convertValues,
      convertFieldsJs_congr (fun kv hkv => ih kv hkv (noTemporalF_mem h kv hkv))]
  | harr xs ih =>
    intro h
    rw [noTemporal] at h
    rw [convertValuesJs, convertValues,
      convertListJs_congr (fun v hv => ih v hv (noTemporalL_mem h v hv))]
  | hobj fs ih =>
    intro h
    rw [noTemporal] at h
    rw [convertValuesJs, convertValues,
      convertFieldsJs_congr (fun kv hkv => ih kv hkv (noTemporalF_mem h kv hkv))]

theorem convertListP2_congr {xs : List Value}
    (h : ∀ v ∈ xs, convertValuesP2 v = convertValues v) :
    convertListP2 xs = convertList xs := by
  induction xs with
  | nil => rfl
  | cons a as ih =>
    rw [convertListP2, convertList, h a (List.mem_cons_self a as),
      ih (fun v hv => h v (List.mem_cons_of_mem a hv))]

theorem convertFieldsP2_congr {fs : List (String × Value)}
    (h : ∀ kv ∈ fs, convertValuesP2 kv.2 = convertValues kv.2) :
    convertFieldsP2 fs = convertFields fs := by
  induction fs with
  | nil => rfl
  | cons a as ih =>
    cases a with
    | mk k v =>
      rw [convertFieldsP2, convertFields, h (k, v) (List.mem_cons_self (k, v) as),
        ih (fun kv hkv => h kv (List.mem_cons_of_mem (k, v) hkv))]

theorem convertValuesP2_agrees :
    ∀ v, noIntTemporal v = true → convertValuesP2 v = convertValues v := by
  intro v
  induction v using Value.myInduction with
  | hnull => intro _; rfl
  | hbool b => intro _; rfl
  | hnum n => intro _; rfl
  | hstr s => intro _; rfl
  | hint i => intro h; cases h
  | htemporal fs r ih => intro h; cases h
  | hnode ps ih =>
    intro h
    rw [noIntTemporal] at h
    rw [convertValuesP2, convertValues,
      convertFieldsP2_congr (fun kv hkv => ih kv hkv (noIntTemporalF_mem h kv hkv))]
  | harr xs ih =>
    intro h
    rw [noIntTemporal] at h
    rw [convertValuesP2, convertValues,
      convertListP2_congr (fun v hv => ih v hv (noIntTemporalL_mem h v hv))]
  | hobj fs ih =>
    intro h
    rw [noIntTemporal] at h
    rw [convertValuesP2, convertValues,
      convertFieldsP2_congr (fun kv hkv => ih kv hkv (noIntTemporalF_mem h kv hkv))]

theorem noIntTemporal_imp_noTemporal : ∀ v, noIntTemporal v = true → noTemporal v = true := by
  intro v
  induction v using Value.myInduction with
  | hnull => intro _; rfl
  | hbool b => intro _; rfl
  | hnum n => intro _; rfl
  | hstr s => intro _; rfl
  | hint i => intro h; cases h
  | htemporal fs r ih => intro h; cases h
  | hnode ps ih =>
    intro h
    rw [noIntTemporal] at h
    rw [noTemporal]
    induction ps with
    | nil => rfl
    | cons a as ihl =>
      rw [noIntTemporalF, Bool.and_eq_true] at h
      rw [noTemporalF, Bool.and_eq_true]
      exact ⟨ih a (List.mem_cons_self a as) h.1,
        ihl (fun kv hkv => ih kv (List.mem_cons_of_mem a hkv)) h.2⟩
  | harr xs ih =>
    intro h
    rw [noIntTemporal] at h
    rw [noTemporal]
    induction xs with
    | nil => rfl
    | cons a as ihl =>
      rw [noIntTemporalL, Bool.and_eq_true] at h
      rw [noTemporalL, Bool.and_eq_true]
      exact ⟨ih a (List.mem_cons_self a as) h.1,
        ihl (fun v hv => ih v (List.mem_cons_of_mem a hv)) h.2⟩
  | hobj fs ih =>
    intro h
    rw [noIntTemporal] at h
    rw [noTemporal]
    induction fs with
    | nil => rfl
    | cons a as ihl =>
      rw [noIntTemporalF, Bool.and_eq_true] at h
      rw [noTemporalF, Bool.and_eq_true]
      exact ⟨ih a (List.mem_cons_self a as) h.1,
        ihl (fun kv hkv => ih kv (List.mem_cons_of_mem a hkv)) h.2⟩

theorem convertList_eq_map : ∀ xs, convertList xs = xs.map convertValues := by
  intro xs
  induction xs with
  | nil => rfl
  | cons a as ih => rw [convertList, List.map_cons, ih]

theorem convertFields_eq_map :
    ∀ fs, convertFields fs = fs.map (fun kv => (kv.1, convertValues kv.2)) := by
  intro fs
  induction fs with
  | nil => rfl
  | cons a as ih =>
    cases a with
    | mk k v => rw [convertFields, List.map_cons, ih]

/-! ## Claims about the normalizer (C3, C8, C9) -/

/-- C3 (confirmed).  Normalizer integer conversion: a driver integer value
within the safe integer range (|i| ≤ 2^53 - 1) is converted by
`convertValues` to the corresponding native number, and an out-of-range
integer to its exact decimal string representation; `extractRecords`
therefore maps a record column holding such an integer accordingly. -/
theorem claim_C3 :
    (∀ i : Int, -9007199254740991 ≤ i ∧ i ≤ 9007199254740991 →
      convertValues (.vint i) = .vnum i) ∧
    (∀ i : Int, i < -9007199254740991 ∨ 9007199254740991 < i →
      convertValues (.vint i) = .vstr (toString i)) ∧
    (∀ (k : String) (i : Int) (rest : DriverRecord),
      extractRecords (some [(k, .vint i) :: rest]) =
        [.vobj ((k, convertValues (.vint i)) ::
          rest.map (fun kv => (kv.1, convertValues kv.2)))]) := by
  refine ⟨?_, ?_, ?_⟩
  · intro i h
    have hb : inSafeRange i = true := by
      simp [inSafeRange, maxSafeInteger]
      omega
    rw [convertValues, hb]
    rfl
  · intro i h
    have hb : inSafeRange i = false := by
      simp [inSafeRange, maxSafeInteger]
      omega
    rw [convertValues, hb]
    rfl
  · intro k i rest
    simp [extractRecords]

/-- Witness for C3 at concrete inputs: 7 is in safe range and converts to the
number 7; 2^53 = 9007199254740992 is out of range and converts to its decimal
string. -/
theorem claim_C3_witness :
    convertValues (.vint 7) = .vnum 7 ∧
    convertValues (.vint 9007199254740992) = .vstr (toString (9007199254740992 : Int)) :=
  ⟨claim_C3.1 7 (by omega), claim_C3.2.1 9007199254740992 (by omega)⟩

/-- C8 (confirmed).  Normalizer identity on plain data: a value built only
from plain scalars, `null`, nested plain objects and arrays thereof is
returned unchanged by `convertValues`; moreover arrays normalize
element-wise, objects normalize key-wise, and `null` passes through
unchanged. -/
theorem claim_C8 :
    (∀ v, isPlain v = true → convertValues v = v) ∧
    (∀ xs, convertValues (.varr xs) = .varr (xs.map convertValues)) ∧
    (∀ fs, convertValues (.vobj fs) = .vobj (fs.map (fun kv => (kv.1, convertValues kv.2)))) ∧
    convertValues .vnull = .vnull := by
  refine ⟨convertValues_plain_id, ?_, ?_, rfl⟩
  · intro xs
    rw [convertValues, convertList_eq_map]
  · intro fs
    rw [convertValues, convertFields_eq_map]

/-- Witness for C8 at a concrete plain value containing `null`, scalars, a
nested object and a nested array. -/
theorem claim_C8_witness :
    isPlain (.varr [.vnull, .vnum 3, .vobj [("a", .vstr "x"), ("b", .varr [.vbool true])]]) = true ∧
    convertValues (.varr [.vnull, .vnum 3, .vobj [("a", .vstr "x"), ("b", .varr [.vbool true])]]) =
      .varr [.vnull, .vnum 3, .vobj [("a", .vstr "x"), ("b", .varr [.vbool true])]] :=
  ⟨rfl, claim_C8.1 _ rfl⟩

/-- C9 (refuted as stated): the three `convertValues` implementations are not
extensionally equal.  On the driver integer 1 the TypeScript implementation
returns the number 1, while the part_002 build returns the `Integer` object
unchanged (its recursive-object branch captures the object before the
integer branch); on a temporal value the TypeScript implementation returns
its string representation while the index.js implementation (which has no
temporal branch) returns the object. -/
theorem claim_C9_counterexample :
    convertValuesP2 (.vint 1) ≠ convertValues (.vint 1) ∧
    convertValuesJs (.vtemporal [] "2020-01-01") ≠ convertValues (.vtemporal [] "2020-01-01") := by
  constructor
  · intro h
    rw [convertValuesP2, convertValues, show inSafeRange 1 = true from by decide] at h
    exact Value.noConfusion h
  · intro h
    rw [convertValuesJs, convertValues, convertFieldsJs] at h
    exact Value.noConfusion h

/-- C9 (amended).  The three normalizer implementations agree on every value
containing no temporal/spatial objects and no driver integers; the
TypeScript and index.js implementations moreover agree whenever no
temporal/spatial value occurs (driver integers may occur).  They are not
extensionally equal in general: part_002's recursive-object branch captures
integer and temporal objects before its integer/temporal checks, and
index.js lacks the temporal branch. -/
theorem claim_C9 :
    (∀ v, noTemporal v = true → convertValuesJs v = convertValues v) ∧
    (∀ v, noIntTemporal v = true → convertValuesP2 v = convertValues v) ∧
    (∀ v, noIntTemporal v = true → convertValuesP2 v = convertValuesJs v) := by
  refine ⟨convertValuesJs_agrees, convertValuesP2_agrees, ?_⟩
  intro v h
  rw [convertValuesP2_agrees v h, convertValuesJs_agrees v (noIntTemporal_imp_noTemporal v h)]

/-- Witness for C9 (amended) at concrete inputs: a nested record containing a
safe-range integer is converted identically by the TypeScript and index.js
implementations, and a plain nested value is converted identically by all
three. -/
theorem claim_C9_witness :
    noTemporal (.vobj [("n", .vint 2)]) = true ∧
    convertValuesJs (.vobj [("n", .vint 2)]) = convertValues (.vobj [("n", .vint 2)]) ∧
    noIntTemporal (.varr [.vnull, .vstr "a"]) = true ∧
    convertValuesP2 (.varr [.vnull, .vstr "a"]) = convertValues (.varr [.vnull, .vstr "a"]) :=
  ⟨rfl, claim_C9.1 _ rfl, rfl, claim_C9.2.1 _ rfl⟩

/-! ## The array pruner (`removeEmptyArrays`)

JavaScript property-access semantics used by `removeEmptyArrays`:

* `x[key]` on `null` throws a `TypeError` (modelled with `Except`);
* `x[key]` on a plain object reads the field, `undefined` (`none`) if absent;
* `x[key]` on an array reads the element when `key` is a canonical numeric
  index string, `undefined` otherwise;
* `x[key]` on the remaining values yields `undefined` — a string's
  character-index properties exist in JavaScript but are single-character
  strings, which this code only tests with `Array.isArray` (false) and
  `=== null` (false), so omitting them does not change any observable
  behaviour of the pruner; driver wrapper objects do not occur in the
  pruner's input (it post-processes normalizer output, which is plain) and
  are likewise modelled as propertyless.
-/

/-- Thrown JavaScript errors (the pruner can only throw a `TypeError`, from
accessing a property of `null`). -/
inductive JsError where
  | typeError : JsError

/-- JavaScript truthiness of a model value: `null` and falsy scalars are
falsy; every object (including an empty array) is truthy. -/
def truthy : Value → Bool
  | .vnull => false
  | .vbool b => b
  | .vnum n => decide (n ≠ 0)
  | .vstr s => decide (s ≠ "")
  | .vint _ => true
  | .vtemporal _ _ => true
  | .vnode _ => true
  | .varr _ => true
  | .vobj _ => true

/-- Decimal value of a digit string, `none` on any non-digit. -/
def parseDigits : List Char → Nat → Option Nat
  | [], acc => some acc
  | c :: cs, acc =>
      if '0' ≤ c ∧ c ≤ '9' then parseDigits cs (acc * 10 + (c.toNat - '0'.toNat))
      else none

/-- The canonical array-index reading of a property key: `jsIndex "3" = some
3`, while `jsIndex "03" = none` and `jsIndex "values" = none` (JavaScript
arrays expose elements only under canonical numeric strings — non-empty
digit strings without a leading zero; the 2^32 - 1 bound on JavaScript array
indices is not modelled, since model arrays are unbounded lists). -/
def jsIndex (s : String) : Option Nat :=
  match s.data with
  | [] => none
  | c :: cs =>
      if c = '0' ∧ cs ≠ [] then none
      else parseDigits (c :: cs) 0

/-- Field lookup in an object, first occurrence (JavaScript objects cannot
repeat keys; the model reads the first). -/
def lookupField : List (String × Value) → String → Option Value
  | [], _ => none
  | (k, v) :: rest, key => if k = key then some v else lookupField rest key

/-- Field assignment in an object: replaces the value of the first
occurrence of the key, keeping key order (JavaScript assignment to an
existing key keeps its position). -/
def setField : List (String × Value) → String → Value → List (String × Value)
  | [], _, _ => []
  | (k, v) :: rest, key, nv =>
      if k = key then (k, nv) :: rest else (k, v) :: setField rest key nv

/-- Property read `x[key]`, for values on which it does not throw. -/
def getProp : Value → String → Option Value
  | .vobj fs, key => lookupField fs key
  | .varr xs, key =>
      match jsIndex key with
      | some i => xs.get? i
      | none => none
  | _, _ => none

/-- Property write `x[key] = nv` for the cases the pruner exercises (the key
was just read successfully, so it exists). -/
def setPropVal : Value → String → Value → Value
  | .vobj fs, key, nv => .vobj (setField fs key nv)
  | .varr xs, key, nv =>
      match jsIndex key with
      | some i => .varr (xs.set i nv)
      | none => .varr xs
  | v, _, _ => v

/-- The strict comparison `x[key] === null`: reading the key gives `null`
(`undefined` — `none` — is not strictly equal to `null`). -/
def isNullAt (v : Value) (key : String) : Bool :=
  match getProp v key with
  | some .vnull => true
  | _ => false

/-- The inner guard of the pruner's replacement test, embedding
`arr[0] && arr[0][checkKey] === null`: the first element exists, is truthy,
and reading the check key on it gives `null`. -/
def checkFirst (ck : String) : List Value → Bool
  | [] => false
  | e :: _ => truthy e && isNullAt e ck

/-- Embeds lines 356-364 of `src/src/index.ts`, the per-record replacement
test of `removeEmptyArrays`:
`if (data[i][arrayKey] && Array.isArray(data[i][arrayKey]) && data[i][arrayKey][0])
 { if (data[i][arrayKey][0][checkKey] === null) { data[i][arrayKey] = []; } }`.
Reading any property of `null` throws; a non-array value (always) and an
array whose first element is falsy fail the guard; otherwise the array value
at the named key is replaced by the empty array. -/
def checkAndReplace (ak ck : String) : Value → Except JsError Value
  | .vnull => .error .typeError
  | x =>
      match getProp x ak with
      | some (.varr ys) =>
          if checkFirst ck ys then .ok (setPropVal x ak (.varr [])) else .ok x
      | _ => .ok x

theorem setField_sizeOf {fs : List (String × Value)} {key : String} {v nv : Value}
    (hl : lookupField fs key = some v) (hs : sizeOf nv ≤ sizeOf v) :
    sizeOf (setField fs key nv) ≤ sizeOf fs := by
  induction fs with
  | nil => cases hl
  | cons a rest ih =>
    cases a with
    | mk k w =>
      rw [lookupField] at hl
      rw [setField]
      by_cases hk : k = key
      · rw [if_pos hk] at hl ⊢
        cases Option.some.inj hl
        simp
        omega
      · rw [if_neg hk] at hl ⊢
        have := ih hl
        simp
        simp at this
        omega

theorem listSet_sizeOf {xs : List Value} {i : Nat} {v nv : Value}
    (hl : xs.get? i = some v) (hs : sizeOf nv ≤ sizeOf v) :
    sizeOf (xs.set i nv) ≤ sizeOf xs := by
  induction xs generalizing i with
  | nil => cases hl
  | cons a rest ih =>
    cases i with
    | zero =>
      rw [List.get?] at hl
      cases Option.some.inj hl
      rw [List.set]
      simp
      omega
    | succ j =>
      rw [List.get?] at hl
      rw [List.set]
      have := ih hl
      simp
      simp at this
      omega

theorem sizeOf_varr_nil_le {ys : List Value} :
    sizeOf (Value.varr ([] : List Value)) ≤ sizeOf (Value.varr ys) := by
  simp
  cases ys <;> simp <;> omega

theorem setPropVal_sizeOf {x : Value} {ak : String} {ys : List Value}
    (hg : getProp x ak = some (.varr ys)) :
    sizeOf (setPropVal x ak (.varr [])) ≤ sizeOf x := by
  cases x with
  | vobj fs =>
    rw [getProp] at hg
    rw [setPropVal]
    have := setField_sizeOf hg sizeOf_varr_nil_le
    simp
    simp at this
    omega
  | varr xs =>
    rw [getProp] at hg
    revert hg
    match hi : jsIndex ak with
    | some i =>
      intro hg
      rw [setPropVal, hi]
      have := listSet_sizeOf hg sizeOf_varr_nil_le
      simp
      simp at this
      omega
    | none => intro hg; cases hg
  | vnull => cases hg
  | vbool b => cases hg
  | vnum n => cases hg
  | vstr s => cases hg
  | vint i => cases hg
  | vtemporal f r => cases hg
  | vnode p => cases hg

theorem checkAndReplace_sizeOf {ak ck : String} {x x1 : Value}
    (h : checkAndReplace ak ck x = .ok x1) : sizeOf x1 ≤ sizeOf x := by
  cases x with
  | vnull => simp [checkAndReplace] at h
  | vbool b => simp [checkAndReplace, getProp] at h; exact le_of_eq (by rw [h])
  | vnum n => simp [checkAndReplace, getProp] at h; exact le_of_eq (by rw [h])
  | vstr s => simp [checkAndReplace, getProp] at h; exact le_of_eq (by rw [h])
  | vint i => simp [checkAndReplace, getProp] at h; exact le_of_eq (by rw [h])
  | vtemporal f r => simp [checkAndReplace, getProp] at h; exact le_of_eq (by rw [h])
  | vnode p => simp [checkAndReplace, getProp] at h; exact le_of_eq (by rw [h])
  | vobj fs =>
    simp only [checkAndReplace] at h
    split at h
    · split at h
      · cases Except.ok.inj h
        rename_i ys hg hc
        exact setPropVal_sizeOf hg
      · cases Except.ok.inj h
        exact Nat.le_refl _
    · cases Except.ok.inj h
      exact Nat.le_refl _
  | varr xs =>
    simp only [checkAndReplace] at h
    split at h
    · split at h
      · cases Except.ok.inj h
        rename_i ys hg hc
        exact setPropVal_sizeOf hg
      · cases Except.ok.inj h
        exact Nat.le_refl _
    · cases Except.ok.inj h
      exact Nat.le_refl _

mutual

/-- Embeds `removeEmptyArrays` from `src/src/index.ts` (lines 352-380).  The
loop body processes each element of `data` in order: first the replacement
test on the named key (`checkAndReplace`), then the `for...in` recursion
into every array-valued property (`recurseStep`). -/
def removeEmptyArrays (ak ck : String) : List Value → Except JsError (List Value)
  | [] => .ok []
  | x :: rest =>
      match h : checkAndReplace ak ck x with
      | .error e => .error e
      | .ok x1 =>
          match recurseStep ak ck x1 with
          | .error e => .error e
          | .ok x2 =>
              match removeEmptyArrays ak ck rest with
              | .error e => .error e
              | .ok rest2 => .ok (x2 :: rest2)
termination_by l => sizeOf l
decreasing_by
  all_goals first
    | (have hx := checkAndReplace_sizeOf h
       simp
       simp at hx
       omega)
    | (simp
       try omega)

/-- Embeds lines 366-374 of `src/src/index.ts`: `for (let key in data[i])`
recursing into every own property whose value is an array.  For an object
the own properties are its fields; for an array they are its indices; other
values have no own enumerable properties that matter (see the section
comment). -/
def recurseStep (ak ck : String) : Value → Except JsError Value
  | .vobj fs =>
      match recurseStepFields ak ck fs with
      | .error e => .error e
      | .ok fs2 => .ok (.vobj fs2)
  | .varr xs =>
      match recurseStepElems ak ck xs with
      | .error e => .error e
      | .ok xs2 => .ok (.varr xs2)
  | v => .ok v
termination_by v => sizeOf v
decreasing_by
  all_goals simp
  all_goals try omega

def recurseStepFields (ak ck : String) : List (String × Value) → Except JsError (List (String × Value))
  | [] => .ok []
  | (k, .varr ys) :: rest =>
      match removeEmptyArrays ak ck ys with
      | .error e => .error e
      | .ok ys2 =>
          match recurseStepFields ak ck rest with
          | .error e => .error e
          | .ok rest2 => .ok ((k, .varr ys2) :: rest2)
  | kv :: rest =>
      match recurseStepFields ak ck rest with
      | .error e => .error e
      | .ok rest2 => .ok (kv :: rest2)
termination_by fs => sizeOf fs
decreasing_by
  all_goals simp
  all_goals try omega

def recurseStepElems (ak ck : String) : List Value → Except JsError (List Value)
  | [] => .ok []
  | (.varr ys) :: rest =>
      match removeEmptyArrays ak ck ys with
      | .error e => .error e
      | .ok ys2 =>
          match recurseStepElems ak ck rest with
          | .error e => .error e
          | .ok rest2 => .ok (.varr ys2 :: rest2)
  | v :: rest =>
      match recurseStepElems ak ck rest with
      | .error e => .error e
      | .ok rest2 => .ok (v :: rest2)
termination_by xs => sizeOf xs
decreasing_by
  all_goals simp
  all_goals try omega

end


/-- The claim's wording of the replacement test: the named array's first
element exists and has `null` at the check key.  (For any value, having
`null` at a key forces the value to be an object or array, which are truthy;
so this agrees with the code's guard `checkFirst`, as proved below.) -/
def specCheckFirst (ck : String) : List Value → Bool
  | [] => false
  | e :: _ => isNullAt e ck

theorem specCheckFirst_eq_checkFirst (ck : String) (ys : List Value) :
    specCheckFirst ck ys = checkFirst ck ys := by
  cases ys with
  | nil => rfl
  | cons e rest =>
    rw [specCheckFirst, checkFirst]
    cases hn : isNullAt e ck
    · simp
    · have : truthy e = true := by
        revert hn
        rw [isNullAt]
        cases hg : getProp e ck with
        | none => intro hn; cases hn
        | some w =>
          cases w with
          | vnull =>
            intro hn
            cases e with
            | vobj fs => rfl
            | varr xs => rfl
            | vnull => simp [getProp] at hg
            | vbool b => simp [getProp] at hg
            | vnum n => simp [getProp] at hg
            | vstr s2 => simp [getProp] at hg
            | vint i => simp [getProp] at hg
            | vtemporal f r => simp [getProp] at hg
            | vnode p => simp [getProp] at hg
          | vbool b => intro hn; cases hn
          | vnum n => intro hn; cases hn
          | vstr s2 => intro hn; cases hn
          | vint i => intro hn; cases hn
          | vtemporal f r => intro hn; cases hn
          | vnode p => intro hn; cases hn
          | varr xs => intro hn; cases hn
          | vobj fs => intro hn; cases hn
      rw [this]
      simp

mutual

/-- The pruning transformation as claim C4 states it, written from the
claim's words: for every record, the array at the named key is replaced by
the empty array exactly when its first element has `null` at the check key;
every other array-valued field, and every array nested inside arrays, is
pruned recursively; everything else is left untouched. -/
def pruneSpecList (ak ck : String) : List Value → List Value
  | [] => []
  | x :: rest => pruneSpecElem ak ck x :: pruneSpecList ak ck rest

def pruneSpecElem (ak ck : String) : Value → Value
  | .vobj fs => .vobj (pruneSpecFields ak ck fs)
  | .varr xs => .varr (pruneSpecElems ak ck xs)
  | v => v

def pruneSpecFields (ak ck : String) : List (String × Value) → List (String × Value)
  | [] => []
  | (k, .varr ys) :: rest =>
      (k, if k = ak && specCheckFirst ck ys then .varr [] else .varr (pruneSpecList ak ck ys)) ::
        pruneSpecFields ak ck rest
  | kv :: rest => kv :: pruneSpecFields ak ck rest

def pruneSpecElems (ak ck : String) : List Value → List Value
  | [] => []
  | (.varr ys) :: rest => .varr (pruneSpecList ak ck ys) :: pruneSpecElems ak ck rest
  | v :: rest => v :: pruneSpecElems ak ck rest

end

mutual

/-- The lists actually traversed by `removeEmptyArrays` contain no `null`
element (property access on `null` throws): the input list itself, the
array value of any field of a traversed record, and any array nested
directly inside a traversed array. -/
def procOK : List Value → Bool
  | [] => true
  | .vnull :: _ => false
  | x :: rest => elemOK x && procOK rest

def elemOK : Value → Bool
  | .vobj fs => fieldsOK fs
  | .varr xs => elemsOK xs
  | _ => true

def fieldsOK : List (String × Value) → Bool
  | [] => true
  | (_, .varr ys) :: rest => procOK ys && fieldsOK rest
  | _ :: rest => fieldsOK rest

def elemsOK : List Value → Bool
  | [] => true
  | (.varr ys) :: rest => procOK ys && elemsOK rest
  | _ :: rest => elemsOK rest

end

mutual

/-- Well-formed record data: built only from plain scalars, `null`, arrays
and plain objects, with no object repeating a key (JavaScript objects cannot
repeat keys; the association-list model can, so the claims over record data
exclude that). -/
def wfData : Value → Bool
  | .vnull => true
  | .vbool _ => true
  | .vnum _ => true
  | .vstr _ => true
  | .vint _ => false
  | .vtemporal _ _ => false
  | .vnode _ => false
  | .varr xs => wfDataL xs
  | .vobj fs => decide ((fs.map Prod.fst).Nodup) && wfDataF fs

def wfDataL : List Value → Bool
  | [] => true
  | v :: vs => wfData v && wfDataL vs

def wfDataF : List (String × Value) → Bool
  | [] => true
  | kv :: fs => wfData kv.2 && wfDataF fs

end


/-- One loop iteration of `removeEmptyArrays` on a single element:
the replacement test followed by the `for...in` recursion. -/
def elemRun (ak ck : String) (a b : Value) : Prop :=
  ∃ a1, checkAndReplace ak ck a = .ok a1 ∧ recurseStep ak ck a1 = .ok b

theorem removeEmptyArrays_nil_eq (ak ck : String) :
    removeEmptyArrays ak ck [] = .ok [] := by
  simp [removeEmptyArrays]

theorem removeEmptyArrays_cons_ok {ak ck : String} {x : Value} {rest zs : List Value} :
    removeEmptyArrays ak ck (x :: rest) = .ok zs ↔
      ∃ x1 x2 rest2, checkAndReplace ak ck x = .ok x1 ∧ recurseStep ak ck x1 = .ok x2 ∧
        removeEmptyArrays ak ck rest = .ok rest2 ∧ zs = x2 :: rest2 := by
  constructor
  · intro h
    rw [removeEmptyArrays] at h
    split at h
    · cases h
    · rename_i x1 h1
      split at h
      · cases h
      · rename_i x2 h2
        split at h
        · cases h
        · rename_i rest2 h3
          cases Except.ok.inj h
          exact ⟨x1, x2, rest2, h1, h2, h3, rfl⟩
  · rintro ⟨x1, x2, rest2, h1, h2, h3, rfl⟩
    rw [removeEmptyArrays]
    split
    · rename_i e heq
      rw [heq] at h1
      cases h1
    · rename_i x1b heq
      rw [heq] at h1
      cases Except.ok.inj h1
      split
      · rename_i e heq2
        rw [heq2] at h2
        cases h2
      · rename_i x2b heq2
        rw [heq2] at h2
        cases Except.ok.inj h2
        simp [h3]

theorem removeEmptyArrays_ok_forall₂ {ak ck : String} : ∀ {ys zs : List Value},
    removeEmptyArrays ak ck ys = .ok zs ↔ List.Forall₂ (elemRun ak ck) ys zs := by
  intro ys
  induction ys with
  | nil =>
    intro zs
    constructor
    · intro h
      rw [removeEmptyArrays_nil_eq] at h
      cases Except.ok.inj h
      exact List.Forall₂.nil
    · intro h
      cases h
      exact removeEmptyArrays_nil_eq ak ck
  | cons x rest ih =>
    intro zs
    constructor
    · intro h
      rcases removeEmptyArrays_cons_ok.mp h with ⟨x1, x2, rest2, h1, h2, h3, rfl⟩
      exact List.Forall₂.cons ⟨x1, h1, h2⟩ (ih.mp h3)
    · intro h
      cases h with
      | cons hx hrest =>
        rcases hx with ⟨x1, h1, h2⟩
        exact removeEmptyArrays_cons_ok.mpr ⟨x1, _, _, h1, h2, ih.mpr hrest, rfl⟩

theorem checkAndReplace_eq_of_ne_null {ak ck : String} {x : Value} (hx : x ≠ .vnull) :
    checkAndReplace ak ck x =
      match getProp x ak with
      | some (.varr ys) =>
          if checkFirst ck ys then .ok (setPropVal x ak (.varr [])) else .ok x
      | _ => .ok x := by
  cases x with
  | vnull => exact absurd rfl hx
  | vbool b => rfl
  | vnum n => rfl
  | vstr s => rfl
  | vint i => rfl
  | vtemporal f r => rfl
  | vnode p => rfl
  | varr xs => rfl
  | vobj fs => rfl

theorem checkAndReplace_ok_inv {ak ck : String} {x x1 : Value}
    (h : checkAndReplace ak ck x = .ok x1) :
    x ≠ .vnull ∧
      ((∃ ys, getProp x ak = some (.varr ys) ∧ checkFirst ck ys = true ∧
          x1 = setPropVal x ak (.varr [])) ∨
        ((∀ ys, getProp x ak = some (.varr ys) → checkFirst ck ys = false) ∧ x1 = x)) := by
  have hx : x ≠ .vnull := by
    intro he
    subst he
    cases h
  refine ⟨hx, ?_⟩
  rw [checkAndReplace_eq_of_ne_null hx] at h
  revert h
  cases hgp : getProp x ak with
  | none =>
    intro h
    replace h : Except.ok x = Except.ok x1 := h
    refine Or.inr ⟨?_, (Except.ok.inj h).symm⟩
    intro ys hg2
    cases hg2
  | some v =>
    cases v with
    | varr ys =>
      intro h
      replace h : (if checkFirst ck ys = true then Except.ok (setPropVal x ak (Value.varr []))
          else Except.ok x) = Except.ok x1 := h
      by_cases hc : checkFirst ck ys = true
      · rw [if_pos hc] at h
        exact Or.inl ⟨ys, rfl, hc, (Except.ok.inj h).symm⟩
      · rw [if_neg hc] at h
        refine Or.inr ⟨?_, (Except.ok.inj h).symm⟩
        intro ys2 hg2
        cases Value.varr.inj (Option.some.inj hg2)
        simp only [Bool.not_eq_true] at hc
        exact hc
    | vnull =>
      intro h
      replace h : Except.ok x = Except.ok x1 := h
      refine Or.inr ⟨?_, (Except.ok.inj h).symm⟩
      intro ys hg2
      cases Option.some.inj hg2
    | vbool b =>
      intro h
      replace h : Except.ok x = Except.ok x1 := h
      refine Or.inr ⟨?_, (Except.ok.inj h).symm⟩
      intro ys hg2
      cases Option.some.inj hg2
    | vnum n =>
      intro h
      replace h : Except.ok x = Except.ok x1 := h
      refine Or.inr ⟨?_, (Except.ok.inj h).symm⟩
      intro ys hg2
      cases Option.some.inj hg2
    | vstr s =>
      intro h
      replace h : Except.ok x = Except.ok x1 := h
      refine Or.inr ⟨?_, (Except.ok.inj h).symm⟩
      intro ys hg2
      cases Option.some.inj hg2
    | vint i =>
      intro h
      replace h : Except.ok x = Except.ok x1 := h
      refine Or.inr ⟨?_, (Except.ok.inj h).symm⟩
      intro ys hg2
      cases Option.some.inj hg2
    | vtemporal f r =>
      intro h
      replace h : Except.ok x = Except.ok x1 := h
      refine Or.inr ⟨?_, (Except.ok.inj h).symm⟩
      intro ys hg2
      cases Option.some.inj hg2
    | vnode p =>
      intro h
      replace h : Except.ok x = Except.ok x1 := h
      refine Or.inr ⟨?_, (Except.ok.inj h).symm⟩
      intro ys hg2
      cases Option.some.inj hg2
    | vobj f =>
      intro h
      replace h : Except.ok x = Except.ok x1 := h
      refine Or.inr ⟨?_, (Except.ok.inj h).symm⟩
      intro ys hg2
      cases Option.some.inj hg2

theorem checkAndReplace_eq_repl {ak ck : String} {x : Value} {ys : List Value}
    (hx : x ≠ .vnull) (hg : getProp x ak = some (.varr ys)) (hc : checkFirst ck ys = true) :
    checkAndReplace ak ck x = .ok (setPropVal x ak (.varr [])) := by
  rw [checkAndReplace_eq_of_ne_null hx, hg]
  simp [hc]

theorem checkAndReplace_eq_norepl {ak ck : String} {x : Value}
    (hx : x ≠ .vnull)
    (hn : ∀ ys, getProp x ak = some (.varr ys) → checkFirst ck ys = false) :
    checkAndReplace ak ck x = .ok x := by
  rw [checkAndReplace_eq_of_ne_null hx]
  revert hn
  cases hgp : getProp x ak with
  | none => intro hn; rfl
  | some v =>
    cases v with
    | varr ys =>
      intro hn
      have := hn ys rfl
      simp [this]
    | vnull => intro hn; rfl
    | vbool b => intro hn; rfl
    | vnum n => intro hn; rfl
    | vstr s => intro hn; rfl
    | vint i => intro hn; rfl
    | vtemporal f r => intro hn; rfl
    | vnode p => intro hn; rfl
    | vobj f => intro hn; rfl

theorem recurseStep_obj_ok {ak ck : String} {fs : List (String × Value)} {b : Value} :
    recurseStep ak ck (.vobj fs) = .ok b ↔
      ∃ fs2, recurseStepFields ak ck fs = .ok fs2 ∧ b = .vobj fs2 := by
  constructor
  · intro h
    rw [recurseStep] at h
    split at h
    · cases h
    · rename_i fs2 heq
      cases Except.ok.inj h
      exact ⟨fs2, heq, rfl⟩
  · rintro ⟨fs2, heq, rfl⟩
    rw [recurseStep]
    simp [heq]

theorem recurseStep_arr_ok {ak ck : String} {xs : List Value} {b : Value} :
    recurseStep ak ck (.varr xs) = .ok b ↔
      ∃ xs2, recurseStepElems ak ck xs = .ok xs2 ∧ b = .varr xs2 := by
  constructor
  · intro h
    rw [recurseStep] at h
    split at h
    · cases h
    · rename_i xs2 heq
      cases Except.ok.inj h
      exact ⟨xs2, heq, rfl⟩
  · rintro ⟨xs2, heq, rfl⟩
    rw [recurseStep]
    simp [heq]

/-- Values that are neither objects nor arrays: `for...in` recursion leaves
them unchanged. -/
def notObjArr : Value → Prop
  | .vobj _ => False
  | .varr _ => False
  | _ => True

theorem recurseStep_other {ak ck : String} {v : Value} (hv : notObjArr v) :
    recurseStep ak ck v = .ok v := by
  cases v with
  | vobj fs => cases hv
  | varr xs => cases hv
  | vnull => simp [recurseStep]
  | vbool b => simp [recurseStep]
  | vnum n => simp [recurseStep]
  | vstr s => simp [recurseStep]
  | vint i => simp [recurseStep]
  | vtemporal f r => simp [recurseStep]
  | vnode p => simp [recurseStep]

theorem recurseStep_other_ok {ak ck : String} {v b : Value} (hv : notObjArr v)
    (h : recurseStep ak ck v = .ok b) : b = v := by
  rw [recurseStep_other hv] at h
  exact (Except.ok.inj h).symm

/-- Correspondence between a field before and after the `for...in` recursion
of one loop iteration: the key is unchanged; an array value is replaced by
the result of pruning it, any other value is untouched. -/
def fieldRun (ak ck : String) (p q : String × Value) : Prop :=
  q.1 = p.1 ∧
    ((∃ ys zs, p.2 = .varr ys ∧ q.2 = .varr zs ∧ removeEmptyArrays ak ck ys = .ok zs) ∨
      ((∀ ys, p.2 ≠ .varr ys) ∧ q.2 = p.2))

/-- Correspondence between an array element before and after the `for...in`
recursion: an array element is pruned, any other element is untouched. -/
def elemRel (ak ck : String) (v w : Value) : Prop :=
  (∃ ys zs, v = .varr ys ∧ w = .varr zs ∧ removeEmptyArrays ak ck ys = .ok zs) ∨
    ((∀ ys, v ≠ .varr ys) ∧ w = v)

theorem recurseStepFields_ok_forall₂ {ak ck : String} : ∀ {fs fs2 : List (String × Value)},
    recurseStepFields ak ck fs = .ok fs2 ↔ List.Forall₂ (fieldRun ak ck) fs fs2 := by
  intro fs
  induction fs with
  | nil =>
    intro fs2
    constructor
    · intro h
      rw [recurseStepFields] at h
      cases Except.ok.inj h
      exact List.Forall₂.nil
    · intro h
      cases h
      rw [recurseStepFields]
  | cons kv rest ih =>
    intro fs2
    cases kv with
    | mk k v =>
      cases v with
      | varr ys =>
        constructor
        · intro h
          rw [recurseStepFields.eq_def] at h
          replace h : (match removeEmptyArrays ak ck ys with
              | Except.error e => Except.error e
              | Except.ok ys2 =>
                  match recurseStepFields ak ck rest with
                  | Except.error e => Except.error e
                  | Except.ok rest2 => Except.ok ((k, Value.varr ys2) :: rest2)) = Except.ok fs2 := h
          split at h
          · cases h
          · rename_i ys2 heq
            split at h
            · cases h
            · rename_i rest2 heq2
              cases Except.ok.inj h
              exact List.Forall₂.cons ⟨rfl, Or.inl ⟨ys, ys2, rfl, rfl, heq⟩⟩ (ih.mp heq2)
        · intro h
          cases h with
          | cons hkv hrest =>
            rename_i q rest2
            rcases hkv with ⟨hk, hv⟩
            rcases hv with ⟨ys2, zs2, hys2, hzs2, hrun⟩ | ⟨hne, hq⟩
            · cases Value.varr.inj hys2
              cases q with
              | mk qk qv =>
                simp only at hk hzs2
                have hk2 := hk.symm
                subst hk2
                subst hzs2
                rw [recurseStepFields.eq_def]
                have hr := ih.mpr hrest
                change (match removeEmptyArrays ak ck ys with
                  | Except.error e => Except.error e
                  | Except.ok ys2 =>
                      match recurseStepFields ak ck rest with
                      | Except.error e => Except.error e
                      | Except.ok rest2 => Except.ok ((k, Value.varr ys2) :: rest2)) =
                    Except.ok ((k, Value.varr zs2) :: rest2)
                rw [hrun, hr]
            · exact absurd rfl (hne ys)
      | vnull =>
        constructor
        · intro h
          rw [recurseStepFields.eq_def] at h
          replace h : (match recurseStepFields ak ck rest with
              | Except.error e => Except.error e
              | Except.ok rest2 => Except.ok ((k, Value.vnull) :: rest2)) = Except.ok fs2 := h
          split at h
          · cases h
          · rename_i rest2 heq2
            cases Except.ok.inj h
            exact List.Forall₂.cons ⟨rfl, Or.inr ⟨fun ys hy => Value.noConfusion hy, rfl⟩⟩ (ih.mp heq2)
        · intro h
          cases h with
          | cons hkv hrest =>
            rename_i q rest2
            rcases hkv with ⟨hk, hv⟩
            rcases hv with ⟨ys2, zs2, hys2, hzs2, hrun⟩ | ⟨hne, hq⟩
            · cases hys2
            · cases q with
              | mk qk qv =>
                simp only at hk hq
                have hk2 := hk.symm
                subst hk2
                subst hq
                rw [recurseStepFields.eq_def]
                have hr := ih.mpr hrest
                change (match recurseStepFields ak ck rest with
                  | Except.error e => Except.error e
                  | Except.ok rest2 => Except.ok ((k, Value.vnull) :: rest2)) =
                    Except.ok ((k, Value.vnull) :: rest2)
                rw [hr]
      | vbool b =>
        constructor
        · intro h
          rw [recurseStepFields.eq_def] at h
          replace h : (match recurseStepFields ak ck rest with
              | Except.error e => Except.error e
              | Except.ok rest2 => Except.ok ((k, Value.vbool b) :: rest2)) = Except.ok fs2 := h
          split at h
          · cases h
          · rename_i rest2 heq2
            cases Except.ok.inj h
            exact List.Forall₂.cons ⟨rfl, Or.inr ⟨fun ys hy => Value.noConfusion hy, rfl⟩⟩ (ih.mp heq2)
        · intro h
          cases h with
          | cons hkv hrest =>
            rename_i q rest2
            rcases hkv with ⟨hk, hv⟩
            rcases hv with ⟨ys2, zs2, hys2, hzs2, hrun⟩ | ⟨hne, hq⟩
            · cases hys2
            · cases q with
              | mk qk qv =>
                simp only at hk hq
                have hk2 := hk.symm
                subst hk2
                subst hq
                rw [recurseStepFields.eq_def]
                have hr := ih.mpr hrest
                change (match recurseStepFields ak ck rest with
                  | Except.error e => Except.error e
                  | Except.ok rest2 => Except.ok ((k, Value.vbool b) :: rest2)) =
                    Except.ok ((k, Value.vbool b) :: rest2)
                rw [hr]
      | vnum n =>
        constructor
        · intro h
          rw [recurseStepFields.eq_def] at h
          replace h : (match recurseStepFields ak ck rest with
              | Except.error e => Except.error e
              | Except.ok rest2 => Except.ok ((k, Value.vnum n) :: rest2)) = Except.ok fs2 := h
          split at h
          · cases h
          · rename_i rest2 heq2
            cases Except.ok.inj h
            exact List.Forall₂.cons ⟨rfl, Or.inr ⟨fun ys hy => Value.noConfusion hy, rfl⟩⟩ (ih.mp heq2)
        · intro h
          cases h with
          | cons hkv hrest =>
            rename_i q rest2
            rcases hkv with ⟨hk, hv⟩
            rcases hv with ⟨ys2, zs2, hys2, hzs2, hrun⟩ | ⟨hne, hq⟩
            · cases hys2
            · cases q with
              | mk qk qv =>
                simp only at hk hq
                have hk2 := hk.symm
                subst hk2
                subst hq
                rw [recurseStepFields.eq_def]
                have hr := ih.mpr hrest
                change (match recurseStepFields ak ck rest with
                  | Except.error e => Except.error e
                  | Except.ok rest2 => Except.ok ((k, Value.vnum n) :: rest2)) =
                    Except.ok ((k, Value.vnum n) :: rest2)
                rw [hr]
      | vstr s2 =>
        constructor
        · intro h
          rw [recurseStepFields.eq_def] at h
          replace h : (match recurseStepFields ak ck rest with
              | Except.error e => Except.error e
              | Except.ok rest2 => Except.ok ((k, Value.vstr s2) :: rest2)) = Except.ok fs2 := h
          split at h
          · cases h
          · rename_i rest2 heq2
            cases Except.ok.inj h
            exact List.Forall₂.cons ⟨rfl, Or.inr ⟨fun ys hy => Value.noConfusion hy, rfl⟩⟩ (ih.mp heq2)
        · intro h
          cases h with
          | cons hkv hrest =>
            rename_i q rest2
            rcases hkv with ⟨hk, hv⟩
            rcases hv with ⟨ys2, zs2, hys2, hzs2, hrun⟩ | ⟨hne, hq⟩
            · cases hys2
            · cases q with
              | mk qk qv =>
                simp only at hk hq
                have hk2 := hk.symm
                subst hk2
                subst hq
                rw [recurseStepFields.eq_def]
                have hr := ih.mpr hrest
                change (match recurseStepFields ak ck rest with
                  | Except.error e => Except.error e
                  | Except.ok rest2 => Except.ok ((k, Value.vstr s2) :: rest2)) =
                    Except.ok ((k, Value.vstr s2) :: rest2)
                rw [hr]
      | vint i =>
        constructor
        · intro h
          rw [recurseStepFields.eq_def] at h
          replace h : (match recurseStepFields ak ck rest with
              | Except.error e => Except.error e
              | Except.ok rest2 => Except.ok ((k, Value.vint i) :: rest2)) = Except.ok fs2 := h
          split at h
          · cases h
          · rename_i rest2 heq2
            cases Except.ok.inj h
            exact List.Forall₂.cons ⟨rfl, Or.inr ⟨fun ys hy => Value.noConfusion hy, rfl⟩⟩ (ih.mp heq2)
        · intro h
          cases h with
          | cons hkv hrest =>
            rename_i q rest2
            rcases hkv with ⟨hk, hv⟩
            rcases hv with ⟨ys2, zs2, hys2, hzs2, hrun⟩ | ⟨hne, hq⟩
            · cases hys2
            · cases q with
              | mk qk qv =>
                simp only at hk hq
                have hk2 := hk.symm
                subst hk2
                subst hq
                rw [recurseStepFields.eq_def]
                have hr := ih.mpr hrest
                change (match recurseStepFields ak ck rest with
                  | Except.error e => Except.error e
                  | Except.ok rest2 => Except.ok ((k, Value.vint i) :: rest2)) =
                    Except.ok ((k, Value.vint i) :: rest2)
                rw [hr]
      | vtemporal f r =>
        constructor
        · intro h
          rw [recurseStepFields.eq_def] at h
          replace h : (match recurseStepFields ak ck rest with
              | Except.error e => Except.error e
              | Except.ok rest2 => Except.ok ((k, Value.vtemporal f r) :: rest2)) = Except.ok fs2 := h
          split at h
          · cases h
          · rename_i rest2 heq2
            cases Except.ok.inj h
            exact List.Forall₂.cons ⟨rfl, Or.inr ⟨fun ys hy => Value.noConfusion hy, rfl⟩⟩ (ih.mp heq2)
        · intro h
          cases h with
          | cons hkv hrest =>
            rename_i q rest2
            rcases hkv with ⟨hk, hv⟩
            rcases hv with ⟨ys2, zs2, hys2, hzs2, hrun⟩ | ⟨hne, hq⟩
            · cases hys2
            · cases q with
              | mk qk qv =>
                simp only at hk hq
                have hk2 := hk.symm
                subst hk2
                subst hq
                rw [recurseStepFields.eq_def]
                have hr := ih.mpr hrest
                change (match recurseStepFields ak ck rest with
                  | Except.error e => Except.error e
                  | Except.ok rest2 => Except.ok ((k, Value.vtemporal f r) :: rest2)) =
                    Except.ok ((k, Value.vtemporal f r) :: rest2)
                rw [hr]
      | vnode p =>
        constructor
        · intro h
          rw [recurseStepFields.eq_def] at h
          replace h : (match recurseStepFields ak ck rest with
              | Except.error e => Except.error e
              | Except.ok rest2 => Except.ok ((k, Value.vnode p) :: rest2)) = Except.ok fs2 := h
          split at h
          · cases h
          · rename_i rest2 heq2
            cases Except.ok.inj h
            exact List.Forall₂.cons ⟨rfl, Or.inr ⟨fun ys hy => Value.noConfusion hy, rfl⟩⟩ (ih.mp heq2)
        · intro h
          cases h with
          | cons hkv hrest =>
            rename_i q rest2
            rcases hkv with ⟨hk, hv⟩
            rcases hv with ⟨ys2, zs2, hys2, hzs2, hrun⟩ | ⟨hne, hq⟩
            · cases hys2
            · cases q with
              | mk qk qv =>
                simp only at hk hq
                have hk2 := hk.symm
                subst hk2
                subst hq
                rw [recurseStepFields.eq_def]
                have hr := ih.mpr hrest
                change (match recurseStepFields ak ck rest with
                  | Except.error e => Except.error e
                  | Except.ok rest2 => Except.ok ((k, Value.vnode p) :: rest2)) =
                    Except.ok ((k, Value.vnode p) :: rest2)
                rw [hr]
      | vobj f =>
        constructor
        · intro h
          rw [recurseStepFields.eq_def] at h
          replace h : (match recurseStepFields ak ck rest with
              | Except.error e => Except.error e
              | Except.ok rest2 => Except.ok ((k, Value.vobj f) :: rest2)) = Except.ok fs2 := h
          split at h
          · cases h
          · rename_i rest2 heq2
            cases Except.ok.inj h
            exact List.Forall₂.cons ⟨rfl, Or.inr ⟨fun ys hy => Value.noConfusion hy, rfl⟩⟩ (ih.mp heq2)
        · intro h
          cases h with
          | cons hkv hrest =>
            rename_i q rest2
            rcases hkv with ⟨hk, hv⟩
            rcases hv with ⟨ys2, zs2, hys2, hzs2, hrun⟩ | ⟨hne, hq⟩
            · cases hys2
            · cases q with
              | mk qk qv =>
                simp only at hk hq
                have hk2 := hk.symm
                subst hk2
                subst hq
                rw [recurseStepFields.eq_def]
                have hr := ih.mpr hrest
                change (match recurseStepFields ak ck rest with
                  | Except.error e => Except.error e
                  | Except.ok rest2 => Except.ok ((k, Value.vobj f) :: rest2)) =
                    Except.ok ((k, Value.vobj f) :: rest2)
                rw [hr]

theorem recurseStepElems_ok_forall₂ {ak ck : String} : ∀ {xs xs2 : List Value},
    recurseStepElems ak ck xs = .ok xs2 ↔ List.Forall₂ (elemRel ak ck) xs xs2 := by
  intro xs
  induction xs with
  | nil =>
    intro xs2
    constructor
    · intro h
      rw [recurseStepElems] at h
      cases Except.ok.inj h
      exact List.Forall₂.nil
    · intro h
      cases h
      rw [recurseStepElems]
  | cons v rest ih =>
    intro xs2
    cases v with
    | varr ys =>
      constructor
      · intro h
        rw [recurseStepElems.eq_def] at h
        replace h : (match removeEmptyArrays ak ck ys with
            | Except.error e => Except.error e
            | Except.ok ys2 =>
                match recurseStepElems ak ck rest with
                | Except.error e => Except.error e
                | Except.ok rest2 => Except.ok (Value.varr ys2 :: rest2)) = Except.ok xs2 := h
        split at h
        · cases h
        · rename_i ys2 heq
          split at h
          · cases h
          · rename_i rest2 heq2
            cases Except.ok.inj h
            exact List.Forall₂.cons (Or.inl ⟨ys, ys2, rfl, rfl, heq⟩) (ih.mp heq2)
      · intro h
        cases h with
        | cons hv hrest =>
          rename_i q rest2
          rcases hv with ⟨ys2, zs2, hys2, hzs2, hrun⟩ | ⟨hne, hq⟩
          · cases Value.varr.inj hys2
            subst hzs2
            rw [recurseStepElems.eq_def]
            have hr := ih.mpr hrest
            change (match removeEmptyArrays ak ck ys with
              | Except.error e => Except.error e
              | Except.ok ys2 =>
                  match recurseStepElems ak ck rest with
                  | Except.error e => Except.error e
                  | Except.ok rest2 => Except.ok (Value.varr ys2 :: rest2)) =
                Except.ok (Value.varr zs2 :: rest2)
            rw [hrun, hr]
          · exact absurd rfl (hne ys)
    | vnull =>
      constructor
      · intro h
        rw [recurseStepElems.eq_def] at h
        replace h : (match recurseStepElems ak ck rest with
            | Except.error e => Except.error e
            | Except.ok rest2 => Except.ok (Value.vnull :: rest2)) = Except.ok xs2 := h
        split at h
        · cases h
        · rename_i rest2 heq2
          cases Except.ok.inj h
          exact List.Forall₂.cons (Or.inr ⟨fun ys hy => Value.noConfusion hy, rfl⟩) (ih.mp heq2)
      · intro h
        cases h with
        | cons hv hrest =>
          rename_i q rest2
          rcases hv with ⟨ys2, zs2, hys2, hzs2, hrun⟩ | ⟨hne, hq⟩
          · cases hys2
          · subst hq
            rw [recurseStepElems.eq_def]
            have hr := ih.mpr hrest
            change (match recurseStepElems ak ck rest with
              | Except.error e => Except.error e
              | Except.ok rest2 => Except.ok (Value.vnull :: rest2)) =
                Except.ok (Value.vnull :: rest2)
            rw [hr]
    | vbool b =>
      constructor
      · intro h
        rw [recurseStepElems.eq_def] at h
        replace h : (match recurseStepElems ak ck rest with
            | Except.error e => Except.error e
            | Except.ok rest2 => Except.ok (Value.vbool b :: rest2)) = Except.ok xs2 := h
        split at h
        · cases h
        · rename_i rest2 heq2
          cases Except.ok.inj h
          exact List.Forall₂.cons (Or.inr ⟨fun ys hy => Value.noConfusion hy, rfl⟩) (ih.mp heq2)
      · intro h
        cases h with
        | cons hv hrest =>
          rename_i q rest2
          rcases hv with ⟨ys2, zs2, hys2, hzs2, hrun⟩ | ⟨hne, hq⟩
          · cases hys2
          · subst hq
            rw [recurseStepElems.eq_def]
            have hr := ih.mpr hrest
            change (match recurseStepElems ak ck rest with
              | Except.error e => Except.error e
              | Except.ok rest2 => Except.ok (Value.vbool b :: rest2)) =
                Except.ok (Value.vbool b :: rest2)
            rw [hr]
    | vnum n =>
      constructor
      · intro h
        rw [recurseStepElems.eq_def] at h
        replace h : (match recurseStepElems ak ck rest with
            | Except.error e => Except.error e
            | Except.ok rest2 => Except.ok (Value.vnum n :: rest2)) = Except.ok xs2 := h
        split at h
        · cases h
        · rename_i rest2 heq2
          cases Except.ok.inj h
          exact List.Forall₂.cons (Or.inr ⟨fun ys hy => Value.noConfusion hy, rfl⟩) (ih.mp heq2)
      · intro h
        cases h with
        | cons hv hrest =>
          rename_i q rest2
          rcases hv with ⟨ys2, zs2, hys2, hzs2, hrun⟩ | ⟨hne, hq⟩
          · cases hys2
          · subst hq
            rw [recurseStepElems.eq_def]
            have hr := ih.mpr hrest
            change (match recurseStepElems ak ck rest with
              | Except.error e => Except.error e
              | Except.ok rest2 => Except.ok (Value.vnum n :: rest2)) =
                Except.ok (Value.vnum n :: rest2)
            rw [hr]
    | vstr s2 =>
      constructor
      · intro h
        rw [recurseStepElems.eq_def] at h
        replace h : (match recurseStepElems ak ck rest with
            | Except.error e => Except.error e
            | Except.ok rest2 => Except.ok (Value.vstr s2 :: rest2)) = Except.ok xs2 := h
        split at h
        · cases h
        · rename_i rest2 heq2
          cases Except.ok.inj h
          exact List.Forall₂.cons (Or.inr ⟨fun ys hy => Value.noConfusion hy, rfl⟩) (ih.mp heq2)
      · intro h
        cases h with
        | cons hv hrest =>
          rename_i q rest2
          rcases hv with ⟨ys2, zs2, hys2, hzs2, hrun⟩ | ⟨hne, hq⟩
          · cases hys2
          · subst hq
            rw [recurseStepElems.eq_def]
            have hr := ih.mpr hrest
            change (match recurseStepElems ak ck rest with
              | Except.error e => Except.error e
              | Except.ok rest2 => Except.ok (Value.vstr s2 :: rest2)) =
                Except.ok (Value.vstr s2 :: rest2)
            rw [hr]
    | vint i =>
      constructor
      · intro h
        rw [recurseStepElems.eq_def] at h
        replace h : (match recurseStepElems ak ck rest with
            | Except.error e => Except.error e
            | Except.ok rest2 => Except.ok (Value.vint i :: rest2)) = Except.ok xs2 := h
        split at h
        · cases h
        · rename_i rest2 heq2
          cases Except.ok.inj h
          exact List.Forall₂.cons (Or.inr ⟨fun ys hy => Value.noConfusion hy, rfl⟩) (ih.mp heq2)
      · intro h
        cases h with
        | cons hv hrest =>
          rename_i q rest2
          rcases hv with ⟨ys2, zs2, hys2, hzs2, hrun⟩ | ⟨hne, hq⟩
          · cases hys2
          · subst hq
            rw [recurseStepElems.eq_def]
            have hr := ih.mpr hrest
            change (match recurseStepElems ak ck rest with
              | Except.error e => Except.error e
              | Except.ok rest2 => Except.ok (Value.vint i :: rest2)) =
                Except.ok (Value.vint i :: rest2)
            rw [hr]
    | vtemporal f r =>
      constructor
      · intro h
        rw [recurseStepElems.eq_def] at h
        replace h : (match recurseStepElems ak ck rest with
            | Except.error e => Except.error e
            | Except.ok rest2 => Except.ok (Value.vtemporal f r :: rest2)) = Except.ok xs2 := h
        split at h
        · cases h
        · rename_i rest2 heq2
          cases Except.ok.inj h
          exact List.Forall₂.cons (Or.inr ⟨fun ys hy => Value.noConfusion hy, rfl⟩) (ih.mp heq2)
      · intro h
        cases h with
        | cons hv hrest =>
          rename_i q rest2
          rcases hv with ⟨ys2, zs2, hys2, hzs2, hrun⟩ | ⟨hne, hq⟩
          · cases hys2
          · subst hq
            rw [recurseStepElems.eq_def]
            have hr := ih.mpr hrest
            change (match recurseStepElems ak ck rest with
              | Except.error e => Except.error e
              | Except.ok rest2 => Except.ok (Value.vtemporal f r :: rest2)) =
                Except.ok (Value.vtemporal f r :: rest2)
            rw [hr]
    | vnode p =>
      constructor
      · intro h
        rw [recurseStepElems.eq_def] at h
        replace h : (match recurseStepElems ak ck rest with
            | Except.error e => Except.error e
            | Except.ok rest2 => Except.ok (Value.vnode p :: rest2)) = Except.ok xs2 := h
        split at h
        · cases h
        · rename_i rest2 heq2
          cases Except.ok.inj h
          exact List.Forall₂.cons (Or.inr ⟨fun ys hy => Value.noConfusion hy, rfl⟩) (ih.mp heq2)
      · intro h
        cases h with
        | cons hv hrest =>
          rename_i q rest2
          rcases hv with ⟨ys2, zs2, hys2, hzs2, hrun⟩ | ⟨hne, hq⟩
          · cases hys2
          · subst hq
            rw [recurseStepElems.eq_def]
            have hr := ih.mpr hrest
            change (match recurseStepElems ak ck rest with
              | Except.error e => Except.error e
              | Except.ok rest2 => Except.ok (Value.vnode p :: rest2)) =
                Except.ok (Value.vnode p :: rest2)
            rw [hr]
    | vobj f =>
      constructor
      · intro h
        rw [recurseStepElems.eq_def] at h
        replace h : (match recurseStepElems ak ck rest with
            | Except.error e => Except.error e
            | Except.ok rest2 => Except.ok (Value.vobj f :: rest2)) = Except.ok xs2 := h
        split at h
        · cases h
        · rename_i rest2 heq2
          cases Except.ok.inj h
          exact List.Forall₂.cons (Or.inr ⟨fun ys hy => Value.noConfusion hy, rfl⟩) (ih.mp heq2)
      · intro h
        cases h with
        | cons hv hrest =>
          rename_i q rest2
          rcases hv with ⟨ys2, zs2, hys2, hzs2, hrun⟩ | ⟨hne, hq⟩
          · cases hys2
          · subst hq
            rw [recurseStepElems.eq_def]
            have hr := ih.mpr hrest
            change (match recurseStepElems ak ck rest with
              | Except.error e => Except.error e
              | Except.ok rest2 => Except.ok (Value.vobj f :: rest2)) =
                Except.ok (Value.vobj f :: rest2)
            rw [hr]

theorem lookupField_setField_self {fs : List (String × Value)} {key : String} {v nv : Value}
    (hl : lookupField fs key = some v) :
    lookupField (setField fs key nv) key = some nv := by
  induction fs with
  | nil => cases hl
  | cons a rest ih =>
    cases a with
    | mk k w =>
      rw [lookupField] at hl
      rw [setField]
      by_cases hk : k = key
      · rw [if_pos hk, lookupField, if_pos hk]
      · rw [if_neg hk] at hl
        rw [if_neg hk, lookupField, if_neg hk]
        exact ih hl

theorem lookupField_setField_other {fs : List (String × Value)} {key key2 : String} {nv : Value}
    (hne : key2 ≠ key) :
    lookupField (setField fs key nv) key2 = lookupField fs key2 := by
  induction fs with
  | nil => rfl
  | cons a rest ih =>
    cases a with
    | mk k w =>
      rw [setField]
      by_cases hk : k = key
      · rw [if_pos hk, lookupField, lookupField]
        have : ¬(k = key2) := fun hc => hne (hc.symm.trans hk)
        rw [if_neg this, if_neg this]
      · rw [if_neg hk, lookupField, lookupField]
        by_cases hk2 : k = key2
        · rw [if_pos hk2, if_pos hk2]
        · rw [if_neg hk2, if_neg hk2]
          exact ih

theorem setField_mem {fs : List (String × Value)} {key : String} {nv : Value} {kv : String × Value}
    (h : kv ∈ setField fs key nv) : kv.2 = nv ∨ kv ∈ fs := by
  induction fs with
  | nil => cases h
  | cons a rest ih =>
    cases a with
    | mk k w =>
      rw [setField] at h
      by_cases hk : k = key
      · rw [if_pos hk] at h
        rcases List.mem_cons.mp h with rfl | h2
        · exact Or.inl rfl
        · exact Or.inr (List.mem_cons_of_mem _ h2)
      · rw [if_neg hk] at h
        rcases List.mem_cons.mp h with rfl | h2
        · exact Or.inr (List.mem_cons_self _ _)
        · rcases ih h2 with h3 | h3
          · exact Or.inl h3
          · exact Or.inr (List.mem_cons_of_mem _ h3)

theorem listGetSet_self {xs : List Value} {i : Nat} {v nv : Value}
    (hl : xs.get? i = some v) : (xs.set i nv).get? i = some nv := by
  induction xs generalizing i with
  | nil => cases hl
  | cons a rest ih =>
    cases i with
    | zero => rfl
    | succ j =>
      rw [List.get?] at hl
      rw [List.set, List.get?]
      exact ih hl

theorem listSet_mem {xs : List Value} {i : Nat} {nv v : Value}
    (h : v ∈ xs.set i nv) : v = nv ∨ v ∈ xs := by
  induction xs generalizing i with
  | nil => cases h
  | cons a rest ih =>
    cases i with
    | zero =>
      rw [List.set] at h
      rcases List.mem_cons.mp h with rfl | h2
      · exact Or.inl rfl
      · exact Or.inr (List.mem_cons_of_mem _ h2)
    | succ j =>
      rw [List.set] at h
      rcases List.mem_cons.mp h with rfl | h2
      · exact Or.inr (List.mem_cons_self _ _)
      · rcases ih h2 with h3 | h3
        · exact Or.inl h3
        · exact Or.inr (List.mem_cons_of_mem _ h3)

/-- Lookup through the field correspondence of one `for...in` pass: a key is
bound after the pass exactly when it was bound before, to the pruned array
if the value was an array, and to the same value otherwise. -/
theorem lookupField_forall₂ {ak ck : String} {fs1 fs2 : List (String × Value)}
    (h : List.Forall₂ (fieldRun ak ck) fs1 fs2) (key : String) :
    (lookupField fs1 key = none ∧ lookupField fs2 key = none) ∨
      (∃ v w, lookupField fs1 key = some v ∧ lookupField fs2 key = some w ∧
        ((∃ ys zs, v = .varr ys ∧ w = .varr zs ∧ removeEmptyArrays ak ck ys = .ok zs) ∨
          ((∀ ys, v ≠ .varr ys) ∧ w = v))) := by
  induction h with
  | nil => exact Or.inl ⟨rfl, rfl⟩
  | cons hpq hrest ih =>
    rename_i p q l1 l2
    cases p with
    | mk pk pv =>
      cases q with
      | mk qk qv =>
        rcases hpq with ⟨hk, hv⟩
        simp only at hk
        have hk2 := hk.symm
        subst hk2
        rw [lookupField, lookupField]
        by_cases hkey : pk = key
        · rw [if_pos hkey, if_pos hkey]
          exact Or.inr ⟨pv, qv, rfl, rfl, hv⟩
        · rw [if_neg hkey, if_neg hkey]
          exact ih

/-- Element lookup through the element correspondence of one `for...in`
pass. -/
theorem get?_forall₂ {ak ck : String} {xs1 xs2 : List Value}
    (h : List.Forall₂ (elemRel ak ck) xs1 xs2) (i : Nat) :
    (xs1.get? i = none ∧ xs2.get? i = none) ∨
      (∃ v w, xs1.get? i = some v ∧ xs2.get? i = some w ∧
        ((∃ ys zs, v = .varr ys ∧ w = .varr zs ∧ removeEmptyArrays ak ck ys = .ok zs) ∨
          ((∀ ys, v ≠ .varr ys) ∧ w = v))) := by
  induction h generalizing i with
  | nil => exact Or.inl ⟨rfl, rfl⟩
  | cons hpq hrest ih =>
    rename_i v w l1 l2
    cases i with
    | zero => exact Or.inr ⟨v, w, rfl, rfl, hpq⟩
    | succ j => exact ih j

theorem isNullAt_true_iff {v : Value} {key : String} :
    isNullAt v key = true ↔ getProp v key = some .vnull := by
  rw [isNullAt]
  cases hg : getProp v key with
  | none => simp
  | some w => cases w <;> simp

theorem isNullAt_congr {a b : Value} {key : String}
    (h : getProp b key = some .vnull ↔ getProp a key = some .vnull) :
    isNullAt b key = isNullAt a key := by
  rw [Bool.eq_iff_iff, isNullAt_true_iff, isNullAt_true_iff]
  exact h

theorem listGetSet_other {xs : List Value} {i j : Nat} {nv : Value} (hne : j ≠ i) :
    (xs.set i nv).get? j = xs.get? j := by
  induction xs generalizing i j with
  | nil => rfl
  | cons a rest ih =>
    cases i with
    | zero =>
      cases j with
      | zero => exact absurd rfl hne
      | succ j2 => rfl
    | succ i2 =>
      cases j with
      | zero => rfl
      | succ j2 =>
        rw [List.set, List.get?, List.get?]
        exact ih (fun hc => hne (by rw [hc]))

theorem setPropVal_nullAt {x : Value} {ak : String} {ys : List Value}
    (hg : getProp x ak = some (.varr ys)) (key : String) :
    (getProp (setPropVal x ak (.varr [])) key = some .vnull ↔ getProp x key = some .vnull) := by
  cases x with
  | vobj fs =>
    rw [getProp] at hg
    rw [setPropVal, getProp, getProp]
    by_cases hk : key = ak
    · subst hk
      rw [lookupField_setField_self hg, hg]
      constructor
      · intro hc; cases Option.some.inj hc
      · intro hc; cases Option.some.inj hc
    · rw [lookupField_setField_other hk]
  | varr xs =>
    rw [getProp] at hg
    revert hg
    cases hia : jsIndex ak with
    | none => intro hg; cases hg
    | some ia =>
      intro hg
      replace hg : xs.get? ia = some (Value.varr ys) := hg
      have hsp : setPropVal (Value.varr xs) ak (Value.varr []) =
          Value.varr (xs.set ia (Value.varr [])) := by
        rw [setPropVal, hia]
      rw [hsp, getProp, getProp]
      cases hik : jsIndex key with
      | none => exact Iff.rfl
      | some i =>
        change ((xs.set ia (Value.varr [])).get? i = some Value.vnull) ↔
          (xs.get? i = some Value.vnull)
        by_cases hi : i = ia
        · subst hi
          rw [listGetSet_self hg, hg]
          constructor
          · intro hc; cases Option.some.inj hc
          · intro hc; cases Option.some.inj hc
        · rw [listGetSet_other hi]
  | vnull => simp [getProp] at hg
  | vbool b => simp [getProp] at hg
  | vnum n => simp [getProp] at hg
  | vstr s => simp [getProp] at hg
  | vint i => simp [getProp] at hg
  | vtemporal f r => simp [getProp] at hg
  | vnode p => simp [getProp] at hg

theorem setPropVal_truthy (x : Value) (ak : String) (nv : Value) :
    truthy (setPropVal x ak nv) = truthy x := by
  cases x with
  | vobj fs => rfl
  | varr xs =>
    rw [setPropVal]
    cases jsIndex ak with
    | none => rfl
    | some i => rfl
  | vnull => rfl
  | vbool b => rfl
  | vnum n => rfl
  | vstr s => rfl
  | vint i => rfl
  | vtemporal f r => rfl
  | vnode p => rfl

theorem checkAndReplace_pres {ak ck : String} {a a1 : Value}
    (h : checkAndReplace ak ck a = .ok a1) :
    truthy a1 = truthy a ∧
      ∀ key, (getProp a1 key = some .vnull ↔ getProp a key = some .vnull) := by
  rcases (checkAndReplace_ok_inv h).2 with ⟨ys, hg, _, rfl⟩ | ⟨_, rfl⟩
  · exact ⟨setPropVal_truthy a ak _, fun key => setPropVal_nullAt hg key⟩
  · exact ⟨rfl, fun key => Iff.rfl⟩

theorem recurseStep_pres {ak ck : String} {a1 b : Value}
    (h : recurseStep ak ck a1 = .ok b) :
    truthy b = truthy a1 ∧
      ∀ key, (getProp b key = some .vnull ↔ getProp a1 key = some .vnull) := by
  cases a1 with
  | vobj fs =>
    rcases recurseStep_obj_ok.mp h with ⟨fs2, hf, rfl⟩
    refine ⟨rfl, fun key => ?_⟩
    rw [getProp, getProp]
    rcases lookupField_forall₂ (recurseStepFields_ok_forall₂.mp hf) key with
      ⟨h1, h2⟩ | ⟨v, w, h1, h2, ⟨ys, zs, rfl, rfl, _⟩ | ⟨_, rfl⟩⟩
    · rw [h1, h2]
    · rw [h1, h2]
      constructor
      · intro hc; cases Option.some.inj hc
      · intro hc; cases Option.some.inj hc
    · rw [h1, h2]
  | varr xs =>
    rcases recurseStep_arr_ok.mp h with ⟨xs2, hf, rfl⟩
    refine ⟨rfl, fun key => ?_⟩
    rw [getProp, getProp]
    cases hik : jsIndex key with
    | none => exact Iff.rfl
    | some i =>
      change (xs2.get? i = some Value.vnull) ↔ (xs.get? i = some Value.vnull)
      rcases get?_forall₂ (recurseStepElems_ok_forall₂.mp hf) i with
        ⟨h1, h2⟩ | ⟨v, w, h1, h2, ⟨ys, zs, rfl, rfl, _⟩ | ⟨_, rfl⟩⟩
      · rw [h1, h2]
      · rw [h1, h2]
        constructor
        · intro hc; cases Option.some.inj hc
        · intro hc; cases Option.some.inj hc
      · rw [h1, h2]
  | vnull =>
    cases (recurseStep_other_ok (by simp [notObjArr]) h)
    exact ⟨rfl, fun key => Iff.rfl⟩
  | vbool bb =>
    cases (recurseStep_other_ok (by simp [notObjArr]) h)
    exact ⟨rfl, fun key => Iff.rfl⟩
  | vnum n =>
    cases (recurseStep_other_ok (by simp [notObjArr]) h)
    exact ⟨rfl, fun key => Iff.rfl⟩
  | vstr s =>
    cases (recurseStep_other_ok (by simp [notObjArr]) h)
    exact ⟨rfl, fun key => Iff.rfl⟩
  | vint i =>
    cases (recurseStep_other_ok (by simp [notObjArr]) h)
    exact ⟨rfl, fun key => Iff.rfl⟩
  | vtemporal f r =>
    cases (recurseStep_other_ok (by simp [notObjArr]) h)
    exact ⟨rfl, fun key => Iff.rfl⟩
  | vnode p =>
    cases (recurseStep_other_ok (by simp [notObjArr]) h)
    exact ⟨rfl, fun key => Iff.rfl⟩

theorem elemRun_pres {ak ck : String} {a b : Value} (h : elemRun ak ck a b) :
    truthy b = truthy a ∧
      ∀ key, (getProp b key = some .vnull ↔ getProp a key = some .vnull) := by
  rcases h with ⟨a1, hA, hB⟩
  have p1 := checkAndReplace_pres hA
  have p2 := recurseStep_pres hB
  exact ⟨p2.1.trans p1.1, fun key => (p2.2 key).trans (p1.2 key)⟩

theorem checkFirst_pres {ak ck : String} {ys zs : List Value}
    (h : removeEmptyArrays ak ck ys = .ok zs) (ck2 : String) :
    checkFirst ck2 zs = checkFirst ck2 ys := by
  have hf := removeEmptyArrays_ok_forall₂.mp h
  cases hf with
  | nil => rfl
  | cons he hrest =>
    rename_i e e2 t t2
    rw [checkFirst, checkFirst]
    have hp := elemRun_pres he
    rw [hp.1, isNullAt_congr (hp.2 ck2)]

theorem sizeOf_varr_nil_le' {ys : List Value} :
    sizeOf (Value.varr ([] : List Value)) ≤ sizeOf (Value.varr ys) := sizeOf_varr_nil_le

mutual

theorem idem_elem {ak ck : String} : ∀ {a a1 b : Value},
    checkAndReplace ak ck a = .ok a1 → recurseStep ak ck a1 = .ok b →
    checkAndReplace ak ck b = .ok b ∧ recurseStep ak ck b = .ok b
  | .vnull, _, _, hA, _ => by cases hA
  | .vobj fs, a1, b, hA, hB => by
    rcases (checkAndReplace_ok_inv hA).2 with ⟨ys, hg, hcf, ha1⟩ | ⟨hn, ha1⟩
    · subst ha1
      replace hB : recurseStep ak ck (Value.vobj (setField fs ak (Value.varr []))) = .ok b := hB
      rcases recurseStep_obj_ok.mp hB with ⟨fs2, hf, rfl⟩
      replace hg : lookupField fs ak = some (Value.varr ys) := hg
      have hgA : lookupField (setField fs ak (Value.varr [])) ak = some (Value.varr []) :=
        lookupField_setField_self hg
      have hl2 : lookupField fs2 ak = some (Value.varr []) := by
        rcases lookupField_forall₂ (recurseStepFields_ok_forall₂.mp hf) ak with
          ⟨h1, h2⟩ | ⟨v, w, h1, h2, ⟨ys0, zs0, hv, hw, hrun⟩ | ⟨hne, hw⟩⟩
        · rw [hgA] at h1
          cases h1
        · rw [hgA] at h1
          cases Option.some.inj h1
          cases Value.varr.inj hv
          rw [removeEmptyArrays_nil_eq] at hrun
          cases Except.ok.inj hrun
          rw [h2, hw]
        · rw [hgA] at h1
          cases Option.some.inj h1
          exact absurd rfl (hne [])
      constructor
      · refine checkAndReplace_eq_norepl (fun hc => Value.noConfusion hc) ?_
        intro ys3 hg3
        replace hg3 : lookupField fs2 ak = some (Value.varr ys3) := hg3
        rw [hl2] at hg3
        cases Value.varr.inj (Option.some.inj hg3)
        rfl
      · exact recurseStep_obj_ok.mpr ⟨fs2, idem_fields hf, rfl⟩
    · subst ha1
      rcases recurseStep_obj_ok.mp hB with ⟨fs2, hf, rfl⟩
      constructor
      · refine checkAndReplace_eq_norepl (fun hc => Value.noConfusion hc) ?_
        intro ys3 hg3
        replace hg3 : lookupField fs2 ak = some (Value.varr ys3) := hg3
        rcases lookupField_forall₂ (recurseStepFields_ok_forall₂.mp hf) ak with
          ⟨h1, h2⟩ | ⟨v, w, h1, h2, ⟨ys0, zs0, hv, hw, hrun⟩ | ⟨hne, hw⟩⟩
        · rw [hg3] at h2
          cases h2
        · rw [hg3] at h2
          cases Option.some.inj h2
          subst hv
          cases Value.varr.inj hw
          have hcf0 : checkFirst ck ys0 = false := hn ys0 h1
          rw [checkFirst_pres hrun ck]
          exact hcf0
        · rw [hg3] at h2
          cases Option.some.inj h2
          subst hw
          exact absurd rfl (hne ys3)
      · exact recurseStep_obj_ok.mpr ⟨fs2, idem_fields hf, rfl⟩
  | .varr xs, a1, b, hA, hB => by
    rcases (checkAndReplace_ok_inv hA).2 with ⟨ys, hg, hcf, ha1⟩ | ⟨hn, ha1⟩
    · rw [getProp] at hg
      revert hg
      cases hia : jsIndex ak with
      | none =>
        intro hg
        replace hg : (none : Option Value) = some (Value.varr ys) := hg
        cases hg
      | some ia =>
        intro hg
        replace hg : xs.get? ia = some (Value.varr ys) := hg
        have hsp : setPropVal (Value.varr xs) ak (Value.varr []) =
            Value.varr (xs.set ia (Value.varr [])) := by
          rw [setPropVal, hia]
        rw [hsp] at ha1
        subst ha1
        rcases recurseStep_arr_ok.mp hB with ⟨xs2, hf, rfl⟩
        have hgA : (xs.set ia (Value.varr [])).get? ia = some (Value.varr []) :=
          listGetSet_self hg
        have hl2 : xs2.get? ia = some (Value.varr []) := by
          rcases get?_forall₂ (recurseStepElems_ok_forall₂.mp hf) ia with
            ⟨h1, h2⟩ | ⟨v, w, h1, h2, ⟨ys0, zs0, hv, hw, hrun⟩ | ⟨hne, hw⟩⟩
          · rw [hgA] at h1
            cases h1
          · rw [hgA] at h1
            cases Option.some.inj h1
            cases Value.varr.inj hv
            rw [removeEmptyArrays_nil_eq] at hrun
            cases Except.ok.inj hrun
            rw [h2, hw]
          · rw [hgA] at h1
            cases Option.some.inj h1
            exact absurd rfl (hne [])
        constructor
        · refine checkAndReplace_eq_norepl (fun hc => Value.noConfusion hc) ?_
          intro ys3 hg3
          rw [getProp, hia] at hg3
          replace hg3 : xs2.get? ia = some (Value.varr ys3) := hg3
          rw [hl2] at hg3
          cases Value.varr.inj (Option.some.inj hg3)
          rfl
        · exact recurseStep_arr_ok.mpr ⟨xs2, idem_elems hf, rfl⟩
    · subst ha1
      rcases recurseStep_arr_ok.mp hB with ⟨xs2, hf, rfl⟩
      constructor
      · refine checkAndReplace_eq_norepl (fun hc => Value.noConfusion hc) ?_
        intro ys3 hg3
        rw [getProp] at hg3
        revert hg3
        cases hia : jsIndex ak with
        | none =>
          intro hg3
          replace hg3 : (none : Option Value) = some (Value.varr ys3) := hg3
          cases hg3
        | some ia =>
          intro hg3
          replace hg3 : xs2.get? ia = some (Value.varr ys3) := hg3
          rcases get?_forall₂ (recurseStepElems_ok_forall₂.mp hf) ia with
            ⟨h1, h2⟩ | ⟨v, w, h1, h2, ⟨ys0, zs0, hv, hw, hrun⟩ | ⟨hne, hw⟩⟩
          · rw [hg3] at h2
            cases h2
          · rw [hg3] at h2
            cases Option.some.inj h2
            subst hv
            cases Value.varr.inj hw
            have hcf0 : checkFirst ck ys0 = false := by
              refine hn ys0 ?_
              rw [getProp, hia]
              exact h1
            rw [checkFirst_pres hrun ck]
            exact hcf0
          · rw [hg3] at h2
            cases Option.some.inj h2
            subst hw
            exact absurd rfl (hne ys3)
      · exact recurseStep_arr_ok.mpr ⟨xs2, idem_elems hf, rfl⟩
  | .vbool bb, a1, b, hA, hB => by
    rcases (checkAndReplace_ok_inv hA).2 with ⟨ys, hg, _, _⟩ | ⟨hn, ha1⟩
    · simp [getProp] at hg
    · subst ha1
      cases recurseStep_other_ok (by simp [notObjArr]) hB
      exact ⟨hA, recurseStep_other (by simp [notObjArr])⟩
  | .vnum n, a1, b, hA, hB => by
    rcases (checkAndReplace_ok_inv hA).2 with ⟨ys, hg, _, _⟩ | ⟨hn, ha1⟩
    · simp [getProp] at hg
    · subst ha1
      cases recurseStep_other_ok (by simp [notObjArr]) hB
      exact ⟨hA, recurseStep_other (by simp [notObjArr])⟩
  | .vstr s, a1, b, hA, hB => by
    rcases (checkAndReplace_ok_inv hA).2 with ⟨ys, hg, _, _⟩ | ⟨hn, ha1⟩
    · simp [getProp] at hg
    · subst ha1
      cases recurseStep_other_ok (by simp [notObjArr]) hB
      exact ⟨hA, recurseStep_other (by simp [notObjArr])⟩
  | .vint i, a1, b, hA, hB => by
    rcases (checkAndReplace_ok_inv hA).2 with ⟨ys, hg, _, _⟩ | ⟨hn, ha1⟩
    · simp [getProp] at hg
    · subst ha1
      cases recurseStep_other_ok (by simp [notObjArr]) hB
      exact ⟨hA, recurseStep_other (by simp [notObjArr])⟩
  | .vtemporal f r, a1, b, hA, hB => by
    rcases (checkAndReplace_ok_inv hA).2 with ⟨ys, hg, _, _⟩ | ⟨hn, ha1⟩
    · simp [getProp] at hg
    · subst ha1
      cases recurseStep_other_ok (by simp [notObjArr]) hB
      exact ⟨hA, recurseStep_other (by simp [notObjArr])⟩
  | .vnode p, a1, b, hA, hB => by
    rcases (checkAndReplace_ok_inv hA).2 with ⟨ys, hg, _, _⟩ | ⟨hn, ha1⟩
    · simp [getProp] at hg
    · subst ha1
      cases recurseStep_other_ok (by simp [notObjArr]) hB
      exact ⟨hA, recurseStep_other (by simp [notObjArr])⟩
termination_by a => sizeOf a
decreasing_by
  all_goals (first
    | (have hz := setField_sizeOf hg sizeOf_varr_nil_le'
       simp
       simp at hz
       omega)
    | (have hz := listSet_sizeOf hg sizeOf_varr_nil_le'
       simp
       simp at hz
       omega)
    | (simp
       try omega)
    | omega)

theorem idem_list {ak ck : String} : ∀ {ys zs : List Value},
    removeEmptyArrays ak ck ys = .ok zs → removeEmptyArrays ak ck zs = .ok zs
  | [], zs, h => by
    rw [removeEmptyArrays_nil_eq] at h
    cases Except.ok.inj h
    exact removeEmptyArrays_nil_eq ak ck
  | x :: rest, zs, h => by
    rcases removeEmptyArrays_cons_ok.mp h with ⟨x1, x2, rest2, h1, h2, h3, rfl⟩
    have he := idem_elem h1 h2
    have hr := idem_list h3
    exact removeEmptyArrays_cons_ok.mpr ⟨x2, x2, rest2, he.1, he.2, hr, rfl⟩
termination_by ys => sizeOf ys
decreasing_by
  all_goals simp
  all_goals try omega

theorem idem_fields {ak ck : String} : ∀ {fs1 fs2 : List (String × Value)},
    recurseStepFields ak ck fs1 = .ok fs2 → recurseStepFields ak ck fs2 = .ok fs2
  | [], fs2, h => by
    rw [recurseStepFields] at h
    cases Except.ok.inj h
    rw [recurseStepFields]
  | kv :: rest, fs2, h => by
    have hf := recurseStepFields_ok_forall₂.mp h
    cases hf with
    | cons hpq hrest =>
      rename_i q rest2
      refine recurseStepFields_ok_forall₂.mpr (List.Forall₂.cons ?_ ?_)
      · rcases hpq with ⟨hk, hv⟩
        rcases hv with ⟨ys, zs, hys, hzs, hrun⟩ | ⟨hne, hq⟩
        · exact ⟨rfl, Or.inl ⟨zs, zs, hzs, hzs, idem_list hrun⟩⟩
        · refine ⟨rfl, Or.inr ⟨?_, rfl⟩⟩
          rw [hq]
          exact hne
      · exact recurseStepFields_ok_forall₂.mp
          (idem_fields (recurseStepFields_ok_forall₂.mpr hrest))
termination_by fs1 => sizeOf fs1
decreasing_by
  all_goals (first
    | (obtain ⟨k1, v1⟩ := kv
       simp only at hys
       subst hys
       simp
       try omega)
    | (simp
       try omega)
    | omega)

theorem idem_elems {ak ck : String} : ∀ {xs1 xs2 : List Value},
    recurseStepElems ak ck xs1 = .ok xs2 → recurseStepElems ak ck xs2 = .ok xs2
  | [], xs2, h => by
    rw [recurseStepElems] at h
    cases Except.ok.inj h
    rw [recurseStepElems]
  | v :: rest, xs2, h => by
    have hf := recurseStepElems_ok_forall₂.mp h
    cases hf with
    | cons hpq hrest =>
      rename_i w rest2
      refine recurseStepElems_ok_forall₂.mpr (List.Forall₂.cons ?_ ?_)
      · rcases hpq with ⟨ys, zs, hys, hzs, hrun⟩ | ⟨hne, hq⟩
        · exact Or.inl ⟨zs, zs, hzs, hzs, idem_list hrun⟩
        · refine Or.inr ⟨?_, rfl⟩
          rw [hq]
          exact hne
      · exact recurseStepElems_ok_forall₂.mp
          (idem_elems (recurseStepElems_ok_forall₂.mpr hrest))
termination_by xs1 => sizeOf xs1
decreasing_by
  all_goals (first
    | (subst hys
       simp
       try omega)
    | (simp
       try omega)
    | omega)

end

theorem procOK_cons_inv : ∀ {x : Value} {rest : List Value}, procOK (x :: rest) = true →
    x ≠ .vnull ∧ elemOK x = true ∧ procOK rest = true := by
  intro x rest h
  cases x with
  | vnull => cases h
  | vbool b =>
    replace h : (elemOK (Value.vbool b) && procOK rest) = true := h
    rw [Bool.and_eq_true] at h
    exact ⟨fun hc => Value.noConfusion hc, h.1, h.2⟩
  | vnum n =>
    replace h : (elemOK (Value.vnum n) && procOK rest) = true := h
    rw [Bool.and_eq_true] at h
    exact ⟨fun hc => Value.noConfusion hc, h.1, h.2⟩
  | vstr s =>
    replace h : (elemOK (Value.vstr s) && procOK rest) = true := h
    rw [Bool.and_eq_true] at h
    exact ⟨fun hc => Value.noConfusion hc, h.1, h.2⟩
  | vint i =>
    replace h : (elemOK (Value.vint i) && procOK rest) = true := h
    rw [Bool.and_eq_true] at h
    exact ⟨fun hc => Value.noConfusion hc, h.1, h.2⟩
  | vtemporal f r =>
    replace h : (elemOK (Value.vtemporal f r) && procOK rest) = true := h
    rw [Bool.and_eq_true] at h
    exact ⟨fun hc => Value.noConfusion hc, h.1, h.2⟩
  | vnode p =>
    replace h : (elemOK (Value.vnode p) && procOK rest) = true := h
    rw [Bool.and_eq_true] at h
    exact ⟨fun hc => Value.noConfusion hc, h.1, h.2⟩
  | varr xs =>
    replace h : (elemOK (Value.varr xs) && procOK rest) = true := h
    rw [Bool.and_eq_true] at h
    exact ⟨fun hc => Value.noConfusion hc, h.1, h.2⟩
  | vobj fs =>
    replace h : (elemOK (Value.vobj fs) && procOK rest) = true := h
    rw [Bool.and_eq_true] at h
    exact ⟨fun hc => Value.noConfusion hc, h.1, h.2⟩

theorem mem_lookup_nodup : ∀ {fs : List (String × Value)} {k : String} {v : Value},
    (fs.map Prod.fst).Nodup → (k, v) ∈ fs → lookupField fs k = some v := by
  intro fs
  induction fs with
  | nil =>
    intro k v _ hm
    cases hm
  | cons a rest ih =>
    intro k v hnd hm
    rcases a with ⟨k0, v0⟩
    rw [List.map_cons, List.nodup_cons] at hnd
    rw [lookupField]
    rcases List.mem_cons.mp hm with heq | hm2
    · cases heq
      rw [if_pos rfl]
    · have hk : k ≠ k0 := by
        intro hc
        subst hc
        exact hnd.1 (List.mem_map.mpr ⟨(k, v), hm2, rfl⟩)
      rw [if_neg (fun hc => hk hc.symm)]
      exact ih hnd.2 hm2

theorem lookupField_none : ∀ {fs : List (String × Value)} {key : String},
    lookupField fs key = none → ∀ kv ∈ fs, kv.1 ≠ key := by
  intro fs
  induction fs with
  | nil =>
    intro key _ kv hm
    cases hm
  | cons a rest ih =>
    intro key h kv hm
    rcases a with ⟨k0, v0⟩
    rw [lookupField] at h
    by_cases hk : k0 = key
    · rw [if_pos hk] at h
      cases h
    · rw [if_neg hk] at h
      rcases List.mem_cons.mp hm with heq | hm2
      · cases heq
        exact hk
      · exact ih h kv hm2

mutual

theorem c4_list {ak ck : String} (hak : jsIndex ak = none) : ∀ (data : List Value),
    procOK data = true → wfDataL data = true →
    removeEmptyArrays ak ck data = .ok (pruneSpecList ak ck data)
  | [], _, _ => by
    rw [pruneSpecList]
    exact removeEmptyArrays_nil_eq ak ck
  | x :: rest, hp, hw => by
    rcases procOK_cons_inv hp with ⟨hnn, hex, hpr⟩
    rw [wfDataL, Bool.and_eq_true] at hw
    rcases c4_elem hak x hnn hex hw.1 with ⟨x1, hA, hB⟩
    rw [pruneSpecList]
    exact removeEmptyArrays_cons_ok.mpr
      ⟨x1, pruneSpecElem ak ck x, pruneSpecList ak ck rest, hA, hB,
        c4_list hak rest hpr hw.2, rfl⟩
termination_by data => sizeOf data
decreasing_by
  all_goals simp
  all_goals try omega

theorem c4_elem {ak ck : String} (hak : jsIndex ak = none) : ∀ (x : Value),
    x ≠ .vnull → elemOK x = true → wfData x = true →
    ∃ x1, checkAndReplace ak ck x = .ok x1 ∧
      recurseStep ak ck x1 = .ok (pruneSpecElem ak ck x)
  | .vnull, hnn, _, _ => absurd rfl hnn
  | .vint i, _, _, hw => by cases hw
  | .vtemporal f r, _, _, hw => by cases hw
  | .vnode p, _, _, hw => by cases hw
  | .vbool b, _, _, _ => by
    refine ⟨.vbool b, checkAndReplace_eq_norepl (fun hc => Value.noConfusion hc) ?_, ?_⟩
    · intro ys hg
      simp [getProp] at hg
    · exact recurseStep_other (by simp [notObjArr])
  | .vnum n, _, _, _ => by
    refine ⟨.vnum n, checkAndReplace_eq_norepl (fun hc => Value.noConfusion hc) ?_, ?_⟩
    · intro ys hg
      simp [getProp] at hg
    · exact recurseStep_other (by simp [notObjArr])
  | .vstr s, _, _, _ => by
    refine ⟨.vstr s, checkAndReplace_eq_norepl (fun hc => Value.noConfusion hc) ?_, ?_⟩
    · intro ys hg
      simp [getProp] at hg
    · exact recurseStep_other (by simp [notObjArr])
  | .varr xs, _, hex, hw => by
    replace hex : elemsOK xs = true := hex
    replace hw : wfDataL xs = true := hw
    refine ⟨.varr xs, checkAndReplace_eq_norepl (fun hc => Value.noConfusion hc) ?_, ?_⟩
    · intro ys hg
      rw [getProp, hak] at hg
      cases hg
    · exact recurseStep_arr_ok.mpr ⟨pruneSpecElems ak ck xs, c4_elems hak xs hex hw, rfl⟩
  | .vobj fs, _, hex, hw => by
    replace hex : fieldsOK fs = true := hex
    replace hw : (decide ((fs.map Prod.fst).Nodup) && wfDataF fs) = true := hw
    rw [Bool.and_eq_true] at hw
    have hnd : (fs.map Prod.fst).Nodup := of_decide_eq_true hw.1
    cases hlk : lookupField fs ak with
    | none =>
      refine ⟨.vobj fs, checkAndReplace_eq_norepl (fun hc => Value.noConfusion hc) ?_, ?_⟩
      · intro ys hg
        replace hg : lookupField fs ak = some (Value.varr ys) := hg
        rw [hlk] at hg
        cases hg
      · refine recurseStep_obj_ok.mpr ⟨pruneSpecFields ak ck fs, ?_, rfl⟩
        refine c4_fields_norepl hak fs hex hw.2 ?_
        intro k2 ys2 hmem hk2
        subst hk2
        exact absurd rfl (lookupField_none hlk (k2, Value.varr ys2) hmem)
    | some v =>
      revert hlk
      cases v with
      | varr ys =>
        intro hlk
        by_cases hcf : checkFirst ck ys = true
        · refine ⟨setPropVal (.vobj fs) ak (.varr []),
            checkAndReplace_eq_repl (fun hc => Value.noConfusion hc) hlk hcf, ?_⟩
          have hsp : setPropVal (Value.vobj fs) ak (.varr []) =
              Value.vobj (setField fs ak (.varr [])) := rfl
          rw [hsp]
          exact recurseStep_obj_ok.mpr
            ⟨pruneSpecFields ak ck fs, c4_fields_repl hak fs ys hex hw.2 hnd hlk hcf, rfl⟩
        · refine ⟨.vobj fs, checkAndReplace_eq_norepl (fun hc => Value.noConfusion hc) ?_, ?_⟩
          · intro ys2 hg
            replace hg : lookupField fs ak = some (Value.varr ys2) := hg
            rw [hlk] at hg
            cases Value.varr.inj (Option.some.inj hg)
            simp only [Bool.not_eq_true] at hcf
            exact hcf
          · refine recurseStep_obj_ok.mpr ⟨pruneSpecFields ak ck fs, ?_, rfl⟩
            refine c4_fields_norepl hak fs hex hw.2 ?_
            intro k2 ys2 hmem hk2
            subst hk2
            have hx := mem_lookup_nodup hnd hmem
            rw [hlk] at hx
            cases Value.varr.inj (Option.some.inj hx)
            simp only [Bool.not_eq_true] at hcf
            exact hcf
      | vnull =>
        intro hlk
        refine ⟨.vobj fs, checkAndReplace_eq_norepl (fun hc => Value.noConfusion hc) ?_, ?_⟩
        · intro ys hg
          replace hg : lookupField fs ak = some (Value.varr ys) := hg
          rw [hlk] at hg
          cases Option.some.inj hg
        · refine recurseStep_obj_ok.mpr ⟨pruneSpecFields ak ck fs, ?_, rfl⟩
          refine c4_fields_norepl hak fs hex hw.2 ?_
          intro k2 ys2 hmem hk2
          subst hk2
          have hx := mem_lookup_nodup hnd hmem
          rw [hlk] at hx
          cases Option.some.inj hx
      | vbool b2 =>
        intro hlk
        refine ⟨.vobj fs, checkAndReplace_eq_norepl (fun hc => Value.noConfusion hc) ?_, ?_⟩
        · intro ys hg
          replace hg : lookupField fs ak = some (Value.varr ys) := hg
          rw [hlk] at hg
          cases Option.some.inj hg
        · refine recurseStep_obj_ok.mpr ⟨pruneSpecFields ak ck fs, ?_, rfl⟩
          refine c4_fields_norepl hak fs hex hw.2 ?_
          intro k2 ys2 hmem hk2
          subst hk2
          have hx := mem_lookup_nodup hnd hmem
          rw [hlk] at hx
          cases Option.some.inj hx
      | vnum n2 =>
        intro hlk
        refine ⟨.vobj fs, checkAndReplace_eq_norepl (fun hc => Value.noConfusion hc) ?_, ?_⟩
        · intro ys hg
          replace hg : lookupField fs ak = some (Value.varr ys) := hg
          rw [hlk] at hg
          cases Option.some.inj hg
        · refine recurseStep_obj_ok.mpr ⟨pruneSpecFields ak ck fs, ?_, rfl⟩
          refine c4_fields_norepl hak fs hex hw.2 ?_
          intro k2 ys2 hmem hk2
          subst hk2
          have hx := mem_lookup_nodup hnd hmem
          rw [hlk] at hx
          cases Option.some.inj hx
      | vstr s2 =>
        intro hlk
        refine ⟨.vobj fs, checkAndReplace_eq_norepl (fun hc => Value.noConfusion hc) ?_, ?_⟩
        · intro ys hg
          replace hg : lookupField fs ak = some (Value.varr ys) := hg
          rw [hlk] at hg
          cases Option.some.inj hg
        · refine recurseStep_obj_ok.mpr ⟨pruneSpecFields ak ck fs, ?_, rfl⟩
          refine c4_fields_norepl hak fs hex hw.2 ?_
          intro k2 ys2 hmem hk2
          subst hk2
          have hx := mem_lookup_nodup hnd hmem
          rw [hlk] at hx
          cases Option.some.inj hx
      | vint i2 =>
        intro hlk
        refine ⟨.vobj fs, checkAndReplace_eq_norepl (fun hc => Value.noConfusion hc) ?_, ?_⟩
        · intro ys hg
          replace hg : lookupField fs ak = some (Value.varr ys) := hg
          rw [hlk] at hg
          cases Option.some.inj hg
        · refine recurseStep_obj_ok.mpr ⟨pruneSpecFields ak ck fs, ?_, rfl⟩
          refine c4_fields_norepl hak fs hex hw.2 ?_
          intro k2 ys2 hmem hk2
          subst hk2
          have hx := mem_lookup_nodup hnd hmem
          rw [hlk] at hx
          cases Option.some.inj hx
      | vtemporal f2 r2 =>
        intro hlk
        refine ⟨.vobj fs, checkAndReplace_eq_norepl (fun hc => Value.noConfusion hc) ?_, ?_⟩
        · intro ys hg
          replace hg : lookupField fs ak = some (Value.varr ys) := hg
          rw [hlk] at hg
          cases Option.some.inj hg
        · refine recurseStep_obj_ok.mpr ⟨pruneSpecFields ak ck fs, ?_, rfl⟩
          refine c4_fields_norepl hak fs hex hw.2 ?_
          intro k2 ys2 hmem hk2
          subst hk2
          have hx := mem_lookup_nodup hnd hmem
          rw [hlk] at hx
          cases Option.some.inj hx
      | vnode p2 =>
        intro hlk
        refine ⟨.vobj fs, checkAndReplace_eq_norepl (fun hc => Value.noConfusion hc) ?_, ?_⟩
        · intro ys hg
          replace hg : lookupField fs ak = some (Value.varr ys) := hg
          rw [hlk] at hg
          cases Option.some.inj hg
        · refine recurseStep_obj_ok.mpr ⟨pruneSpecFields ak ck fs, ?_, rfl⟩
          refine c4_fields_norepl hak fs hex hw.2 ?_
          intro k2 ys2 hmem hk2
          subst hk2
          have hx := mem_lookup_nodup hnd hmem
          rw [hlk] at hx
          cases Option.some.inj hx
      | vobj f2 =>
        intro hlk
        refine ⟨.vobj fs, checkAndReplace_eq_norepl (fun hc => Value.noConfusion hc) ?_, ?_⟩
        · intro ys hg
          replace hg : lookupField fs ak = some (Value.varr ys) := hg
          rw [hlk] at hg
          cases Option.some.inj hg
        · refine recurseStep_obj_ok.mpr ⟨pruneSpecFields ak ck fs, ?_, rfl⟩
          refine c4_fields_norepl hak fs hex hw.2 ?_
          intro k2 ys2 hmem hk2
          subst hk2
          have hx := mem_lookup_nodup hnd hmem
          rw [hlk] at hx
          cases Option.some.inj hx
termination_by x => sizeOf x
decreasing_by
  all_goals simp
  all_goals try omega

theorem c4_fields_norepl {ak ck : String} (hak : jsIndex ak = none) :
    ∀ (fs : List (String × Value)), fieldsOK fs = true → wfDataF fs = true →
    (∀ k2 ys2, (k2, Value.varr ys2) ∈ fs → k2 = ak → checkFirst ck ys2 = false) →
    recurseStepFields ak ck fs = .ok (pruneSpecFields ak ck fs)
  | [], _, _, _ => by
    rw [pruneSpecFields]
    rw [recurseStepFields]
  | (k, .varr ys) :: rest, hf, hw, hcond => by
    replace hf : (procOK ys && fieldsOK rest) = true := hf
    rw [Bool.and_eq_true] at hf
    rw [wfDataF, Bool.and_eq_true] at hw
    have hw1 : wfDataL ys = true := hw.1
    have hconds : (decide (k = ak) && specCheckFirst ck ys) = false := by
      by_cases hk : k = ak
      · rw [specCheckFirst_eq_checkFirst, hcond k ys (List.mem_cons_self _ _) hk]
        simp
      · simp [hk]
    have hspec : pruneSpecFields ak ck ((k, Value.varr ys) :: rest) =
        (k, Value.varr (pruneSpecList ak ck ys)) :: pruneSpecFields ak ck rest := by
      rw [pruneSpecFields]
      simp [hconds]
    rw [hspec]
    have htail := c4_fields_norepl hak rest hf.2 hw.2
      (fun k2 ys2 hm hk2 => hcond k2 ys2 (List.mem_cons_of_mem _ hm) hk2)
    exact recurseStepFields_ok_forall₂.mpr
      (List.Forall₂.cons ⟨rfl, Or.inl ⟨ys, pruneSpecList ak ck ys, rfl, rfl,
        c4_list hak ys hf.1 hw1⟩⟩ (recurseStepFields_ok_forall₂.mp htail))
  | (k, .vnull) :: rest, hf, hw, hcond => by
    replace hf : fieldsOK rest = true := hf
    rw [wfDataF, Bool.and_eq_true] at hw
    have hspec : pruneSpecFields ak ck ((k, Value.vnull) :: rest) =
        (k, Value.vnull) :: pruneSpecFields ak ck rest := rfl
    rw [hspec]
    have htail := c4_fields_norepl hak rest hf hw.2
      (fun k2 ys2 hm hk2 => hcond k2 ys2 (List.mem_cons_of_mem _ hm) hk2)
    exact recurseStepFields_ok_forall₂.mpr
      (List.Forall₂.cons ⟨rfl, Or.inr ⟨fun ys hy => Value.noConfusion hy, rfl⟩⟩
        (recurseStepFields_ok_forall₂.mp htail))
  | (k, .vbool b2) :: rest, hf, hw, hcond => by
    replace hf : fieldsOK rest = true := hf
    rw [wfDataF, Bool.and_eq_true] at hw
    have hspec : pruneSpecFields ak ck ((k, Value.vbool b2) :: rest) =
        (k, Value.vbool b2) :: pruneSpecFields ak ck rest := rfl
    rw [hspec]
    have htail := c4_fields_norepl hak rest hf hw.2
      (fun k2 ys2 hm hk2 => hcond k2 ys2 (List.mem_cons_of_mem _ hm) hk2)
    exact recurseStepFields_ok_forall₂.mpr
      (List.Forall₂.cons ⟨rfl, Or.inr ⟨fun ys hy => Value.noConfusion hy, rfl⟩⟩
        (recurseStepFields_ok_forall₂.mp htail))
  | (k, .vnum n2) :: rest, hf, hw, hcond => by
    replace hf : fieldsOK rest = true := hf
    rw [wfDataF, Bool.and_eq_true] at hw
    have hspec : pruneSpecFields ak ck ((k, Value.vnum n2) :: rest) =
        (k, Value.vnum n2) :: pruneSpecFields ak ck rest := rfl
    rw [hspec]
    have htail := c4_fields_norepl hak rest hf hw.2
      (fun k2 ys2 hm hk2 => hcond k2 ys2 (List.mem_cons_of_mem _ hm) hk2)
    exact recurseStepFields_ok_forall₂.mpr
      (List.Forall₂.cons ⟨rfl, Or.inr ⟨fun ys hy => Value.noConfusion hy, rfl⟩⟩
        (recurseStepFields_ok_forall₂.mp htail))
  | (k, .vstr s2) :: rest, hf, hw, hcond => by
    replace hf : fieldsOK rest = true := hf
    rw [wfDataF, Bool.and_eq_true] at hw
    have hspec : pruneSpecFields ak ck ((k, Value.vstr s2) :: rest) =
        (k, Value.vstr s2) :: pruneSpecFields ak ck rest := rfl
    rw [hspec]
    have htail := c4_fields_norepl hak rest hf hw.2
      (fun k2 ys2 hm hk2 => hcond k2 ys2 (List.mem_cons_of_mem _ hm) hk2)
    exact recurseStepFields_ok_forall₂.mpr
      (List.Forall₂.cons ⟨rfl, Or.inr ⟨fun ys hy => Value.noConfusion hy, rfl⟩⟩
        (recurseStepFields_ok_forall₂.mp htail))
  | (k, .vint i2) :: rest, hf, hw, hcond => by
    replace hf : fieldsOK rest = true := hf
    rw [wfDataF, Bool.and_eq_true] at hw
    have hspec : pruneSpecFields ak ck ((k, Value.vint i2) :: rest) =
        (k, Value.vint i2) :: pruneSpecFields ak ck rest := rfl
    rw [hspec]
    have htail := c4_fields_norepl hak rest hf hw.2
      (fun k2 ys2 hm hk2 => hcond k2 ys2 (List.mem_cons_of_mem _ hm) hk2)
    exact recurseStepFields_ok_forall₂.mpr
      (List.Forall₂.cons ⟨rfl, Or.inr ⟨fun ys hy => Value.noConfusion hy, rfl⟩⟩
        (recurseStepFields_ok_forall₂.mp htail))
  | (k, .vtemporal f2 r2) :: rest, hf, hw, hcond => by
    replace hf : fieldsOK rest = true := hf
    rw [wfDataF, Bool.and_eq_true] at hw
    have hspec : pruneSpecFields ak ck ((k, Value.vtemporal f2 r2) :: rest) =
        (k, Value.vtemporal f2 r2) :: pruneSpecFields ak ck rest := rfl
    rw [hspec]
    have htail := c4_fields_norepl hak rest hf hw.2
      (fun k2 ys2 hm hk2 => hcond k2 ys2 (List.mem_cons_of_mem _ hm) hk2)
    exact recurseStepFields_ok_forall₂.mpr
      (List.Forall₂.cons ⟨rfl, Or.inr ⟨fun ys hy => Value.noConfusion hy, rfl⟩⟩
        (recurseStepFields_ok_forall₂.mp htail))
  | (k, .vnode p2) :: rest, hf, hw, hcond => by
    replace hf : fieldsOK rest = true := hf
    rw [wfDataF, Bool.and_eq_true] at hw
    have hspec : pruneSpecFields ak ck ((k, Value.vnode p2) :: rest) =
        (k, Value.vnode p2) :: pruneSpecFields ak ck rest := rfl
    rw [hspec]
    have htail := c4_fields_norepl hak rest hf hw.2
      (fun k2 ys2 hm hk2 => hcond k2 ys2 (List.mem_cons_of_mem _ hm) hk2)
    exact recurseStepFields_ok_forall₂.mpr
      (List.Forall₂.cons ⟨rfl, Or.inr ⟨fun ys hy => Value.noConfusion hy, rfl⟩⟩
        (recurseStepFields_ok_forall₂.mp htail))
  | (k, .vobj f2) :: rest, hf, hw, hcond => by
    replace hf : fieldsOK rest = true := hf
    rw [wfDataF, Bool.and_eq_true] at hw
    have hspec : pruneSpecFields ak ck ((k, Value.vobj f2) :: rest) =
        (k, Value.vobj f2) :: pruneSpecFields ak ck rest := rfl
    rw [hspec]
    have htail := c4_fields_norepl hak rest hf hw.2
      (fun k2 ys2 hm hk2 => hcond k2 ys2 (List.mem_cons_of_mem _ hm) hk2)
    exact recurseStepFields_ok_forall₂.mpr
      (List.Forall₂.cons ⟨rfl, Or.inr ⟨fun ys hy => Value.noConfusion hy, rfl⟩⟩
        (recurseStepFields_ok_forall₂.mp htail))
termination_by fs => sizeOf fs
decreasing_by
  all_goals simp
  all_goals try omega

theorem c4_fields_repl {ak ck : String} (hak : jsIndex ak = none) :
    ∀ (fs : List (String × Value)) (ys : List Value), fieldsOK fs = true → wfDataF fs = true →
    (fs.map Prod.fst).Nodup → lookupField fs ak = some (.varr ys) → checkFirst ck ys = true →
    recurseStepFields ak ck (setField fs ak (.varr [])) = .ok (pruneSpecFields ak ck fs)
  | [], ys, _, _, _, hlk, _ => by cases hlk
  | (k, .varr ys0) :: rest, ys, hf, hw, hnd, hlk, hcf => by
    replace hf : (procOK ys0 && fieldsOK rest) = true := hf
    rw [Bool.and_eq_true] at hf
    rw [wfDataF, Bool.and_eq_true] at hw
    have hw1 : wfDataL ys0 = true := hw.1
    rw [List.map_cons, List.nodup_cons] at hnd
    rw [lookupField] at hlk
    by_cases hk : k = ak
    · rw [if_pos hk] at hlk
      cases Value.varr.inj (Option.some.inj hlk)
      have hsf : setField ((k, Value.varr ys0) :: rest) ak (Value.varr []) =
          (k, Value.varr []) :: rest := by
        rw [setField, if_pos hk]
      have hconds : (decide (k = ak) && specCheckFirst ck ys0) = true := by
        rw [specCheckFirst_eq_checkFirst, hcf]
        simp [hk]
      have hspec : pruneSpecFields ak ck ((k, Value.varr ys0) :: rest) =
          (k, Value.varr []) :: pruneSpecFields ak ck rest := by
        rw [pruneSpecFields]
        simp [hconds]
      rw [hsf, hspec]
      have htail : recurseStepFields ak ck rest = .ok (pruneSpecFields ak ck rest) :=
        c4_fields_norepl hak rest hf.2 hw.2 (by
          intro k2 ys2 hm hk2
          exact absurd (List.mem_map.mpr ⟨(k2, Value.varr ys2), hm, hk2.trans hk.symm⟩) hnd.1)
      exact recurseStepFields_ok_forall₂.mpr
        (List.Forall₂.cons ⟨rfl, Or.inl ⟨[], [], rfl, rfl, removeEmptyArrays_nil_eq ak ck⟩⟩
          (recurseStepFields_ok_forall₂.mp htail))
    · rw [if_neg hk] at hlk
      have hsf : setField ((k, Value.varr ys0) :: rest) ak (Value.varr []) =
          (k, Value.varr ys0) :: setField rest ak (Value.varr []) := by
        rw [setField, if_neg hk]
      have hconds : (decide (k = ak) && specCheckFirst ck ys0) = false := by
        simp [hk]
      have hspec : pruneSpecFields ak ck ((k, Value.varr ys0) :: rest) =
          (k, Value.varr (pruneSpecList ak ck ys0)) :: pruneSpecFields ak ck rest := by
        rw [pruneSpecFields]
        simp [hconds]
      rw [hsf, hspec]
      have htail := c4_fields_repl hak rest ys hf.2 hw.2 hnd.2 hlk hcf
      exact recurseStepFields_ok_forall₂.mpr
        (List.Forall₂.cons ⟨rfl, Or.inl ⟨ys0, pruneSpecList ak ck ys0, rfl, rfl,
          c4_list hak ys0 hf.1 hw1⟩⟩ (recurseStepFields_ok_forall₂.mp htail))
  | (k, .vnull) :: rest, ys, hf, hw, hnd, hlk, hcf => by
    replace hf : fieldsOK rest = true := hf
    rw [wfDataF, Bool.and_eq_true] at hw
    rw [List.map_cons, List.nodup_cons] at hnd
    rw [lookupField] at hlk
    by_cases hk : k = ak
    · rw [if_pos hk] at hlk
      cases Option.some.inj hlk
    · rw [if_neg hk] at hlk
      have hsf : setField ((k, Value.vnull) :: rest) ak (Value.varr []) =
          (k, Value.vnull) :: setField rest ak (Value.varr []) := by
        rw [setField, if_neg hk]
      have hspec : pruneSpecFields ak ck ((k, Value.vnull) :: rest) =
          (k, Value.vnull) :: pruneSpecFields ak ck rest := rfl
      rw [hsf, hspec]
      have htail := c4_fields_repl hak rest ys hf hw.2 hnd.2 hlk hcf
      exact recurseStepFields_ok_forall₂.mpr
        (List.Forall₂.cons ⟨rfl, Or.inr ⟨fun ys2 hy => Value.noConfusion hy, rfl⟩⟩
          (recurseStepFields_ok_forall₂.mp htail))
  | (k, .vbool b2) :: rest, ys, hf, hw, hnd, hlk, hcf => by
    replace hf : fieldsOK rest = true := hf
    rw [wfDataF, Bool.and_eq_true] at hw
    rw [List.map_cons, List.nodup_cons] at hnd
    rw [lookupField] at hlk
    by_cases hk : k = ak
    · rw [if_pos hk] at hlk
      cases Option.some.inj hlk
    · rw [if_neg hk] at hlk
      have hsf : setField ((k, Value.vbool b2) :: rest) ak (Value.varr []) =
          (k, Value.vbool b2) :: setField rest ak (Value.varr []) := by
        rw [setField, if_neg hk]
      have hspec : pruneSpecFields ak ck ((k, Value.vbool b2) :: rest) =
          (k, Value.vbool b2) :: pruneSpecFields ak ck rest := rfl
      rw [hsf, hspec]
      have htail := c4_fields_repl hak rest ys hf hw.2 hnd.2 hlk hcf
      exact recurseStepFields_ok_forall₂.mpr
        (List.Forall₂.cons ⟨rfl, Or.inr ⟨fun ys2 hy => Value.noConfusion hy, rfl⟩⟩
          (recurseStepFields_ok_forall₂.mp htail))
  | (k, .vnum n2) :: rest, ys, hf, hw, hnd, hlk, hcf => by
    replace hf : fieldsOK rest = true := hf
    rw [wfDataF, Bool.and_eq_true] at hw
    rw [List.map_cons, List.nodup_cons] at hnd
    rw [lookupField] at hlk
    by_cases hk : k = ak
    · rw [if_pos hk] at hlk
      cases Option.some.inj hlk
    · rw [if_neg hk] at hlk
      have hsf : setField ((k, Value.vnum n2) :: rest) ak (Value.varr []) =
          (k, Value.vnum n2) :: setField rest ak (Value.varr []) := by
        rw [setField, if_neg hk]
      have hspec : pruneSpecFields ak ck ((k, Value.vnum n2) :: rest) =
          (k, Value.vnum n2) :: pruneSpecFields ak ck rest := rfl
      rw [hsf, hspec]
      have htail := c4_fields_repl hak rest ys hf hw.2 hnd.2 hlk hcf
      exact recurseStepFields_ok_forall₂.mpr
        (List.Forall₂.cons ⟨rfl, Or.inr ⟨fun ys2 hy => Value.noConfusion hy, rfl⟩⟩
          (recurseStepFields_ok_forall₂.mp htail))
  | (k, .vstr s2) :: rest, ys, hf, hw, hnd, hlk, hcf => by
    replace hf : fieldsOK rest = true := hf
    rw [wfDataF, Bool.and_eq_true] at hw
    rw [List.map_cons, List.nodup_cons] at hnd
    rw [lookupField] at hlk
    by_cases hk : k = ak
    · rw [if_pos hk] at hlk
      cases Option.some.inj hlk
    · rw [if_neg hk] at hlk
      have hsf : setField ((k, Value.vstr s2) :: rest) ak (Value.varr []) =
          (k, Value.vstr s2) :: setField rest ak (Value.varr []) := by
        rw [setField, if_neg hk]
      have hspec : pruneSpecFields ak ck ((k, Value.vstr s2) :: rest) =
          (k, Value.vstr s2) :: pruneSpecFields ak ck rest := rfl
      rw [hsf, hspec]
      have htail := c4_fields_repl hak rest ys hf hw.2 hnd.2 hlk hcf
      exact recurseStepFields_ok_forall₂.mpr
        (List.Forall₂.cons ⟨rfl, Or.inr ⟨fun ys2 hy => Value.noConfusion hy, rfl⟩⟩
          (recurseStepFields_ok_forall₂.mp htail))
  | (k, .vint i2) :: rest, ys, hf, hw, hnd, hlk, hcf => by
    replace hf : fieldsOK rest = true := hf
    rw [wfDataF, Bool.and_eq_true] at hw
    rw [List.map_cons, List.nodup_cons] at hnd
    rw [lookupField] at hlk
    by_cases hk : k = ak
    · rw [if_pos hk] at hlk
      cases Option.some.inj hlk
    · rw [if_neg hk] at hlk
      have hsf : setField ((k, Value.vint i2) :: rest) ak (Value.varr []) =
          (k, Value.vint i2) :: setField rest ak (Value.varr []) := by
        rw [setField, if_neg hk]
      have hspec : pruneSpecFields ak ck ((k, Value.vint i2) :: rest) =
          (k, Value.vint i2) :: pruneSpecFields ak ck rest := rfl
      rw [hsf, hspec]
      have htail := c4_fields_repl hak rest ys hf hw.2 hnd.2 hlk hcf
      exact recurseStepFields_ok_forall₂.mpr
        (List.Forall₂.cons ⟨rfl, Or.inr ⟨fun ys2 hy => Value.noConfusion hy, rfl⟩⟩
          (recurseStepFields_ok_forall₂.mp htail))
  | (k, .vtemporal f2 r2) :: rest, ys, hf, hw, hnd, hlk, hcf => by
    replace hf : fieldsOK rest = true := hf
    rw [wfDataF, Bool.and_eq_true] at hw
    rw [List.map_cons, List.nodup_cons] at hnd
    rw [lookupField] at hlk
    by_cases hk : k = ak
    · rw [if_pos hk] at hlk
      cases Option.some.inj hlk
    · rw [if_neg hk] at hlk
      have hsf : setField ((k, Value.vtemporal f2 r2) :: rest) ak (Value.varr []) =
          (k, Value.vtemporal f2 r2) :: setField rest ak (Value.varr []) := by
        rw [setField, if_neg hk]
      have hspec : pruneSpecFields ak ck ((k, Value.vtemporal f2 r2) :: rest) =
          (k, Value.vtemporal f2 r2) :: pruneSpecFields ak ck rest := rfl
      rw [hsf, hspec]
      have htail := c4_fields_repl hak rest ys hf hw.2 hnd.2 hlk hcf
      exact recurseStepFields_ok_forall₂.mpr
        (List.Forall₂.cons ⟨rfl, Or.inr ⟨fun ys2 hy => Value.noConfusion hy, rfl⟩⟩
          (recurseStepFields_ok_forall₂.mp htail))
  | (k, .vnode p2) :: rest, ys, hf, hw, hnd, hlk, hcf => by
    replace hf : fieldsOK rest = true := hf
    rw [wfDataF, Bool.and_eq_true] at hw
    rw [List.map_cons, List.nodup_cons] at hnd
    rw [lookupField] at hlk
    by_cases hk : k = ak
    · rw [if_pos hk] at hlk
      cases Option.some.inj hlk
    · rw [if_neg hk] at hlk
      have hsf : setField ((k, Value.vnode p2) :: rest) ak (Value.varr []) =
          (k, Value.vnode p2) :: setField rest ak (Value.varr []) := by
        rw [setField, if_neg hk]
      have hspec : pruneSpecFields ak ck ((k, Value.vnode p2) :: rest) =
          (k, Value.vnode p2) :: pruneSpecFields ak ck rest := rfl
      rw [hsf, hspec]
      have htail := c4_fields_repl hak rest ys hf hw.2 hnd.2 hlk hcf
      exact recurseStepFields_ok_forall₂.mpr
        (List.Forall₂.cons ⟨rfl, Or.inr ⟨fun ys2 hy => Value.noConfusion hy, rfl⟩⟩
          (recurseStepFields_ok_forall₂.mp htail))
  | (k, .vobj f2) :: rest, ys, hf, hw, hnd, hlk, hcf => by
    replace hf : fieldsOK rest = true := hf
    rw [wfDataF, Bool.and_eq_true] at hw
    rw [List.map_cons, List.nodup_cons] at hnd
    rw [lookupField] at hlk
    by_cases hk : k = ak
    · rw [if_pos hk] at hlk
      cases Option.some.inj hlk
    · rw [if_neg hk] at hlk
      have hsf : setField ((k, Value.vobj f2) :: rest) ak (Value.varr []) =
          (k, Value.vobj f2) :: setField rest ak (Value.varr []) := by
        rw [setField, if_neg hk]
      have hspec : pruneSpecFields ak ck ((k, Value.vobj f2) :: rest) =
          (k, Value.vobj f2) :: pruneSpecFields ak ck rest := rfl
      rw [hsf, hspec]
      have htail := c4_fields_repl hak rest ys hf hw.2 hnd.2 hlk hcf
      exact recurseStepFields_ok_forall₂.mpr
        (List.Forall₂.cons ⟨rfl, Or.inr ⟨fun ys2 hy => Value.noConfusion hy, rfl⟩⟩
          (recurseStepFields_ok_forall₂.mp htail))
termination_by fs ys => sizeOf fs
decreasing_by
  all_goals simp
  all_goals try omega

theorem c4_elems {ak ck : String} (hak : jsIndex ak = none) : ∀ (xs : List Value),
    elemsOK xs = true → wfDataL xs = true →
    recurseStepElems ak ck xs = .ok (pruneSpecElems ak ck xs)
  | [], _, _ => by
    rw [pruneSpecElems]
    rw [recurseStepElems]
  | (.varr ys) :: rest, he, hw => by
    replace he : (procOK ys && elemsOK rest) = true := he
    rw [Bool.and_eq_true] at he
    rw [wfDataL, Bool.and_eq_true] at hw
    have hw1 : wfDataL ys = true := hw.1
    have hspec : pruneSpecElems ak ck (Value.varr ys :: rest) =
        Value.varr (pruneSpecList ak ck ys) :: pruneSpecElems ak ck rest := rfl
    rw [hspec]
    exact recurseStepElems_ok_forall₂.mpr
      (List.Forall₂.cons (Or.inl ⟨ys, pruneSpecList ak ck ys, rfl, rfl,
        c4_list hak ys he.1 hw1⟩)
        (recurseStepElems_ok_forall₂.mp (c4_elems hak rest he.2 hw.2)))
  | (.vnull) :: rest, he, hw => by
    replace he : elemsOK rest = true := he
    rw [wfDataL, Bool.and_eq_true] at hw
    have hspec : pruneSpecElems ak ck (Value.vnull :: rest) = Value.vnull :: pruneSpecElems ak ck rest := rfl
    rw [hspec]
    exact recurseStepElems_ok_forall₂.mpr
      (List.Forall₂.cons (Or.inr ⟨fun ys hy => Value.noConfusion hy, rfl⟩)
        (recurseStepElems_ok_forall₂.mp (c4_elems hak rest he hw.2)))
  | (.vbool b2) :: rest, he, hw => by
    replace he : elemsOK rest = true := he
    rw [wfDataL, Bool.and_eq_true] at hw
    have hspec : pruneSpecElems ak ck (Value.vbool b2 :: rest) = Value.vbool b2 :: pruneSpecElems ak ck rest := rfl
    rw [hspec]
    exact recurseStepElems_ok_forall₂.mpr
      (List.Forall₂.cons (Or.inr ⟨fun ys hy => Value.noConfusion hy, rfl⟩)
        (recurseStepElems_ok_forall₂.mp (c4_elems hak rest he hw.2)))
  | (.vnum n2) :: rest, he, hw => by
    replace he : elemsOK rest = true := he
    rw [wfDataL, Bool.and_eq_true] at hw
    have hspec : pruneSpecElems ak ck (Value.vnum n2 :: rest) = Value.vnum n2 :: pruneSpecElems ak ck rest := rfl
    rw [hspec]
    exact recurseStepElems_ok_forall₂.mpr
      (List.Forall₂.cons (Or.inr ⟨fun ys hy => Value.noConfusion hy, rfl⟩)
        (recurseStepElems_ok_forall₂.mp (c4_elems hak rest he hw.2)))
  | (.vstr s2) :: rest, he, hw => by
    replace he : elemsOK rest = true := he
    rw [wfDataL, Bool.and_eq_true] at hw
    have hspec : pruneSpecElems ak ck (Value.vstr s2 :: rest) = Value.vstr s2 :: pruneSpecElems ak ck rest := rfl
    rw [hspec]
    exact recurseStepElems_ok_forall₂.mpr
      (List.Forall₂.cons (Or.inr ⟨fun ys hy => Value.noConfusion hy, rfl⟩)
        (recurseStepElems_ok_forall₂.mp (c4_elems hak rest he hw.2)))
  | (.vint i2) :: rest, he, hw => by
    replace he : elemsOK rest = true := he
    rw [wfDataL, Bool.and_eq_true] at hw
    have hspec : pruneSpecElems ak ck (Value.vint i2 :: rest) = Value.vint i2 :: pruneSpecElems ak ck rest := rfl
    rw [hspec]
    exact recurseStepElems_ok_forall₂.mpr
      (List.Forall₂.cons (Or.inr ⟨fun ys hy => Value.noConfusion hy, rfl⟩)
        (recurseStepElems_ok_forall₂.mp (c4_elems hak rest he hw.2)))
  | (.vtemporal f2 r2) :: rest, he, hw => by
    replace he : elemsOK rest = true := he
    rw [wfDataL, Bool.and_eq_true] at hw
    have hspec : pruneSpecElems ak ck (Value.vtemporal f2 r2 :: rest) = Value.vtemporal f2 r2 :: pruneSpecElems ak ck rest := rfl
    rw [hspec]
    exact recurseStepElems_ok_forall₂.mpr
      (List.Forall₂.cons (Or.inr ⟨fun ys hy => Value.noConfusion hy, rfl⟩)
        (recurseStepElems_ok_forall₂.mp (c4_elems hak rest he hw.2)))
  | (.vnode p2) :: rest, he, hw => by
    replace he : elemsOK rest = true := he
    rw [wfDataL, Bool.and_eq_true] at hw
    have hspec : pruneSpecElems ak ck (Value.vnode p2 :: rest) = Value.vnode p2 :: pruneSpecElems ak ck rest := rfl
    rw [hspec]
    exact recurseStepElems_ok_forall₂.mpr
      (List.Forall₂.cons (Or.inr ⟨fun ys hy => Value.noConfusion hy, rfl⟩)
        (recurseStepElems_ok_forall₂.mp (c4_elems hak rest he hw.2)))
  | (.vobj f2) :: rest, he, hw => by
    replace he : elemsOK rest = true := he
    rw [wfDataL, Bool.and_eq_true] at hw
    have hspec : pruneSpecElems ak ck (Value.vobj f2 :: rest) = Value.vobj f2 :: pruneSpecElems ak ck rest := rfl
    rw [hspec]
    exact recurseStepElems_ok_forall₂.mpr
      (List.Forall₂.cons (Or.inr ⟨fun ys hy => Value.noConfusion hy, rfl⟩)
        (recurseStepElems_ok_forall₂.mp (c4_elems hak rest he hw.2)))
termination_by xs => sizeOf xs
decreasing_by
  all_goals simp
  all_goals try omega

end

/-! ## Claims about the pruner (C4, C5) -/

/-- C4 (refuted as stated).  On the record `{a: [null]}` with array key "a"
and any check key, the claim predicts the array is left untouched (its first
element is not an object with `null` at the check key); the code instead
throws a `TypeError`: the `for...in` recursion enters the array `[null]` and
the next iteration evaluates `null[arrayKey]`. -/
theorem claim_C4_counterexample :
    removeEmptyArrays "a" "c" [.vobj [("a", .varr [.vnull])]] = .error .typeError := by
  simp [removeEmptyArrays, checkAndReplace, recurseStep, recurseStepFields, recurseStepElems,
    getProp, lookupField, checkFirst, isNullAt, truthy, setPropVal, setField, jsIndex]

/-- C4 (amended).  For record data built from plain scalars, `null`, arrays
and duplicate-key-free objects, in which no traversed array contains a
`null` element (`procOK` — otherwise the function throws a `TypeError`), and
for an array key that is not an array index string, `removeEmptyArrays`
returns exactly the transformation described by the claim
(`pruneSpecList`): a record's array at the named key is replaced by the
empty array exactly when the array's first element has `null` at the check
key, every other array is left in place with the same rule applied
recursively through every array-valued field and nested array. -/
theorem claim_C4 : ∀ (ak ck : String) (data : List Value),
    jsIndex ak = none → procOK data = true → wfDataL data = true →
    removeEmptyArrays ak ck data = .ok (pruneSpecList ak ck data) :=
  fun _ ck data hak hp hw => c4_list hak data hp hw

/-- Witness for C4 (amended) at the specification's own example: the record
`{values: [{name: null, address: null}], other: "x"}` prunes to
`{values: [], other: "x"}`. -/
theorem claim_C4_witness :
    jsIndex "values" = none ∧
    procOK [Value.vobj [("values", .varr [.vobj [("name", .vnull), ("address", .vnull)]]),
      ("other", .vstr "x")]] = true ∧
    wfDataL [Value.vobj [("values", .varr [.vobj [("name", .vnull), ("address", .vnull)]]),
      ("other", .vstr "x")]] = true ∧
    removeEmptyArrays "values" "name"
      [Value.vobj [("values", .varr [.vobj [("name", .vnull), ("address", .vnull)]]),
        ("other", .vstr "x")]] =
      .ok [Value.vobj [("values", .varr []), ("other", .vstr "x")]] := by
  refine ⟨by decide, rfl, by decide, ?_⟩
  have h := claim_C4 "values" "name"
    [Value.vobj [("values", .varr [.vobj [("name", .vnull), ("address", .vnull)]]),
      ("other", .vstr "x")]] (by decide) rfl (by decide)
  exact h

/-- C5 (confirmed).  Pruner idempotence: for every list of values and every
pair of keys, applying `removeEmptyArrays` twice gives the same result as
applying it once — as an equation on `Except` results (if the first
application throws, so does the composition, with the same error). -/
theorem claim_C5 :
    (∀ (ak ck : String) (data d : List Value),
      removeEmptyArrays ak ck data = .ok d → removeEmptyArrays ak ck d = .ok d) ∧
    (∀ (ak ck : String) (data : List Value),
      (removeEmptyArrays ak ck data).bind (removeEmptyArrays ak ck) =
        removeEmptyArrays ak ck data) := by
  constructor
  · intro ak ck data d h
    exact idem_list h
  · intro ak ck data
    cases h : removeEmptyArrays ak ck data with
    | error e => rfl
    | ok d =>
      show removeEmptyArrays ak ck d = .ok d
      exact idem_list h

/-- Witness for C5 at a concrete run: pruning `[{values: [{name: null}]}]`
gives `[{values: []}]`, and pruning that result again leaves it unchanged. -/
theorem claim_C5_witness :
    removeEmptyArrays "values" "name" [Value.vobj [("values", .varr [])]] =
      .ok [Value.vobj [("values", .varr [])]] :=
  claim_C5.1 "values" "name" [Value.vobj [("values", .varr [.vobj [("name", .vnull)]])]]
    [Value.vobj [("values", .varr [])]]
    (by simp [removeEmptyArrays, checkAndReplace, recurseStep, recurseStepFields,
      recurseStepElems, getProp, lookupField, checkFirst, isNullAt, truthy, setPropVal,
      setField, jsIndex])


/-! ## Connection bootstrap (`init` / `connect`)

The driver is an oracle: attempt `i` of `driver.verifyConnectivity()` either
resolves with server info or rejects with a reason, given by a function
`Nat → Except String ServerInfoM`.  The 5-second delay between attempts is
real time and is not modelled; it does not affect which attempt outcomes are
observed.  The `process.on('exit', ...)` hook and the `console` output of
`init` are process-level effects outside the model.
-/

/-- The part of the driver's `ServerInfo` that `init` reads: the server
version string. -/
structure ServerInfoM where
  version : String
  deriving DecidableEq

/-- Embeds `connect` from `src/src/index.ts` (lines 71-115): try
`verifyConnectivity`; on rejection retry with `numberOfTrials - 1` while
`numberOfTrials > 0` (written as a match on the counter), otherwise reject
with the final attempt's reason.  `idx` numbers the attempts so the oracle
can force individual outcomes. -/
def connect (att : Nat → Except String ServerInfoM) (idx : Nat)
    (numberOfTrials : Nat) : Except String ServerInfoM :=
  match att idx with
  | .ok s => .ok s
  | .error reason =>
      match numberOfTrials with
      | Nat.succ n => connect att (idx + 1) n
      | 0 => .error reason
termination_by numberOfTrials
decreasing_by
  omega

/-- The regex-`.` of `/^Neo4j\/(\d+).\d+.\d+/` — the dots are not escaped in
the source, so they match any character except a line terminator (the
pattern has no `s` flag). -/
def anyDot (c : Char) : Bool :=
  !(c = '\n' || c = '\r' || c = ' ' || c = ' ')

/-- Matches `\d+` at the start of the input (at least one ASCII digit). -/
def matchD3 : List Char → Bool
  | c :: _ => c.isDigit
  | [] => false

/-- Matches `.\d+` at the start of the input. -/
def matchC2D3 : List Char → Bool
  | c :: rest => anyDot c && matchD3 rest
  | [] => false

/-- Continues the second `\d+` of the pattern greedily: extend the digit run
if possible, otherwise (backtracking) match the remaining `.\d+` here. -/
def matchD2sub : List Char → Bool
  | [] => false
  | c :: rest => (c.isDigit && matchD2sub rest) || matchC2D3 (c :: rest)

/-- Matches `\d+.\d+` at the start of the input. -/
def matchD2C2D3 : List Char → Bool
  | c :: rest => c.isDigit && matchD2sub rest
  | [] => false

/-- Matches `.\d+.\d+` at the start of the input. -/
def matchC1Tail : List Char → Bool
  | c :: rest => anyDot c && matchD2C2D3 rest
  | [] => false

/-- Greedy continuation of the capture group `(\d+)`: having already
captured the value `acc` (≥ 1 digit), prefer to extend the capture with the
next digit; on failure of the longer capture, backtrack and match the
pattern's tail `.\d+.\d+` from here, yielding `acc` as the captured
number. -/
def matchGroup1 : List Char → Nat → Option Nat
  | [], _ => none
  | c :: rest, acc =>
      if c.isDigit then
        match matchGroup1 rest (acc * 10 + (c.toNat - '0'.toNat)) with
        | some v => some v
        | none => if matchC1Tail (c :: rest) then some acc else none
      else
        if matchC1Tail (c :: rest) then some acc else none

/-- Embeds `/^Neo4j\/(\d+).\d+.\d+/.exec(version)`, reduced to what `init`
consumes: `some` of the numeric value of capture group 1 (`+matches[1]`)
when the pattern matches, `none` when `exec` returns `null`. -/
def execVersionRegex (version : String) : Option Nat :=
  match version.data with
  | 'N' :: 'e' :: 'o' :: '4' :: 'j' :: '/' :: rest =>
      match rest with
      | c :: rest2 =>
          if c.isDigit then matchGroup1 rest2 (c.toNat - '0'.toNat) else none
      | [] => none
  | _ => none

/-- The outcomes of `init`: a rejection carrying the final connection
attempt's reason, or the `TypeError` thrown by reading `matches[1]` when the
version regex returned `null` (caught by `init`'s `try` and converted into a
rejection). -/
inductive InitError where
  | connectErr (reason : String) : InitError
  | typeError : InitError
  deriving DecidableEq

/-- Embeds `init` from `src/src/index.ts` (lines 27-65), reduced to its
observable outcome: run `connect(5)`; on success parse the version string
and resolve with the server info and the resulting `multiDBSupport` flag
(`true` exactly when the captured major version exceeds 3); a failed regex
match makes `matches[1]` throw inside the `try`, which `init` converts into
a rejection.  Config assembly and the process-exit hook have no observable
effect in the model. -/
def init (att : Nat → Except String ServerInfoM) : Except InitError (ServerInfoM × Bool) :=
  match connect att 0 5 with
  | .error reason => .error (.connectErr reason)
  | .ok serverInfo =>
      match execVersionRegex serverInfo.version with
      | none => .error .typeError
      | some major => .ok (serverInfo, decide (major > 3))

/-- A driver oracle whose first `n` connectivity attempts reject with the
given reasons and whose later attempts resolve with `s`. -/
def attOf (n : Nat) (errs : Nat → String) (s : ServerInfoM) :
    Nat → Except String ServerInfoM :=
  fun i => if i < n then .error (errs i) else .ok s

theorem connect_ok {att : Nat → Except String ServerInfoM} {idx : Nat} {s : ServerInfoM}
    (h : att idx = .ok s) : ∀ t, connect att idx t = .ok s := by
  intro t
  cases t with
  | zero => rw [connect, h]
  | succ n => rw [connect, h]

theorem connect_err_zero {att : Nat → Except String ServerInfoM} {idx : Nat} {r : String}
    (h : att idx = .error r) : connect att idx 0 = .error r := by
  rw [connect, h]

theorem connect_err_succ {att : Nat → Except String ServerInfoM} {idx t : Nat} {r : String}
    (h : att idx = .error r) : connect att idx (t + 1) = connect att (idx + 1) t := by
  rw [connect, h]

theorem connect_attOf (n : Nat) (errs : Nat → String) (s : ServerInfoM) :
    ∀ (trials idx : Nat),
      connect (attOf n errs s) idx trials =
        if n ≤ idx + trials then .ok s else .error (errs (idx + trials)) := by
  intro trials
  induction trials with
  | zero =>
    intro idx
    by_cases hlt : idx < n
    · have ha : attOf n errs s idx = .error (errs idx) := by
        simp [attOf, hlt]
      rw [connect_err_zero ha]
      have h2 : ¬(n ≤ idx + 0) := by omega
      rw [if_neg h2]
      rfl
    · have ha : attOf n errs s idx = .ok s := by
        simp [attOf, hlt]
      rw [connect_ok ha]
      have h2 : n ≤ idx + 0 := by omega
      rw [if_pos h2]
  | succ t ih =>
    intro idx
    by_cases hlt : idx < n
    · have ha : attOf n errs s idx = .error (errs idx) := by
        simp [attOf, hlt]
      rw [connect_err_succ ha, ih (idx + 1)]
      by_cases hle : n ≤ idx + 1 + t
      · rw [if_pos hle]
        have h2 : n ≤ idx + (t + 1) := by omega
        rw [if_pos h2]
      · rw [if_neg hle]
        have h2 : ¬(n ≤ idx + (t + 1)) := by omega
        rw [if_neg h2]
        have h3 : idx + 1 + t = idx + (t + 1) := by omega
        rw [h3]
    · have ha : attOf n errs s idx = .ok s := by
        simp [attOf, hlt]
      rw [connect_ok ha]
      have h2 : n ≤ idx + (t + 1) := by omega
      rw [if_pos h2]

/-! ## Claims about the bootstrap (C1, C10) -/

/-- C1 (refuted as stated).  With the first N = 5 connectivity attempts
forced to fail and the next attempt succeeding, the claim requires `init` to
reject (5 is not less than the claimed trial budget of 5); the code instead
resolves: `connect(5)` makes one initial attempt plus up to 5 retries, six
attempts in total, so the sixth attempt's success is still observed. -/
theorem claim_C1_counterexample :
    init (attOf 5 (fun _ => "ECONNREFUSED") ⟨"Neo4j/4.0.0"⟩) =
      .ok (⟨"Neo4j/4.0.0"⟩, true) := by
  rw [init, connect_attOf]
  rfl

/-- C1 (amended).  `init` attempts connectivity verification up to 6 times
(one initial attempt plus at most 5 retries, each after a fixed 5-second
delay, which the model does not measure); for every run whose first N
attempts are forced to fail and whose next attempt would succeed with a
parseable version, `init` resolves if and only if N ≤ 5, and for N > 5 it
rejects with the connectivity error of the final (sixth) attempt. -/
theorem claim_C1 : ∀ (n : Nat) (errs : Nat → String) (s : ServerInfoM) (major : Nat),
    execVersionRegex s.version = some major →
    (n ≤ 5 → init (attOf n errs s) = .ok (s, decide (major > 3))) ∧
    (5 < n → init (attOf n errs s) = .error (.connectErr (errs 5))) := by
  intro n errs s major hv
  constructor
  · intro hle
    rw [init, connect_attOf]
    have h1 : n ≤ 0 + 5 := by omega
    rw [if_pos h1]
    show (match execVersionRegex s.version with
      | none => Except.error InitError.typeError
      | some major => Except.ok (s, decide (major > 3))) = Except.ok (s, decide (major > 3))
    rw [hv]
  · intro hgt
    rw [init, connect_attOf]
    have h1 : ¬(n ≤ 0 + 5) := by omega
    rw [if_neg h1]

/-- Witness for C1 (amended): with 2 forced failures `init` resolves with
the multi-database flag set for a version-4 server, and with 9 forced
failures it rejects with the sixth attempt's error. -/
theorem claim_C1_witness :
    init (attOf 2 (fun _ => "refused") ⟨"Neo4j/4.2.1"⟩) = .ok (⟨"Neo4j/4.2.1"⟩, true) ∧
    init (attOf 9 (fun i => toString i) ⟨"Neo4j/4.2.1"⟩) =
      .error (.connectErr (toString 5)) :=
  ⟨(claim_C1 2 (fun _ => "refused") ⟨"Neo4j/4.2.1"⟩ 4 rfl).1 (by omega),
    (claim_C1 9 (fun i => toString i) ⟨"Neo4j/4.2.1"⟩ 4 rfl).2 (by omega)⟩

/-- C10 (confirmed).  Version-parse totality at bootstrap: whenever
connectivity verification succeeds but the reported version string does not
match the version pattern, `init` rejects (the `null` regex result makes the
`matches[1]` access throw inside the `try`, converted into a rejection); and
whenever `init` resolves, the version string did match and the
multi-database flag is exactly "captured major version exceeds 3" — it is
never silently left `false` for an unparseable version string. -/
theorem claim_C10 : ∀ (att : Nat → Except String ServerInfoM),
    (∀ s, connect att 0 5 = .ok s → execVersionRegex s.version = none →
      init att = .error .typeError) ∧
    (∀ s mdb, init att = .ok (s, mdb) →
      ∃ major, execVersionRegex s.version = some major ∧ mdb = decide (major > 3)) := by
  intro att
  constructor
  · intro s hc hv
    rw [init, hc]
    show (match execVersionRegex s.version with
      | none => Except.error InitError.typeError
      | some major => Except.ok (s, decide (major > 3))) = Except.error InitError.typeError
    rw [hv]
  · intro s mdb h
    rw [init] at h
    split at h
    · cases h
    · rename_i s2 hc
      split at h
      · cases h
      · rename_i major hv
        cases Except.ok.inj h
        exact ⟨major, hv, rfl⟩

/-- Witness for C10 at a concrete run: connectivity succeeds immediately but
the server reports the unparseable version string "bogus", and `init`
rejects with the conversion of the `TypeError`. -/
theorem claim_C10_witness :
    connect (fun _ => .ok ⟨"bogus"⟩) 0 5 = .ok ⟨"bogus"⟩ ∧
    execVersionRegex "bogus" = none ∧
    init (fun _ => .ok ⟨"bogus"⟩) = .error .typeError :=
  ⟨connect_ok rfl 5, rfl,
    (claim_C10 (fun _ => .ok ⟨"bogus"⟩)).1 ⟨"bogus"⟩ (connect_ok rfl 5) rfl⟩

/-! ## Transaction helpers (`readTransaction`, `writeTransaction`,
`multipleStatements`)

The driver's sessions and transactions are oracles; the embedded functions
record the driver interactions they perform as a trace of `Event`s, in
order, alongside their result.  The single fallible driver operations are
statement execution, commit and rollback; `session.close()` is modelled as
always succeeding (its rejection would be a failure of the external driver's
teardown, which the specification does not discuss). -/

inductive Event where
  | acquireSession (database : Option String) : Event
  | beginTx : Event
  | runStmt (i : Nat) : Event
  | commit : Event
  | rollback : Event
  | closeSession : Event
  deriving DecidableEq

/-- The session options' database entry:
`database: multiDBSupport ? config.database : null`. -/
def sessionDatabase (multiDB : Bool) (database : String) : Option String :=
  if multiDB then some database else none

/-- Driver oracle for one `multipleStatements` call: the outcome of the
`i`-th `txc.run`, of `txc.commit()` and of `txc.rollback()`. -/
structure MSBehavior where
  run : Nat → Except String (List DriverRecord)
  commitRes : Except String Unit
  rollbackRes : Except String Unit

/-- The records delivered by a successful `i`-th statement. -/
def okRecs (beh : MSBehavior) (i : Nat) : List DriverRecord :=
  match beh.run i with
  | .ok recs => recs
  | .error _ => []

/-- The statement loop, commit and rollback of `multipleStatements`
(`src/src/index.ts` lines 210-231): statements run sequentially, each
successful result is normalized and accumulated; the first statement
rejection is caught, `txc.rollback()` is awaited (if the rollback itself
rejects, its error replaces the original one — JavaScript `await` inside
`catch`), and the call rejects; after all statements, `txc.commit()` is
awaited, with the same catch behaviour. -/
def msLoop (beh : MSBehavior) (idx : Nat) :
    List String → Except String (List (List Value)) × List Event
  | [] =>
      match beh.commitRes with
      | .ok _ => (.ok [], [.commit])
      | .error e =>
          match beh.rollbackRes with
          | .ok _ => (.error e, [.commit, .rollback])
          | .error r => (.error r, [.commit, .rollback])
  | _ :: rest =>
      match beh.run idx with
      | .ok recs =>
          let res := msLoop beh (idx + 1) rest
          (res.1.map (fun results => extractRecords (some recs) :: results),
            .runStmt idx :: res.2)
      | .error e =>
          match beh.rollbackRes with
          | .ok _ => (.error e, [.runStmt idx, .rollback])
          | .error r => (.error r, [.runStmt idx, .rollback])

/-- Embeds `multipleStatements` from `src/src/index.ts` (lines 196-238):
reject with the string `'Neo4j driver not initialized!'` when no driver
exists (no session is acquired); otherwise acquire a session (with the
database option only under multi-database support), begin an explicit
transaction, run the loop, and close the session in `finally` on every
path. -/
def multipleStatements (beh : MSBehavior) (driverInit multiDB : Bool) (database : String)
    (statements : List String) : Except String (List (List Value)) × List Event :=
  if driverInit then
    let res := msLoop beh 0 statements
    (res.1, .acquireSession (sessionDatabase multiDB database) :: .beginTx ::
      (res.2 ++ [.closeSession]))
  else (.error "Neo4j driver not initialized!", [])

/-- Driver oracle for one `readTransaction`/`writeTransaction` call: the
outcome of the driver-managed transaction function. -/
structure RWBehavior where
  run : Except String (List DriverRecord)

/-- Embeds `readTransaction` from `src/src/index.ts` (lines 129-158): reject
when the driver is not initialized (no session); otherwise acquire a session
(READ access mode; the mode lives inside the driver and is not an event the
wrapper can observe), run `session.readTransaction`, normalize on success,
re-reject on failure, and close the session in `finally` on both paths. -/
def readTransaction (beh : RWBehavior) (driverInit multiDB : Bool) (database : String) :
    Except String (List Value) × List Event :=
  if driverInit then
    match beh.run with
    | .ok recs => (.ok (extractRecords (some recs)),
        [.acquireSession (sessionDatabase multiDB database), .runStmt 0, .closeSession])
    | .error e => (.error e,
        [.acquireSession (sessionDatabase multiDB database), .runStmt 0, .closeSession])
  else (.error "Neo4j driver not initialized!", [])

/-- Embeds `writeTransaction` from `src/src/index.ts` (lines 163-191); the
structure is identical to `readTransaction` except that the session is
acquired without the READ access mode and `session.writeTransaction` is
used. -/
def writeTransaction (beh : RWBehavior) (driverInit multiDB : Bool) (database : String) :
    Except String (List Value) × List Event :=
  if driverInit then
    match beh.run with
    | .ok recs => (.ok (extractRecords (some recs)),
        [.acquireSession (sessionDatabase multiDB database), .runStmt 0, .closeSession])
    | .error e => (.error e,
        [.acquireSession (sessionDatabase multiDB database), .runStmt 0, .closeSession])
  else (.error "Neo4j driver not initialized!", [])

/-- The `i`-th run result being `ok` is decidably phrased via `isOk`. -/
theorem msLoop_commit_mem (beh : MSBehavior) (stmts : List String) : ∀ idx : Nat,
    Event.commit ∈ (msLoop beh idx stmts).2 ↔
      ∀ i, i < stmts.length → (beh.run (idx + i)).isOk = true := by
  induction stmts with
  | nil =>
      intro idx
      constructor
      · intro _ i hi
        exact absurd hi (Nat.not_lt_zero i)
      · intro _
        cases hcr : beh.commitRes with
        | ok u => simp [msLoop, hcr]
        | error e =>
            cases hrb : beh.rollbackRes <;> simp [msLoop, hcr, hrb]
  | cons s rest ih =>
      intro idx
      cases hr : beh.run idx with
      | ok recs =>
          simp only [msLoop, hr, List.mem_cons]
          constructor
          · intro h i hi
            match i with
            | 0 =>
                rw [Nat.add_zero, hr]
                rfl
            | Nat.succ j =>
                have hj : j < rest.length := by
                  simpa using Nat.lt_of_succ_lt_succ (by simpa using hi)
                have hmem : Event.commit ∈ (msLoop beh (idx + 1) rest).2 := by
                  rcases h with h | h
                  · exact absurd h (by simp)
                  · exact h
                have := (ih (idx + 1)).mp hmem j hj
                have harith : idx + 1 + j = idx + Nat.succ j := by omega
                rwa [harith] at this
          · intro h
            refine Or.inr ((ih (idx + 1)).mpr ?_)
            intro i hi
            have := h (i + 1) (by simpa using Nat.succ_lt_succ hi)
            have harith : idx + (i + 1) = idx + 1 + i := by omega
            rwa [harith] at this
      | error e =>
          cases hrb : beh.rollbackRes with
          | ok u =>
              simp only [msLoop, hr, hrb]
              constructor
              · intro h
                simp at h
              · intro h
                have h0 := h 0 (by simp)
                rw [Nat.add_zero, hr] at h0
                simp [Except.isOk, Except.toBool] at h0
          | error r =>
              simp only [msLoop, hr, hrb]
              constructor
              · intro h
                simp at h
              · intro h
                have h0 := h 0 (by simp)
                rw [Nat.add_zero, hr] at h0
                simp [Except.isOk, Except.toBool] at h0

/-- When every statement and the commit succeed, the loop returns the
normalized records in statement order and the trace runs the statements in
order followed by the commit. -/
theorem msLoop_ok (beh : MSBehavior) (stmts : List String) : ∀ idx : Nat,
    (∀ i, i < stmts.length → (beh.run (idx + i)).isOk = true) →
    beh.commitRes.isOk = true →
    msLoop beh idx stmts =
      (.ok ((List.range stmts.length).map
          (fun i => extractRecords (some (okRecs beh (idx + i))))),
        (List.range stmts.length).map (fun i => Event.runStmt (idx + i)) ++
          [Event.commit]) := by
  induction stmts with
  | nil =>
      intro idx _ hc
      cases hcr : beh.commitRes with
      | ok u => simp [msLoop, hcr]
      | error e =>
          rw [hcr] at hc
          simp [Except.isOk, Except.toBool] at hc
  | cons s rest ih =>
      intro idx hall hc
      have h0 := hall 0 (by simp)
      rw [Nat.add_zero] at h0
      cases hr : beh.run idx with
      | error e =>
          rw [hr] at h0
          simp [Except.isOk, Except.toBool] at h0
      | ok recs =>
          have htail := ih (idx + 1) (fun i hi => by
            have := hall (i + 1) (by simpa using Nat.succ_lt_succ hi)
            have harith : idx + (i + 1) = idx + 1 + i := by omega
            rwa [harith] at this) hc
          have hres : extractRecords (some recs) ::
              (List.range rest.length).map
                (fun i => extractRecords (some (okRecs beh (idx + 1 + i)))) =
              (List.range (rest.length + 1)).map
                (fun i => extractRecords (some (okRecs beh (idx + i)))) := by
            rw [List.range_succ_eq_map, List.map_cons, List.map_map]
            refine congrArg₂ List.cons ?_ ?_
            · rw [Nat.add_zero]
              simp [okRecs, hr]
            · refine List.map_congr_left ?_
              intro i _
              have harith : idx + 1 + i = idx + (i + 1) := by omega
              simp [Function.comp, harith]
          have hevs : Event.runStmt idx ::
              (List.range rest.length).map (fun i => Event.runStmt (idx + 1 + i)) =
              (List.range (rest.length + 1)).map (fun i => Event.runStmt (idx + i)) := by
            rw [List.range_succ_eq_map, List.map_cons, List.map_map]
            refine congrArg₂ List.cons ?_ ?_
            · rw [Nat.add_zero]
            · refine List.map_congr_left ?_
              intro i _
              have harith : idx + 1 + i = idx + (i + 1) := by omega
              simp [Function.comp, harith]
          simp only [msLoop, hr, htail, Except.map, List.length_cons]
          rw [← hres, ← hevs]
          simp

/-- The loop resolves exactly when every statement and the commit succeed. -/
theorem msLoop_isOk (beh : MSBehavior) (stmts : List String) : ∀ idx : Nat,
    ((msLoop beh idx stmts).1.isOk = true ↔
      (∀ i, i < stmts.length → (beh.run (idx + i)).isOk = true) ∧
        beh.commitRes.isOk = true) := by
  induction stmts with
  | nil =>
      intro idx
      cases hcr : beh.commitRes with
      | ok u =>
          simp only [msLoop, hcr]
          constructor
          · intro _
            exact ⟨fun i hi => absurd hi (Nat.not_lt_zero i), rfl⟩
          · intro _
            rfl
      | error e =>
          cases hrb : beh.rollbackRes <;>
            simp [msLoop, hcr, hrb, Except.isOk, Except.toBool]
  | cons s rest ih =>
      intro idx
      cases hr : beh.run idx with
      | ok recs =>
          simp only [msLoop, hr]
          cases ht : (msLoop beh (idx + 1) rest).1 with
          | ok L =>
              have hih := (ih (idx + 1)).mp (by rw [ht]; rfl)
              simp only [Except.map, Except.isOk, Except.toBool, List.length_cons]
              constructor
              · intro _
                refine ⟨?_, hih.2⟩
                intro i hi
                match i with
                | 0 =>
                    rw [Nat.add_zero, hr]
                | Nat.succ j =>
                    have hj : j < rest.length := Nat.lt_of_succ_lt_succ hi
                    have := hih.1 j hj
                    have harith : idx + 1 + j = idx + Nat.succ j := by omega
                    rwa [harith] at this
              · intro _
                trivial
          | error e =>
              have hih : ¬ ((∀ i, i < rest.length →
                  (beh.run (idx + 1 + i)).isOk = true) ∧
                    beh.commitRes.isOk = true) := by
                intro hcon
                have := (ih (idx + 1)).mpr hcon
                rw [ht] at this
                simp [Except.isOk, Except.toBool] at this
              simp only [Except.map, Except.isOk, Except.toBool, List.length_cons]
              constructor
              · intro hfalse
                exact absurd hfalse (by simp)
              · intro hcon
                exfalso
                refine hih ⟨?_, hcon.2⟩
                intro i hi
                have := hcon.1 (i + 1) (by simpa using Nat.succ_lt_succ hi)
                have harith : idx + (i + 1) = idx + 1 + i := by omega
                rwa [harith] at this
      | error e =>
          cases hrb : beh.rollbackRes with
          | ok u =>
              simp only [msLoop, hr, hrb, Except.isOk, Except.toBool, List.length_cons]
              constructor
              · intro hfalse
                exact absurd hfalse (by simp)
              · intro hcon
                have h0 := hcon.1 0 (by simp)
                rw [Nat.add_zero, hr] at h0
                simp at h0
          | error r =>
              simp only [msLoop, hr, hrb, Except.isOk, Except.toBool, List.length_cons]
              constructor
              · intro hfalse
                exact absurd hfalse (by simp)
              · intro hcon
                have h0 := hcon.1 0 (by simp)
                rw [Nat.add_zero, hr] at h0
                simp at h0

/-- A failing loop has invoked the rollback. -/
theorem msLoop_rollback (beh : MSBehavior) (stmts : List String) : ∀ idx : Nat,
    (msLoop beh idx stmts).1.isOk = false →
    Event.rollback ∈ (msLoop beh idx stmts).2 := by
  induction stmts with
  | nil =>
      intro idx h
      cases hcr : beh.commitRes with
      | ok u =>
          rw [show msLoop beh idx [] = (.ok [], [.commit]) by simp [msLoop, hcr]] at h
          simp [Except.isOk, Except.toBool] at h
      | error e =>
          cases hrb : beh.rollbackRes <;> simp [msLoop, hcr, hrb]
  | cons s rest ih =>
      intro idx h
      cases hr : beh.run idx with
      | ok recs =>
          simp only [msLoop, hr] at h ⊢
          refine List.mem_cons_of_mem _ (ih (idx + 1) ?_)
          cases ht : (msLoop beh (idx + 1) rest).1 with
          | ok L =>
              rw [ht] at h
              simp [Except.map, Except.isOk, Except.toBool] at h
          | error e => rfl
      | error e =>
          cases hrb : beh.rollbackRes <;> simp [msLoop, hr, hrb]

/-- Claim C2 (multi-statement atomicity): for every driver behaviour and
statement list, `multipleStatements` (with an initialized driver) commits the
explicit transaction if and only if every statement succeeds; when all
statements and the commit succeed it resolves with the per-statement
normalized-record lists in statement order, having run the statements
sequentially inside the transaction (`beginTx`, `runStmt 0..n-1`, `commit`);
and when any statement or the commit fails it invokes the rollback and
rejects, returning no partial results. -/
theorem claim_C2 (beh : MSBehavior) (multiDB : Bool) (database : String)
    (statements : List String) :
    (Event.commit ∈ (multipleStatements beh true multiDB database statements).2 ↔
      ∀ i, i < statements.length → (beh.run i).isOk = true) ∧
    ((∀ i, i < statements.length → (beh.run i).isOk = true) →
      beh.commitRes.isOk = true →
      multipleStatements beh true multiDB database statements =
        (.ok ((List.range statements.length).map
            (fun i => extractRecords (some (okRecs beh i)))),
          Event.acquireSession (sessionDatabase multiDB database) :: Event.beginTx ::
            ((List.range statements.length).map Event.runStmt ++
              [Event.commit, Event.closeSession]))) ∧
    (((∃ i, i < statements.length ∧ (beh.run i).isOk = false) ∨
        beh.commitRes.isOk = false) →
      Event.rollback ∈ (multipleStatements beh true multiDB database statements).2 ∧
        (multipleStatements beh true multiDB database statements).1.isOk = false) := by
  refine ⟨?_, ?_, ?_⟩
  · simp only [multipleStatements, if_true, List.mem_cons, List.mem_append,
      List.mem_singleton]
    constructor
    · intro h
      have hmem : Event.commit ∈ (msLoop beh 0 statements).2 := by
        rcases h with h | h | h | h
        · exact absurd h (by simp)
        · exact absurd h (by simp)
        · exact h
        · exact absurd h (by simp)
      intro i hi
      have := (msLoop_commit_mem beh statements 0).mp hmem i hi
      rwa [Nat.zero_add] at this
    · intro h
      refine Or.inr (Or.inr (Or.inl ((msLoop_commit_mem beh statements 0).mpr ?_)))
      intro i hi
      rw [Nat.zero_add]
      exact h i hi
  · intro hall hc
    have hloop := msLoop_ok beh statements 0 (fun i hi => by
      rw [Nat.zero_add]; exact hall i hi) hc
    simp only [Nat.zero_add] at hloop
    simp [multipleStatements, hloop]
  · intro hfail
    have hnotOk : (msLoop beh 0 statements).1.isOk = false := by
      cases hok : (msLoop beh 0 statements).1.isOk with
      | false => rfl
      | true =>
          exfalso
          rcases (msLoop_isOk beh statements 0).mp hok with ⟨ha, hb⟩
          rcases hfail with ⟨i, hi, hni⟩ | hnc
          · have := ha i hi
            rw [Nat.zero_add] at this
            rw [this] at hni
            exact Bool.noConfusion hni
          · rw [hb] at hnc
            exact Bool.noConfusion hnc
    have hrb := msLoop_rollback beh statements 0 hnotOk
    refine ⟨?_, ?_⟩
    · simp only [multipleStatements, if_true, List.mem_cons, List.mem_append]
      exact Or.inr (Or.inr (Or.inl hrb))
    · simpa [multipleStatements] using hnotOk

/-- A behaviour in which the single statement and the commit succeed. -/
def msBehW : MSBehavior :=
  { run := fun _ => .ok [], commitRes := .ok (), rollbackRes := .ok () }

/-- Witness for C2: on one trivially succeeding statement, the call commits
and resolves with that statement's normalized records. -/
theorem claim_C2_witness :
    multipleStatements msBehW true false "neo4j" ["s"] =
      (.ok [extractRecords (some [])],
        [Event.acquireSession none, Event.beginTx, Event.runStmt 0,
          Event.commit, Event.closeSession]) := by
  have h := (claim_C2 msBehW false "neo4j" ["s"]).2.1
    (by intro i _; rfl) rfl
  simpa [okRecs, msBehW, sessionDatabase] using h

/-- Claim C6 (session release on every exit path): whenever the driver is
initialized — the only case in which a session is acquired — the very last
driver interaction of `multipleStatements`, `readTransaction` and
`writeTransaction` is closing the session, for every driver behaviour,
i.e. on success, on statement failure and on commit/rollback failure. -/
theorem claim_C6 (beh : MSBehavior) (rwBeh : RWBehavior) (multiDB : Bool)
    (database : String) (statements : List String) :
    (multipleStatements beh true multiDB database statements).2.getLast? =
      some Event.closeSession ∧
    (readTransaction rwBeh true multiDB database).2.getLast? =
      some Event.closeSession ∧
    (writeTransaction rwBeh true multiDB database).2.getLast? =
      some Event.closeSession := by
  refine ⟨?_, ?_, ?_⟩
  · simp only [multipleStatements, if_true]
    have hshape : Event.acquireSession (sessionDatabase multiDB database) ::
        Event.beginTx :: ((msLoop beh 0 statements).2 ++ [Event.closeSession]) =
        (Event.acquireSession (sessionDatabase multiDB database) ::
          Event.beginTx :: (msLoop beh 0 statements).2) ++ [Event.closeSession] := by
      simp
    rw [hshape, List.getLast?_concat]
  · cases hr : rwBeh.run <;> simp [readTransaction, hr]
  · cases hr : rwBeh.run <;> simp [writeTransaction, hr]

/-! ## Heap semantics of the normalizer (`convertValues` in place)

`convertValues` is not heap-free in the source: its recursive-object branch
executes `value[key] = convertValues(value[key])`, assigning through the
reference it was given.  To settle the purity claim the function is embedded
a second time over an explicit heap: JavaScript objects, arrays and `Node`
wrappers live in an address-indexed store, field/slot contents are scalars
or references, and the embedded function threads the store.  Driver
`Integer` and temporal/spatial wrappers are kept as immutable atoms, since
the code only calls their pure methods (`isInt`, `toNumber`, `toString`).
Fuel makes the recursion total (JavaScript diverges on cyclic data here).
Natesses are plain naturals. -/

/-- A scalar or reference stored in an object field or array slot. -/
inductive HVal where
  | hnull : HVal
  | hbool (b : Bool) : HVal
  | hnum (n : Int) : HVal
  | hstr (s : String) : HVal
  | hint (i : Int) : HVal
  | htemporal (repr : String) : HVal
  | href (a : Nat) : HVal
  deriving DecidableEq

/-- A heap cell: an array, a plain object (fields in insertion order), or a
driver `Node` wrapper holding the address of its `properties` object. -/
inductive HObj where
  | harr (elems : List HVal) : HObj
  | hobj (fields : List (String × HVal)) : HObj
  | hnode (props : Nat) : HObj
  deriving DecidableEq

abbrev HeapT := List (Nat × HObj)

/-- Read a heap cell (first binding of the address). -/
def heapGet : HeapT → Nat → Option HObj
  | [], _ => none
  | (b, o) :: rest, a => if b = a then some o else heapGet rest a

/-- Overwrite a heap cell in place (first binding of the address). -/
def heapSet : HeapT → Nat → HObj → HeapT
  | [], _, _ => []
  | (b, o) :: rest, a, o' =>
      if b = a then (b, o') :: rest else (b, o) :: heapSet rest a o'

/-- Mutable store together with the next fresh address. -/
structure HState where
  heap : HeapT
  next : Nat
  deriving DecidableEq

/-- Every allocated address is below the allocation counter. -/
def WFState (st : HState) : Prop :=
  ∀ p ∈ st.heap, p.1 < st.next

instance : DecidablePred WFState := fun st =>
  decidable_of_iff (∀ p ∈ st.heap, p.1 < st.next) Iff.rfl

/-- Property read `value[key]` on an object's fields (first occurrence). -/
def lookupFH : List (String × HVal) → String → Option HVal
  | [], _ => none
  | (k, v) :: rest, key => if k = key then some v else lookupFH rest key

/-- Property write `value[key] = v` on an existing key (first occurrence is
replaced, insertion order is kept — JavaScript assignment to an existing
property). -/
def setFH : List (String × HVal) → String → HVal → List (String × HVal)
  | [], _, _ => []
  | (k, v) :: rest, key, v' =>
      if k = key then (k, v') :: rest else (k, v) :: setFH rest key v'

mutual

/-- Heap-level embedding of `convertValues` (`src/src/index.ts` lines
273-338) with its real effects.  Branch order as in the source: `null`,
driver integer, temporal/spatial, `Node` unwrap to the `properties`
reference, array (`value.map(...)` allocates a fresh array), recursive
object (`for (const key of Object.keys(value)) value[key] = ...` snapshots
the keys and assigns each converted field back through the reference), and
all other scalars returned unchanged. -/
def convH : Nat → HState → HVal → Option (HState × HVal)
  | 0, _, _ => none
  | _ + 1, st, .hnull => some (st, .hnull)
  | _ + 1, st, .hint i =>
      some (st, if inSafeRange i then .hnum i else .hstr (toString i))
  | _ + 1, st, .htemporal r => some (st, .hstr r)
  | fuel + 1, st, .href a =>
      match heapGet st.heap a with
      | some (.hnode p) =>
          match heapGet st.heap p with
          | some (.harr elems) =>
              match convListH fuel st elems with
              | some (st', elems') =>
                  some (⟨st'.heap ++ [(st'.next, .harr elems')], st'.next + 1⟩,
                    .href st'.next)
              | none => none
          | some (.hobj hfs) =>
              match convFieldsH fuel st p (hfs.map Prod.fst) with
              | some st' => some (st', .href p)
              | none => none
          | _ => none
      | some (.harr elems) =>
          match convListH fuel st elems with
          | some (st', elems') =>
              some (⟨st'.heap ++ [(st'.next, .harr elems')], st'.next + 1⟩,
                .href st'.next)
          | none => none
      | some (.hobj hfs) =>
          match convFieldsH fuel st a (hfs.map Prod.fst) with
          | some st' => some (st', .href a)
          | none => none
      | none => none
  | _ + 1, st, .hbool b => some (st, .hbool b)
  | _ + 1, st, .hnum n => some (st, .hnum n)
  | _ + 1, st, .hstr s => some (st, .hstr s)

/-- `value.map(v => convertValues(v))`: elements converted left to right
through the evolving store, results collected into a fresh list. -/
def convListH : Nat → HState → List HVal → Option (HState × List HVal)
  | 0, _, _ => none
  | _ + 1, st, [] => some (st, [])
  | fuel + 1, st, v :: vs =>
      match convH fuel st v with
      | some (st', v') =>
          match convListH fuel st' vs with
          | some (st'', vs') => some (st'', v' :: vs')
          | none => none
      | none => none

/-- The recursive-object loop: for each snapshotted key in order, read the
current field value through the reference, convert it, and assign the result
back in place. -/
def convFieldsH : Nat → HState → Nat → List String → Option HState
  | 0, _, _, _ => none
  | _ + 1, st, _, [] => some st
  | fuel + 1, st, a, k :: rest =>
      match heapGet st.heap a with
      | some (.hobj hfs) =>
          match lookupFH hfs k with
          | some vk =>
              match convH fuel st vk with
              | some (st', vk') =>
                  match heapGet st'.heap a with
                  | some (.hobj hfs') =>
                      convFieldsH fuel
                        ⟨heapSet st'.heap a (.hobj (setFH hfs' k vk')), st'.next⟩
                        a rest
                  | _ => none
              | none => none
          | none => none
      | _ => none

end

mutual

/-- The store value `hv` represents the abstract driver value `t`:
scalars coincide, a reference to an array cell represents an array
element-wise, a reference to an object cell (with distinct keys, as in a
JavaScript object) represents a plain mapping field-wise, and a reference to
a `Node` cell whose `properties` address holds an object represents a node
value. -/
def reprV (h : HeapT) : HVal → Value → Bool
  | .hnull, .vnull => true
  | .hbool b, .vbool b' => b == b'
  | .hnum n, .vnum n' => n == n'
  | .hstr s, .vstr s' => s == s'
  | .hint i, .vint i' => i == i'
  | .htemporal r, .vtemporal _ r' => r == r'
  | .href a, .varr vs =>
      match heapGet h a with
      | some (.harr hvs) => reprL h hvs vs
      | _ => false
  | .href a, .vobj fs =>
      match heapGet h a with
      | some (.hobj hfs) =>
          decide ((hfs.map Prod.fst).Nodup) && reprF h hfs fs
      | _ => false
  | .href a, .vnode fs =>
      match heapGet h a with
      | some (.hnode p) =>
          match heapGet h p with
          | some (.hobj hfs) =>
              decide ((hfs.map Prod.fst).Nodup) && reprF h hfs fs
          | _ => false
      | _ => false
  | _, _ => false

/-- Element-wise representation of an array's slots. -/
def reprL (h : HeapT) : List HVal → List Value → Bool
  | [], [] => true
  | hv :: hvs, v :: vs => reprV h hv v && reprL h hvs vs
  | _, _ => false

/-- Field-wise representation of an object's fields (same keys in order). -/
def reprF (h : HeapT) : List (String × HVal) → List (String × Value) → Bool
  | [], [] => true
  | (k, hv) :: hfs, (k', v) :: fs => k == k' && reprV h hv v && reprF h hfs fs
  | _, _ => false

end

mutual

/-- The addresses a representation of `t` occupies, in preorder. -/
def fpV (h : HeapT) : HVal → Value → List Nat
  | .href a, .varr vs =>
      a :: (match heapGet h a with
        | some (.harr hvs) => fpL h hvs vs
        | _ => [])
  | .href a, .vobj fs =>
      a :: (match heapGet h a with
        | some (.hobj hfs) => fpF h hfs fs
        | _ => [])
  | .href a, .vnode fs =>
      match heapGet h a with
      | some (.hnode p) =>
          a :: p :: (match heapGet h p with
            | some (.hobj hfs) => fpF h hfs fs
            | _ => [])
      | _ => [a]
  | _, _ => []

/-- Footprint of an array's slots. -/
def fpL (h : HeapT) : List HVal → List Value → List Nat
  | [], [] => []
  | hv :: hvs, v :: vs => fpV h hv v ++ fpL h hvs vs
  | _, _ => []

/-- Footprint of an object's fields. -/
def fpF (h : HeapT) : List (String × HVal) → List (String × Value) → List Nat
  | [], [] => []
  | (_, hv) :: hfs, (_, v) :: fs => fpV h hv v ++ fpF h hfs fs
  | _, _ => []

end

mutual

/-- Fuel sufficient to run `convH` on a representation of `t`. -/
def vsize : Value → Nat
  | .vnull | .vbool _ | .vnum _ | .vstr _ | .vint _ => 1
  | .vtemporal _ _ => 1
  | .vnode fs => 1 + fsize fs
  | .varr xs => 1 + lsize xs
  | .vobj fs => 1 + fsize fs

/-- Fuel sufficient for `convListH` on an array's slots. -/
def lsize : List Value → Nat
  | [] => 1
  | v :: vs => 1 + vsize v + lsize vs

/-- Fuel sufficient for `convFieldsH` on an object's fields. -/
def fsize : List (String × Value) → Nat
  | [] => 1
  | (_, v) :: fs => 1 + vsize v + fsize fs

end

theorem heapGet_mem {h : HeapT} {a : Nat} {o : HObj} (hg : heapGet h a = some o) :
    (a, o) ∈ h := by
  induction h with
  | nil => simp [heapGet] at hg
  | cons p rest ih =>
      obtain ⟨b, o'⟩ := p
      by_cases hb : b = a
      · subst hb
        rw [heapGet, if_pos rfl] at hg
        cases hg
        exact List.mem_cons_self _ _
      · rw [heapGet, if_neg hb] at hg
        exact List.mem_cons_of_mem _ (ih hg)

theorem heapGet_set_self {h : HeapT} {a : Nat}
    (hg : (heapGet h a).isSome = true) (o' : HObj) :
    heapGet (heapSet h a o') a = some o' := by
  induction h with
  | nil => simp [heapGet] at hg
  | cons p rest ih =>
      obtain ⟨b, ob⟩ := p
      by_cases hb : b = a
      · subst hb
        rw [heapSet, if_pos rfl, heapGet, if_pos rfl]
      · rw [heapGet, if_neg hb] at hg
        rw [heapSet, if_neg hb, heapGet, if_neg hb]
        exact ih hg

theorem heapGet_set_ne {h : HeapT} {a b : Nat} (hne : b ≠ a) (o' : HObj) :
    heapGet (heapSet h a o') b = heapGet h b := by
  induction h with
  | nil => rfl
  | cons p rest ih =>
      obtain ⟨c, oc⟩ := p
      by_cases hc : c = a
      · subst hc
        rw [heapSet, if_pos rfl, heapGet, heapGet, if_neg (fun hh => hne hh.symm),
          if_neg (fun hh => hne hh.symm)]
      · rw [heapSet, if_neg hc]
        by_cases hcb : c = b
        · subst hcb
          rw [heapGet, if_pos rfl, heapGet, if_pos rfl]
        · rw [heapGet, if_neg hcb, heapGet, if_neg hcb]
          exact ih

theorem heapSet_keys (h : HeapT) (a : Nat) (o' : HObj) :
    (heapSet h a o').map Prod.fst = h.map Prod.fst := by
  induction h with
  | nil => rfl
  | cons p rest ih =>
      obtain ⟨c, oc⟩ := p
      by_cases hc : c = a
      · subst hc
        rw [heapSet, if_pos rfl, List.map_cons, List.map_cons]
      · rw [heapSet, if_neg hc, List.map_cons, List.map_cons, ih]

theorem heapGet_append_ne {h : HeapT} {n b : Nat} (hne : b ≠ n) (o : HObj) :
    heapGet (h ++ [(n, o)]) b = heapGet h b := by
  induction h with
  | nil =>
      have hnb : ¬ (n = b) := fun hh => hne hh.symm
      simp [heapGet, hnb]
  | cons p rest ih =>
      obtain ⟨c, oc⟩ := p
      by_cases hcb : c = b
      · subst hcb
        rw [List.cons_append, heapGet, if_pos rfl, heapGet, if_pos rfl]
      · rw [List.cons_append, heapGet, if_neg hcb, heapGet, if_neg hcb]
        exact ih

theorem heapGet_append_fresh {h : HeapT} {n : Nat}
    (hfresh : ∀ p ∈ h, p.1 ≠ n) (o : HObj) :
    heapGet (h ++ [(n, o)]) n = some o := by
  induction h with
  | nil => simp [heapGet]
  | cons p rest ih =>
      obtain ⟨c, oc⟩ := p
      rw [List.cons_append, heapGet,
        if_neg (hfresh (c, oc) (List.mem_cons_self _ _))]
      exact ih (fun q hq => hfresh q (List.mem_cons_of_mem _ hq))

theorem lookupFH_append_right {done : List (String × HVal)} {k : String}
    (hk : k ∉ done.map Prod.fst) (rem : List (String × HVal)) :
    lookupFH (done ++ rem) k = lookupFH rem k := by
  induction done with
  | nil => rfl
  | cons p rest ih =>
      obtain ⟨k', v'⟩ := p
      rw [List.cons_append, lookupFH, if_neg (by
        intro hh
        exact hk (by simp [hh]))]
      exact ih (fun hh => hk (List.mem_cons_of_mem _ hh))

theorem setFH_append_right {done : List (String × HVal)} {k : String}
    (hk : k ∉ done.map Prod.fst) (rem : List (String × HVal)) (v' : HVal) :
    setFH (done ++ rem) k v' = done ++ setFH rem k v' := by
  induction done with
  | nil => rfl
  | cons p rest ih =>
      obtain ⟨k', w⟩ := p
      rw [List.cons_append, setFH, if_neg (by
        intro hh
        exact hk (by simp [hh])), List.cons_append,
        ih (fun hh => hk (List.mem_cons_of_mem _ hh))]

theorem reprF_keys {h : HeapT} : ∀ {hfs : List (String × HVal)}
    {fs : List (String × Value)}, reprF h hfs fs = true →
    hfs.map Prod.fst = fs.map Prod.fst := by
  intro hfs
  induction hfs with
  | nil =>
      intro fs hr
      cases fs with
      | nil => rfl
      | cons p fs' => simp [reprF] at hr
  | cons p hfs' ih =>
      intro fs hr
      obtain ⟨k, hv⟩ := p
      cases fs with
      | nil => simp [reprF] at hr
      | cons q fs' =>
          obtain ⟨k', v⟩ := q
          simp only [reprF, Bool.and_eq_true, beq_iff_eq] at hr
          rw [List.map_cons, List.map_cons, hr.1.1, ih hr.2]

theorem convertFields_keys : ∀ fs : List (String × Value),
    (convertFields fs).map Prod.fst = fs.map Prod.fst
  | [] => rfl
  | (k, v) :: rest => by
      rw [convertFields, List.map_cons, List.map_cons, convertFields_keys rest]

theorem vsize_pos : ∀ t : Value, 1 ≤ vsize t := by
  intro t
  cases t <;> simp [vsize]

theorem lsize_pos : ∀ vs : List Value, 1 ≤ lsize vs := by
  intro vs
  cases vs <;> simp [lsize] <;> omega

theorem fsize_pos : ∀ fs : List (String × Value), 1 ≤ fsize fs := by
  intro fs
  cases fs with
  | nil => simp [fsize]
  | cons p rest =>
      obtain ⟨k, v⟩ := p
      simp [fsize]
      omega

mutual

theorem repr_congr_v : ∀ (t : Value) (h h' : HeapT) (hv : HVal),
    (∀ b ∈ fpV h hv t, heapGet h' b = heapGet h b) → reprV h hv t = true →
    reprV h' hv t = true ∧ fpV h' hv t = fpV h hv t
  | .vnull, h, h', hv, _, hrep => by
      cases hv <;> simp [reprV] at hrep <;> simp [reprV, fpV]
  | .vbool b, h, h', hv, _, hrep => by
      cases hv <;> simp [reprV] at hrep <;> simp [reprV, fpV, hrep]
  | .vnum n, h, h', hv, _, hrep => by
      cases hv <;> simp [reprV] at hrep <;> simp [reprV, fpV, hrep]
  | .vstr s, h, h', hv, _, hrep => by
      cases hv <;> simp [reprV] at hrep <;> simp [reprV, fpV, hrep]
  | .vint i, h, h', hv, _, hrep => by
      cases hv <;> simp [reprV] at hrep <;> simp [reprV, fpV, hrep]
  | .vtemporal fs r, h, h', hv, _, hrep => by
      cases hv <;> simp [reprV] at hrep <;> simp [reprV, fpV, hrep]
  | .varr vs, h, h', hv, hcells, hrep => by
      cases hv <;> try simp [reprV] at hrep
      rename_i a
      cases hga : heapGet h a with
      | none => rw [hga] at hrep; simp at hrep
      | some o =>
          rw [hga] at hrep
          cases o with
          | hnode p => simp at hrep
          | hobj hfs => simp at hrep
          | harr hvs =>
              simp only at hrep
              have hfp : fpV h (.href a) (.varr vs) = a :: fpL h hvs vs := by
                simp [fpV, hga]
              have hga' : heapGet h' a = some (.harr hvs) := by
                rw [hcells a (by rw [hfp]; exact List.mem_cons_self _ _), hga]
              have hcl : ∀ b ∈ fpL h hvs vs, heapGet h' b = heapGet h b := by
                intro b hb
                exact hcells b (by rw [hfp]; exact List.mem_cons_of_mem _ hb)
              have := repr_congr_l vs h h' hvs hcl hrep
              refine ⟨?_, ?_⟩
              · simp only [reprV, hga']
                exact this.1
              · rw [hfp]
                simp [fpV, hga', this.2]
  | .vobj fs, h, h', hv, hcells, hrep => by
      cases hv <;> try simp [reprV] at hrep
      rename_i a
      cases hga : heapGet h a with
      | none => rw [hga] at hrep; simp at hrep
      | some o =>
          rw [hga] at hrep
          cases o with
          | hnode p => simp at hrep
          | harr hvs => simp at hrep
          | hobj hfs =>
              simp only [Bool.and_eq_true, decide_eq_true_eq] at hrep
              have hfp : fpV h (.href a) (.vobj fs) = a :: fpF h hfs fs := by
                simp [fpV, hga]
              have hga' : heapGet h' a = some (.hobj hfs) := by
                rw [hcells a (by rw [hfp]; exact List.mem_cons_self _ _), hga]
              have hcl : ∀ b ∈ fpF h hfs fs, heapGet h' b = heapGet h b := by
                intro b hb
                exact hcells b (by rw [hfp]; exact List.mem_cons_of_mem _ hb)
              have := repr_congr_f fs h h' hfs hcl hrep.2
              refine ⟨?_, ?_⟩
              · simp only [reprV, hga']
                simp [hrep.1, this.1]
              · rw [hfp]
                simp [fpV, hga', this.2]
  | .vnode fs, h, h', hv, hcells, hrep => by
      cases hv <;> try simp [reprV] at hrep
      rename_i a
      cases hga : heapGet h a with
      | none => rw [hga] at hrep; simp at hrep
      | some o =>
          rw [hga] at hrep
          cases o with
          | harr hvs => simp at hrep
          | hobj hfs => simp at hrep
          | hnode p =>
              simp only at hrep
              cases hgp : heapGet h p with
              | none => rw [hgp] at hrep; simp at hrep
              | some o2 =>
                  rw [hgp] at hrep
                  cases o2 with
                  | hnode q => simp at hrep
                  | harr hvs => simp at hrep
                  | hobj hfs =>
                      simp only [Bool.and_eq_true, decide_eq_true_eq] at hrep
                      have hfp : fpV h (.href a) (.vnode fs) =
                          a :: p :: fpF h hfs fs := by
                        simp [fpV, hga, hgp]
                      have hga' : heapGet h' a = some (.hnode p) := by
                        rw [hcells a (by rw [hfp]; exact List.mem_cons_self _ _),
                          hga]
                      have hgp' : heapGet h' p = some (.hobj hfs) := by
                        rw [hcells p (by
                          rw [hfp]
                          exact List.mem_cons_of_mem _ (List.mem_cons_self _ _)),
                          hgp]
                      have hcl : ∀ b ∈ fpF h hfs fs,
                          heapGet h' b = heapGet h b := by
                        intro b hb
                        refine hcells b ?_
                        rw [hfp]
                        exact List.mem_cons_of_mem _ (List.mem_cons_of_mem _ hb)
                      have := repr_congr_f fs h h' hfs hcl hrep.2
                      refine ⟨?_, ?_⟩
                      · simp only [reprV, hga', hgp']
                        simp [hrep.1, this.1]
                      · rw [hfp]
                        simp [fpV, hga', hgp', this.2]

theorem repr_congr_l : ∀ (vs : List Value) (h h' : HeapT) (hvs : List HVal),
    (∀ b ∈ fpL h hvs vs, heapGet h' b = heapGet h b) → reprL h hvs vs = true →
    reprL h' hvs vs = true ∧ fpL h' hvs vs = fpL h hvs vs
  | [], h, h', hvs, _, hrep => by
      cases hvs with
      | nil => simp [reprL, fpL]
      | cons hv hvs' => simp [reprL] at hrep
  | v :: vs, h, h', hvs, hcells, hrep => by
      cases hvs with
      | nil => simp [reprL] at hrep
      | cons hv hvs' =>
          simp only [reprL, Bool.and_eq_true] at hrep
          have hfp : fpL h (hv :: hvs') (v :: vs) =
              fpV h hv v ++ fpL h hvs' vs := by
            simp [fpL]
          have hv1 := repr_congr_v v h h' hv (fun b hb =>
            hcells b (by rw [hfp]; exact List.mem_append_left _ hb)) hrep.1
          have hv2 := repr_congr_l vs h h' hvs' (fun b hb =>
            hcells b (by rw [hfp]; exact List.mem_append_right _ hb)) hrep.2
          refine ⟨?_, ?_⟩
          · simp [reprL, hv1.1, hv2.1]
          · rw [hfp]
            simp [fpL, hv1.2, hv2.2]

theorem repr_congr_f : ∀ (fs : List (String × Value)) (h h' : HeapT)
    (hfs : List (String × HVal)),
    (∀ b ∈ fpF h hfs fs, heapGet h' b = heapGet h b) → reprF h hfs fs = true →
    reprF h' hfs fs = true ∧ fpF h' hfs fs = fpF h hfs fs
  | [], h, h', hfs, _, hrep => by
      cases hfs with
      | nil => simp [reprF, fpF]
      | cons p hfs' =>
          obtain ⟨k, hv⟩ := p
          simp [reprF] at hrep
  | (k', v) :: fs, h, h', hfs, hcells, hrep => by
      cases hfs with
      | nil => simp [reprF] at hrep
      | cons p hfs' =>
          obtain ⟨k, hv⟩ := p
          simp only [reprF, Bool.and_eq_true] at hrep
          have hfp : fpF h ((k, hv) :: hfs') ((k', v) :: fs) =
              fpV h hv v ++ fpF h hfs' fs := by
            simp [fpF]
          have hv1 := repr_congr_v v h h' hv (fun b hb =>
            hcells b (by rw [hfp]; exact List.mem_append_left _ hb)) hrep.1.2
          have hv2 := repr_congr_f fs h h' hfs' (fun b hb =>
            hcells b (by rw [hfp]; exact List.mem_append_right _ hb)) hrep.2
          refine ⟨?_, ?_⟩
          · simp only [reprF, Bool.and_eq_true]
            exact ⟨⟨hrep.1.1, hv1.1⟩, hv2.1⟩
          · rw [hfp]
            simp [fpF, hv1.2, hv2.2]

end

mutual

theorem fp_lt_v : ∀ (t : Value) (h : HeapT) (hv : HVal) (n : Nat),
    (∀ p ∈ h, p.1 < n) → reprV h hv t = true → ∀ b ∈ fpV h hv t, b < n
  | .vnull, h, hv, n, _, hrep => by
      cases hv <;> simp [reprV] at hrep <;> simp [fpV]
  | .vbool b, h, hv, n, _, hrep => by
      cases hv <;> simp [reprV] at hrep <;> simp [fpV]
  | .vnum m, h, hv, n, _, hrep => by
      cases hv <;> simp [reprV] at hrep <;> simp [fpV]
  | .vstr s, h, hv, n, _, hrep => by
      cases hv <;> simp [reprV] at hrep <;> simp [fpV]
  | .vint i, h, hv, n, _, hrep => by
      cases hv <;> simp [reprV] at hrep <;> simp [fpV]
  | .vtemporal fs r, h, hv, n, _, hrep => by
      cases hv <;> simp [reprV] at hrep <;> simp [fpV]
  | .varr vs, h, hv, n, hdom, hrep => by
      cases hv <;> try simp [reprV] at hrep
      rename_i a
      cases hga : heapGet h a with
      | none => rw [hga] at hrep; simp at hrep
      | some o =>
          rw [hga] at hrep
          cases o with
          | hnode p => simp at hrep
          | hobj hfs => simp at hrep
          | harr hvs =>
              simp only at hrep
              intro b hb
              simp only [fpV, hga] at hb
              rcases List.mem_cons.mp hb with hb | hb
              · subst hb
                exact hdom _ (heapGet_mem hga)
              · exact fp_lt_l vs h hvs n hdom hrep b hb
  | .vobj fs, h, hv, n, hdom, hrep => by
      cases hv <;> try simp [reprV] at hrep
      rename_i a
      cases hga : heapGet h a with
      | none => rw [hga] at hrep; simp at hrep
      | some o =>
          rw [hga] at hrep
          cases o with
          | hnode p => simp at hrep
          | harr hvs => simp at hrep
          | hobj hfs =>
              simp only [Bool.and_eq_true, decide_eq_true_eq] at hrep
              intro b hb
              simp only [fpV, hga] at hb
              rcases List.mem_cons.mp hb with hb | hb
              · subst hb
                exact hdom _ (heapGet_mem hga)
              · exact fp_lt_f fs h hfs n hdom hrep.2 b hb
  | .vnode fs, h, hv, n, hdom, hrep => by
      cases hv <;> try simp [reprV] at hrep
      rename_i a
      cases hga : heapGet h a with
      | none => rw [hga] at hrep; simp at hrep
      | some o =>
          rw [hga] at hrep
          cases o with
          | harr hvs => simp at hrep
          | hobj hfs => simp at hrep
          | hnode p =>
              simp only at hrep
              cases hgp : heapGet h p with
              | none => rw [hgp] at hrep; simp at hrep
              | some o2 =>
                  rw [hgp] at hrep
                  cases o2 with
                  | hnode q => simp at hrep
                  | harr hvs => simp at hrep
                  | hobj hfs =>
                      simp only [Bool.and_eq_true, decide_eq_true_eq] at hrep
                      intro b hb
                      simp only [fpV, hga, hgp] at hb
                      rcases List.mem_cons.mp hb with hb | hb
                      · subst hb
                        exact hdom _ (heapGet_mem hga)
                      · rcases List.mem_cons.mp hb with hb | hb
                        · subst hb
                          exact hdom _ (heapGet_mem hgp)
                        · exact fp_lt_f fs h hfs n hdom hrep.2 b hb

theorem fp_lt_l : ∀ (vs : List Value) (h : HeapT) (hvs : List HVal) (n : Nat),
    (∀ p ∈ h, p.1 < n) → reprL h hvs vs = true → ∀ b ∈ fpL h hvs vs, b < n
  | [], h, hvs, n, _, hrep => by
      cases hvs with
      | nil => simp [fpL]
      | cons hv hvs' => simp [reprL] at hrep
  | v :: vs, h, hvs, n, hdom, hrep => by
      cases hvs with
      | nil => simp [reprL] at hrep
      | cons hv hvs' =>
          simp only [reprL, Bool.and_eq_true] at hrep
          intro b hb
          simp only [fpL] at hb
          rcases List.mem_append.mp hb with hb | hb
          · exact fp_lt_v v h hv n hdom hrep.1 b hb
          · exact fp_lt_l vs h hvs' n hdom hrep.2 b hb

theorem fp_lt_f : ∀ (fs : List (String × Value)) (h : HeapT)
    (hfs : List (String × HVal)) (n : Nat),
    (∀ p ∈ h, p.1 < n) → reprF h hfs fs = true → ∀ b ∈ fpF h hfs fs, b < n
  | [], h, hfs, n, _, hrep => by
      cases hfs with
      | nil => simp [fpF]
      | cons p hfs' =>
          obtain ⟨k, hv⟩ := p
          simp [reprF] at hrep
  | (k', v) :: fs, h, hfs, n, hdom, hrep => by
      cases hfs with
      | nil => simp [reprF] at hrep
      | cons p hfs' =>
          obtain ⟨k, hv⟩ := p
          simp only [reprF, Bool.and_eq_true] at hrep
          intro b hb
          simp only [fpF] at hb
          rcases List.mem_append.mp hb with hb | hb
          · exact fp_lt_v v h hv n hdom hrep.1.2 b hb
          · exact fp_lt_f fs h hfs' n hdom hrep.2 b hb

end

theorem WFState_set {st : HState} (hwf : WFState st) (a : Nat) (o' : HObj) :
    WFState ⟨heapSet st.heap a o', st.next⟩ := by
  intro p hp
  have hmem : p.1 ∈ (heapSet st.heap a o').map Prod.fst :=
    List.mem_map_of_mem _ hp
  rw [heapSet_keys] at hmem
  obtain ⟨q, hq, hq1⟩ := List.mem_map.mp hmem
  rw [← hq1]
  exact hwf q hq

theorem WFState_lt {st : HState} (hwf : WFState st) {a : Nat} {o : HObj}
    (hg : heapGet st.heap a = some o) : a < st.next :=
  hwf _ (heapGet_mem hg)

theorem disjoint_of_regions {fp1 fp2 fp1' fp2' : List Nat} {n0 n1 : Nat}
    (h1 : ∀ b ∈ fp1', b ∈ fp1 ∨ n0 ≤ b) (h1lt : ∀ b ∈ fp1', b < n1)
    (h2 : ∀ b ∈ fp2', b ∈ fp2 ∨ n1 ≤ b)
    (hfp1 : ∀ b ∈ fp1, b < n0) (hfp2 : ∀ b ∈ fp2, b < n0)
    (hdisj : List.Disjoint fp1 fp2) :
    List.Disjoint fp1' fp2' := by
  intro b hb1 hb2
  have hblt : b < n1 := h1lt b hb1
  rcases h1 b hb1 with h | h
  · rcases h2 b hb2 with h' | h'
    · exact hdisj h h'
    · exact absurd h' (Nat.not_le.mpr hblt)
  · rcases h2 b hb2 with h' | h'
    · exact absurd h (Nat.not_le.mpr (hfp2 b h'))
    · exact absurd h' (Nat.not_le.mpr hblt)

mutual

/-- Running the in-place normalizer on a sharing-free representation of `t`
succeeds, returns a representation of the pure `convertValues t` whose
footprint reuses only the input's cells or freshly allocated ones, and
leaves every other previously allocated cell untouched. -/
theorem conv_agree_v : ∀ (fuel : Nat) (t : Value) (st : HState) (hv : HVal),
    vsize t ≤ fuel → reprV st.heap hv t = true → (fpV st.heap hv t).Nodup →
    WFState st →
    ∃ st' hv',
      convH fuel st hv = some (st', hv') ∧
      reprV st'.heap hv' (convertValues t) = true ∧
      (fpV st'.heap hv' (convertValues t)).Nodup ∧
      (∀ b ∈ fpV st'.heap hv' (convertValues t),
        b ∈ fpV st.heap hv t ∨ st.next ≤ b) ∧
      st.next ≤ st'.next ∧
      WFState st' ∧
      (∀ b, b ∉ fpV st.heap hv t → b < st.next →
        heapGet st'.heap b = heapGet st.heap b)
  | 0, t, st, hv, hsz, _, _, _ => by
      exfalso
      have := vsize_pos t
      omega
  | fuel + 1, t, st, hv, hsz, hrep, hnd, hwf => by
      cases t with
      | vnull =>
          cases hv <;> simp [reprV] at hrep
          exact ⟨st, .hnull, rfl, by simp [convertValues, reprV],
            by simp [convertValues, fpV], by simp [convertValues, fpV],
            Nat.le_refl _, hwf, fun b _ _ => rfl⟩
      | vbool b0 =>
          cases hv <;> simp [reprV] at hrep
          rename_i b1
          subst hrep
          exact ⟨st, .hbool b1, rfl, by simp [convertValues, reprV],
            by simp [convertValues, fpV], by simp [convertValues, fpV],
            Nat.le_refl _, hwf, fun b _ _ => rfl⟩
      | vnum n0 =>
          cases hv <;> simp [reprV] at hrep
          rename_i n1
          subst hrep
          exact ⟨st, .hnum n1, rfl, by simp [convertValues, reprV],
            by simp [convertValues, fpV], by simp [convertValues, fpV],
            Nat.le_refl _, hwf, fun b _ _ => rfl⟩
      | vstr s0 =>
          cases hv <;> simp [reprV] at hrep
          rename_i s1
          subst hrep
          exact ⟨st, .hstr s1, rfl, by simp [convertValues, reprV],
            by simp [convertValues, fpV], by simp [convertValues, fpV],
            Nat.le_refl _, hwf, fun b _ _ => rfl⟩
      | vint i =>
          cases hv <;> simp [reprV] at hrep
          rename_i i'
          subst hrep
          refine ⟨st, _, rfl, ?_, ?_, ?_, Nat.le_refl _, hwf, fun b _ _ => rfl⟩ <;>
            by_cases hir : inSafeRange i' <;>
              simp [convertValues, reprV, fpV, hir]
      | vtemporal tfs r =>
          cases hv <;> simp [reprV] at hrep
          rename_i r'
          subst hrep
          exact ⟨st, .hstr r', rfl, by simp [convertValues, reprV],
            by simp [convertValues, fpV], by simp [convertValues, fpV],
            Nat.le_refl _, hwf, fun b _ _ => rfl⟩
      | varr vs =>
          cases hv <;> try simp [reprV] at hrep
          rename_i a
          cases hga : heapGet st.heap a with
          | none => rw [hga] at hrep; simp at hrep
          | some o =>
              rw [hga] at hrep
              cases o with
              | hnode p => simp at hrep
              | hobj hfs => simp at hrep
              | harr hvs =>
                  simp only at hrep
                  have hfp : fpV st.heap (.href a) (.varr vs) =
                      a :: fpL st.heap hvs vs := by simp [fpV, hga]
                  rw [hfp] at hnd
                  have hna : a ∉ fpL st.heap hvs vs := (List.nodup_cons.mp hnd).1
                  have hndl : (fpL st.heap hvs vs).Nodup := (List.nodup_cons.mp hnd).2
                  have hszl : lsize vs ≤ fuel := by
                    simp only [vsize] at hsz
                    omega
                  obtain ⟨st1, hvs', hconv, hrepl, hndl', hsub, hmono, hwf1, hframe⟩ :=
                    conv_agree_l fuel vs st hvs hszl hrep hndl hwf
                  have hlt2 : ∀ b ∈ fpL st1.heap hvs' (convertList vs), b < st1.next :=
                    fp_lt_l (convertList vs) st1.heap hvs' st1.next hwf1 hrepl
                  have hfresh : ∀ p ∈ st1.heap, p.1 ≠ st1.next :=
                    fun p hp => Nat.ne_of_lt (hwf1 p hp)
                  have hganew : heapGet (st1.heap ++ [(st1.next, .harr hvs')]) st1.next =
                      some (.harr hvs') := heapGet_append_fresh hfresh _
                  have hcells : ∀ b ∈ fpL st1.heap hvs' (convertList vs),
                      heapGet (st1.heap ++ [(st1.next, .harr hvs')]) b =
                        heapGet st1.heap b :=
                    fun b hb => heapGet_append_ne (Nat.ne_of_lt (hlt2 b hb)) _
                  have hcong := repr_congr_l (convertList vs) st1.heap
                    (st1.heap ++ [(st1.next, .harr hvs')]) hvs' hcells hrepl
                  refine ⟨⟨st1.heap ++ [(st1.next, .harr hvs')], st1.next + 1⟩,
                    .href st1.next, ?_, ?_, ?_, ?_, ?_, ?_, ?_⟩
                  · simp only [convH, hga, hconv]
                  · show reprV (st1.heap ++ [(st1.next, .harr hvs')]) (.href st1.next)
                      (convertValues (.varr vs)) = true
                    simp only [convertValues, reprV, hganew]
                    exact hcong.1
                  · show (fpV (st1.heap ++ [(st1.next, .harr hvs')]) (.href st1.next)
                      (convertValues (.varr vs))).Nodup
                    simp only [convertValues]
                    rw [show fpV (st1.heap ++ [(st1.next, .harr hvs')]) (.href st1.next)
                        (.varr (convertList vs)) =
                        st1.next :: fpL st1.heap hvs' (convertList vs) from by
                      simp [fpV, hganew, hcong.2]]
                    exact List.nodup_cons.mpr
                      ⟨fun hmem => Nat.lt_irrefl _ (hlt2 _ hmem), hndl'⟩
                  · show ∀ b ∈ fpV (st1.heap ++ [(st1.next, .harr hvs')]) (.href st1.next)
                      (convertValues (.varr vs)),
                        b ∈ fpV st.heap (.href a) (.varr vs) ∨ st.next ≤ b
                    simp only [convertValues]
                    rw [show fpV (st1.heap ++ [(st1.next, .harr hvs')]) (.href st1.next)
                        (.varr (convertList vs)) =
                        st1.next :: fpL st1.heap hvs' (convertList vs) from by
                      simp [fpV, hganew, hcong.2]]
                    intro b hb
                    rcases List.mem_cons.mp hb with hb | hb
                    · right
                      rw [hb]
                      exact hmono
                    · rcases hsub b hb with h | h
                      · left
                        rw [hfp]
                        exact List.mem_cons_of_mem _ h
                      · right
                        exact h
                  · exact Nat.le_succ_of_le hmono
                  · intro p hp
                    rcases List.mem_append.mp hp with hp | hp
                    · exact Nat.lt_succ_of_lt (hwf1 p hp)
                    · rw [List.mem_singleton.mp hp]
                      exact Nat.lt_succ_self _
                  · intro b hb hblt
                    rw [hfp] at hb
                    have hb2 : b ∉ fpL st.heap hvs vs :=
                      fun hm => hb (List.mem_cons_of_mem _ hm)
                    have h1 : heapGet (st1.heap ++ [(st1.next, .harr hvs')]) b =
                        heapGet st1.heap b :=
                      heapGet_append_ne (Nat.ne_of_lt (Nat.lt_of_lt_of_le hblt hmono)) _
                    rw [h1]
                    exact hframe b hb2 hblt
      | vobj fs =>
          cases hv <;> try simp [reprV] at hrep
          rename_i a
          cases hga : heapGet st.heap a with
          | none => rw [hga] at hrep; simp at hrep
          | some o =>
              rw [hga] at hrep
              cases o with
              | hnode p => simp at hrep
              | harr hvs => simp at hrep
              | hobj hfs =>
                  simp only [Bool.and_eq_true, decide_eq_true_eq] at hrep
                  have hfp : fpV st.heap (.href a) (.vobj fs) =
                      a :: fpF st.heap hfs fs := by simp [fpV, hga]
                  rw [hfp] at hnd
                  have hna : a ∉ fpF st.heap hfs fs := (List.nodup_cons.mp hnd).1
                  have hndf : (fpF st.heap hfs fs).Nodup := (List.nodup_cons.mp hnd).2
                  have hszf : fsize fs ≤ fuel := by
                    simp only [vsize] at hsz
                    omega
                  have hga0 : heapGet st.heap a = some (.hobj ([] ++ hfs)) := by
                    simpa using hga
                  obtain ⟨st1, hfs', hcf, hga1, hrepf', hndf', hsub, hmono, hwf1, hframe⟩ :=
                    conv_agree_f fuel fs st a [] hfs hszf hga0 (by simpa using hrep.1)
                      hrep.2 hna hndf hwf
                  have hkeys' : hfs'.map Prod.fst = fs.map Prod.fst := by
                    rw [reprF_keys hrepf', convertFields_keys]
                  have hkeys0 : hfs.map Prod.fst = fs.map Prod.fst := reprF_keys hrep.2
                  have halt : a < st.next := WFState_lt hwf hga
                  have hga1' : heapGet st1.heap a = some (.hobj hfs') := by simpa using hga1
                  have hfp1 : fpV st1.heap (.href a) (.vobj (convertFields fs)) =
                      a :: fpF st1.heap hfs' (convertFields fs) := by simp [fpV, hga1']
                  refine ⟨st1, .href a, ?_, ?_, ?_, ?_, hmono, hwf1, ?_⟩
                  · simp only [convH, hga, hcf]
                  · simp only [convertValues, reprV, hga1']
                    simp only [Bool.and_eq_true, decide_eq_true_eq]
                    exact ⟨by rw [hkeys', ← hkeys0]; exact hrep.1, hrepf'⟩
                  · simp only [convertValues]
                    rw [hfp1]
                    refine List.nodup_cons.mpr ⟨?_, hndf'⟩
                    intro hmem
                    rcases hsub _ hmem with h | h
                    · exact hna h
                    · exact Nat.lt_irrefl _ (Nat.lt_of_lt_of_le halt h)
                  · simp only [convertValues]
                    rw [hfp1]
                    intro b hb
                    rcases List.mem_cons.mp hb with hb | hb
                    · subst hb
                      left
                      rw [hfp]
                      exact List.mem_cons_self _ _
                    · rcases hsub b hb with h | h
                      · left
                        rw [hfp]
                        exact List.mem_cons_of_mem _ h
                      · right
                        exact h
                  · intro b hb hblt
                    rw [hfp] at hb
                    exact hframe b (fun hm => hb (List.mem_cons_of_mem _ hm))
                      (fun he => hb (he ▸ List.mem_cons_self _ _)) hblt
      | vnode fs =>
          cases hv <;> try simp [reprV] at hrep
          rename_i a
          cases hga : heapGet st.heap a with
          | none => rw [hga] at hrep; simp at hrep
          | some o =>
              rw [hga] at hrep
              cases o with
              | harr hvs => simp at hrep
              | hobj hfs => simp at hrep
              | hnode p =>
                  simp only at hrep
                  cases hgp : heapGet st.heap p with
                  | none => rw [hgp] at hrep; simp at hrep
                  | some o2 =>
                      rw [hgp] at hrep
                      cases o2 with
                      | hnode q => simp at hrep
                      | harr hvs => simp at hrep
                      | hobj hfs =>
                          simp only [Bool.and_eq_true, decide_eq_true_eq] at hrep
                          have hfp : fpV st.heap (.href a) (.vnode fs) =
                              a :: p :: fpF st.heap hfs fs := by simp [fpV, hga, hgp]
                          rw [hfp] at hnd
                          have hnd1 := List.nodup_cons.mp hnd
                          have hnd2 := List.nodup_cons.mp hnd1.2
                          have hnp : p ∉ fpF st.heap hfs fs := hnd2.1
                          have hndf : (fpF st.heap hfs fs).Nodup := hnd2.2
                          have hszf : fsize fs ≤ fuel := by
                            simp only [vsize] at hsz
                            omega
                          have hgp0 : heapGet st.heap p = some (.hobj ([] ++ hfs)) := by
                            simpa using hgp
                          obtain ⟨st1, hfs', hcf, hgp1, hrepf', hndf', hsub, hmono,
                            hwf1, hframe⟩ :=
                            conv_agree_f fuel fs st p [] hfs hszf hgp0
                              (by simpa using hrep.1) hrep.2 hnp hndf hwf
                          have hkeys' : hfs'.map Prod.fst = fs.map Prod.fst := by
                            rw [reprF_keys hrepf', convertFields_keys]
                          have hkeys0 : hfs.map Prod.fst = fs.map Prod.fst :=
                            reprF_keys hrep.2
                          have hplt : p < st.next := WFState_lt hwf hgp
                          have hgp1' : heapGet st1.heap p = some (.hobj hfs') := by
                            simpa using hgp1
                          have hfp1 : fpV st1.heap (.href p) (.vobj (convertFields fs)) =
                              p :: fpF st1.heap hfs' (convertFields fs) := by
                            simp [fpV, hgp1']
                          refine ⟨st1, .href p, ?_, ?_, ?_, ?_, hmono, hwf1, ?_⟩
                          · simp only [convH, hga, hgp, hcf]
                          · simp only [convertValues, reprV, hgp1']
                            simp only [Bool.and_eq_true, decide_eq_true_eq]
                            exact ⟨by rw [hkeys', ← hkeys0]; exact hrep.1, hrepf'⟩
                          · simp only [convertValues]
                            rw [hfp1]
                            refine List.nodup_cons.mpr ⟨?_, hndf'⟩
                            intro hmem
                            rcases hsub _ hmem with h | h
                            · exact hnp h
                            · exact Nat.lt_irrefl _ (Nat.lt_of_lt_of_le hplt h)
                          · simp only [convertValues]
                            rw [hfp1]
                            intro b hb
                            rcases List.mem_cons.mp hb with hb | hb
                            · subst hb
                              left
                              rw [hfp]
                              exact List.mem_cons_of_mem _ (List.mem_cons_self _ _)
                            · rcases hsub b hb with h | h
                              · left
                                rw [hfp]
                                exact List.mem_cons_of_mem _ (List.mem_cons_of_mem _ h)
                              · right
                                exact h
                          · intro b hb hblt
                            rw [hfp] at hb
                            exact hframe b
                              (fun hm => hb (List.mem_cons_of_mem _
                                (List.mem_cons_of_mem _ hm)))
                              (fun he => hb (he ▸ List.mem_cons_of_mem _
                                (List.mem_cons_self _ _))) hblt

termination_by fuel => fuel

/-- Element-wise version of `conv_agree_v` for the array-mapping loop. -/
theorem conv_agree_l : ∀ (fuel : Nat) (vs : List Value) (st : HState)
    (hvs : List HVal),
    lsize vs ≤ fuel → reprL st.heap hvs vs = true → (fpL st.heap hvs vs).Nodup →
    WFState st →
    ∃ st' hvs',
      convListH fuel st hvs = some (st', hvs') ∧
      reprL st'.heap hvs' (convertList vs) = true ∧
      (fpL st'.heap hvs' (convertList vs)).Nodup ∧
      (∀ b ∈ fpL st'.heap hvs' (convertList vs),
        b ∈ fpL st.heap hvs vs ∨ st.next ≤ b) ∧
      st.next ≤ st'.next ∧
      WFState st' ∧
      (∀ b, b ∉ fpL st.heap hvs vs → b < st.next →
        heapGet st'.heap b = heapGet st.heap b)
  | 0, vs, st, hvs, hsz, _, _, _ => by
      exfalso
      have := lsize_pos vs
      omega
  | fuel + 1, [], st, hvs, _, hrep, _, hwf => by
      cases hvs with
      | nil =>
          exact ⟨st, [], rfl, by simp [convertList, reprL],
            by simp [convertList, fpL], by simp [convertList, fpL],
            Nat.le_refl _, hwf, fun b _ _ => rfl⟩
      | cons hv hvs' => simp [reprL] at hrep
  | fuel + 1, v :: vs, st, hvs, hsz, hrep, hnd, hwf => by
      cases hvs with
      | nil => simp [reprL] at hrep
      | cons hv hvs' =>
          simp only [reprL, Bool.and_eq_true] at hrep
          have hfp : fpL st.heap (hv :: hvs') (v :: vs) =
              fpV st.heap hv v ++ fpL st.heap hvs' vs := by simp [fpL]
          rw [hfp] at hnd
          rw [List.nodup_append] at hnd
          obtain ⟨hnd1, hnd2, hdisj⟩ := hnd
          have hszv : vsize v ≤ fuel := by
            simp only [lsize] at hsz
            have := lsize_pos vs
            omega
          have hszl : lsize vs ≤ fuel := by
            simp only [lsize] at hsz
            have := vsize_pos v
            omega
          have hlt1 : ∀ b ∈ fpV st.heap hv v, b < st.next :=
            fp_lt_v v st.heap hv st.next hwf hrep.1
          have hlt2 : ∀ b ∈ fpL st.heap hvs' vs, b < st.next :=
            fp_lt_l vs st.heap hvs' st.next hwf hrep.2
          obtain ⟨st1, hv', hcv, hrep1, hnd1', hsub1, hmono1, hwf1, hframe1⟩ :=
            conv_agree_v fuel v st hv hszv hrep.1 hnd1 hwf
          have hcellsT : ∀ b ∈ fpL st.heap hvs' vs,
              heapGet st1.heap b = heapGet st.heap b :=
            fun b hb => hframe1 b (fun hm => hdisj hm hb) (hlt2 b hb)
          have hcongT := repr_congr_l vs st.heap st1.heap hvs' hcellsT hrep.2
          obtain ⟨st2, hvs'', hcl, hrep2, hnd2', hsub2, hmono2, hwf2, hframe2⟩ :=
            conv_agree_l fuel vs st1 hvs' hszl hcongT.1
              (by rw [hcongT.2]; exact hnd2) hwf1
          have hlt1' : ∀ b ∈ fpV st1.heap hv' (convertValues v), b < st1.next :=
            fp_lt_v (convertValues v) st1.heap hv' st1.next hwf1 hrep1
          have hnotT : ∀ b ∈ fpV st1.heap hv' (convertValues v),
              b ∉ fpL st1.heap hvs' vs := by
            intro b hb hm
            rw [hcongT.2] at hm
            rcases hsub1 b hb with h | h
            · exact hdisj h hm
            · exact Nat.lt_irrefl _ (Nat.lt_of_lt_of_le (hlt2 b hm) h)
          have hcellsH : ∀ b ∈ fpV st1.heap hv' (convertValues v),
              heapGet st2.heap b = heapGet st1.heap b :=
            fun b hb => hframe2 b (hnotT b hb) (hlt1' b hb)
          have hcongH := repr_congr_v (convertValues v) st1.heap st2.heap hv'
            hcellsH hrep1
          have hfp2 : fpL st2.heap (hv' :: hvs'') (convertList (v :: vs)) =
              fpV st2.heap hv' (convertValues v) ++
                fpL st2.heap hvs'' (convertList vs) := by
            simp [convertList, fpL]
          refine ⟨st2, hv' :: hvs'', ?_, ?_, ?_, ?_,
            Nat.le_trans hmono1 hmono2, hwf2, ?_⟩
          · simp only [convListH, hcv, hcl]
          · simp only [convertList, reprL, Bool.and_eq_true]
            exact ⟨hcongH.1, hrep2⟩
          · rw [hfp2, List.nodup_append]
            refine ⟨by rw [hcongH.2]; exact hnd1', hnd2', ?_⟩
            rw [hcongH.2]
            exact disjoint_of_regions hsub1 hlt1'
              (fun b hb => by
                rcases hsub2 b hb with h | h
                · left
                  rw [← hcongT.2]
                  exact h
                · right
                  exact h)
              hlt1 hlt2 hdisj
          · rw [hfp2]
            intro b hb
            rcases List.mem_append.mp hb with hb | hb
            · rw [hcongH.2] at hb
              rcases hsub1 b hb with h | h
              · left
                rw [hfp]
                exact List.mem_append_left _ h
              · right
                exact h
            · rcases hsub2 b hb with h | h
              · left
                rw [hfp]
                refine List.mem_append_right _ ?_
                rw [← hcongT.2]
                exact h
              · right
                exact Nat.le_trans hmono1 h
          · intro b hb hblt
            rw [hfp] at hb
            have hb1 : b ∉ fpV st.heap hv v :=
              fun hm => hb (List.mem_append_left _ hm)
            have hb2 : b ∉ fpL st.heap hvs' vs :=
              fun hm => hb (List.mem_append_right _ hm)
            have h1 := hframe1 b hb1 hblt
            have hb2' : b ∉ fpL st1.heap hvs' vs := by
              rw [hcongT.2]
              exact hb2
            have h2 := hframe2 b hb2' (Nat.lt_of_lt_of_le hblt hmono1)
            rw [h2, h1]

termination_by fuel => fuel

/-- Field-wise version of `conv_agree_v` for the in-place object loop: the
already processed fields `hfsDone` stay in front of the cell, the remaining
fields are converted in place one key at a time. -/
theorem conv_agree_f : ∀ (fuel : Nat) (fs : List (String × Value)) (st : HState)
    (a : Nat) (hfsDone hfsRem : List (String × HVal)),
    fsize fs ≤ fuel →
    heapGet st.heap a = some (.hobj (hfsDone ++ hfsRem)) →
    (((hfsDone ++ hfsRem).map Prod.fst)).Nodup →
    reprF st.heap hfsRem fs = true →
    a ∉ fpF st.heap hfsRem fs →
    (fpF st.heap hfsRem fs).Nodup →
    WFState st →
    ∃ st' hfs',
      convFieldsH fuel st a (hfsRem.map Prod.fst) = some st' ∧
      heapGet st'.heap a = some (.hobj (hfsDone ++ hfs')) ∧
      reprF st'.heap hfs' (convertFields fs) = true ∧
      (fpF st'.heap hfs' (convertFields fs)).Nodup ∧
      (∀ b ∈ fpF st'.heap hfs' (convertFields fs),
        b ∈ fpF st.heap hfsRem fs ∨ st.next ≤ b) ∧
      st.next ≤ st'.next ∧
      WFState st' ∧
      (∀ b, b ∉ fpF st.heap hfsRem fs → b ≠ a → b < st.next →
        heapGet st'.heap b = heapGet st.heap b)
  | 0, fs, st, a, hfsDone, hfsRem, hsz, _, _, _, _, _, _ => by
      exfalso
      have := fsize_pos fs
      omega
  | fuel + 1, [], st, a, hfsDone, hfsRem, _, hga, _, hrep, _, _, hwf => by
      cases hfsRem with
      | nil =>
          exact ⟨st, [], rfl, by simpa using hga, by simp [convertFields, reprF],
            by simp [convertFields, fpF], by simp [convertFields, fpF],
            Nat.le_refl _, hwf, fun b _ _ _ => rfl⟩
      | cons p hfsRem' =>
          obtain ⟨k, hv⟩ := p
          simp [reprF] at hrep
  | fuel + 1, (k', v) :: fsTail, st, a, hfsDone, hfsRem, hsz, hga, hkeys, hrep,
      hna, hnd, hwf => by
      cases hfsRem with
      | nil => simp [reprF] at hrep
      | cons p remTail =>
          obtain ⟨k, hv0⟩ := p
          simp only [reprF, Bool.and_eq_true, beq_iff_eq] at hrep
          obtain ⟨⟨hkk, hrepv⟩, hrept⟩ := hrep
          subst hkk
          have hfpX : fpF st.heap ((k, hv0) :: remTail) ((k, v) :: fsTail) =
              fpV st.heap hv0 v ++ fpF st.heap remTail fsTail := by simp [fpF]
          rw [hfpX] at hna hnd
          rw [List.nodup_append] at hnd
          obtain ⟨hndV, hndT, hdisj⟩ := hnd
          have hnaV : a ∉ fpV st.heap hv0 v :=
            fun hm => hna (List.mem_append_left _ hm)
          have hnaT : a ∉ fpF st.heap remTail fsTail :=
            fun hm => hna (List.mem_append_right _ hm)
          have hszv : vsize v ≤ fuel := by
            simp only [fsize] at hsz
            have := fsize_pos fsTail
            omega
          have hszf : fsize fsTail ≤ fuel := by
            simp only [fsize] at hsz
            have := vsize_pos v
            omega
          have hltV : ∀ b ∈ fpV st.heap hv0 v, b < st.next :=
            fp_lt_v v st.heap hv0 st.next hwf hrepv
          have hltT : ∀ b ∈ fpF st.heap remTail fsTail, b < st.next :=
            fp_lt_f fsTail st.heap remTail st.next hwf hrept
          have halt : a < st.next := WFState_lt hwf hga
          obtain ⟨st1, hv0', hcv, hrep1, hnd1', hsub1, hmono1, hwf1, hframe1⟩ :=
            conv_agree_v fuel v st hv0 hszv hrepv hndV hwf
          have hkdone : k ∉ hfsDone.map Prod.fst := by
            rw [List.map_append] at hkeys
            have hd := (List.nodup_append.mp hkeys).2.2
            intro hm
            exact hd hm (by simp)
          have hga1 : heapGet st1.heap a =
              some (.hobj (hfsDone ++ (k, hv0) :: remTail)) := by
            rw [hframe1 a hnaV halt]
            exact hga
          have hlook : lookupFH (hfsDone ++ (k, hv0) :: remTail) k = some hv0 := by
            rw [lookupFH_append_right hkdone, lookupFH, if_pos rfl]
          have hsetf : setFH (hfsDone ++ (k, hv0) :: remTail) k hv0' =
              hfsDone ++ (k, hv0') :: remTail := by
            rw [setFH_append_right hkdone, setFH, if_pos rfl]
          have hga2 : heapGet (heapSet st1.heap a
              (.hobj (hfsDone ++ (k, hv0') :: remTail))) a =
              some (.hobj ((hfsDone ++ [(k, hv0')]) ++ remTail)) := by
            rw [heapGet_set_self (by rw [hga1]; rfl) _]
            simp
          have hkeys2 : (((hfsDone ++ [(k, hv0')]) ++ remTail).map Prod.fst).Nodup := by
            have he : ((hfsDone ++ [(k, hv0')]) ++ remTail).map Prod.fst =
                (hfsDone ++ (k, hv0) :: remTail).map Prod.fst := by simp
            rw [he]
            exact hkeys
          have hcellsT1 : ∀ b ∈ fpF st.heap remTail fsTail,
              heapGet st1.heap b = heapGet st.heap b :=
            fun b hb => hframe1 b (fun hm => hdisj hm hb) (hltT b hb)
          have hcongT1 := repr_congr_f fsTail st.heap st1.heap remTail hcellsT1 hrept
          have hcellsT2 : ∀ b ∈ fpF st1.heap remTail fsTail,
              heapGet (heapSet st1.heap a
                (.hobj (hfsDone ++ (k, hv0') :: remTail))) b =
                heapGet st1.heap b := by
            intro b hb
            refine heapGet_set_ne ?_ _
            rw [hcongT1.2] at hb
            exact fun he => hnaT (he ▸ hb)
          have hcongT2 := repr_congr_f fsTail st1.heap
            (heapSet st1.heap a (.hobj (hfsDone ++ (k, hv0') :: remTail))) remTail
            hcellsT2 hcongT1.1
          have hfpT2 : fpF (heapSet st1.heap a
              (.hobj (hfsDone ++ (k, hv0') :: remTail))) remTail fsTail =
              fpF st.heap remTail fsTail := by
            rw [hcongT2.2, hcongT1.2]
          obtain ⟨st3, hfs'', hcf, hga3, hrep3, hnd3, hsub3, hmono3, hwf3, hframe3⟩ :=
            conv_agree_f fuel fsTail
              ⟨heapSet st1.heap a (.hobj (hfsDone ++ (k, hv0') :: remTail)), st1.next⟩
              a (hfsDone ++ [(k, hv0')]) remTail hszf hga2 hkeys2 hcongT2.1
              (by rw [hfpT2]; exact hnaT)
              (by rw [hfpT2]; exact hndT)
              (WFState_set hwf1 a _)
          have hlt1' : ∀ b ∈ fpV st1.heap hv0' (convertValues v), b < st1.next :=
            fp_lt_v (convertValues v) st1.heap hv0' st1.next hwf1 hrep1
          have hbneA : ∀ b ∈ fpV st1.heap hv0' (convertValues v), b ≠ a := by
            intro b hb he
            rcases hsub1 b hb with h | h
            · exact hnaV (he ▸ h)
            · exact Nat.lt_irrefl _ (Nat.lt_of_le_of_lt (he ▸ h) halt)
          have hcellsH2 : ∀ b ∈ fpV st1.heap hv0' (convertValues v),
              heapGet (heapSet st1.heap a
                (.hobj (hfsDone ++ (k, hv0') :: remTail))) b =
                heapGet st1.heap b :=
            fun b hb => heapGet_set_ne (hbneA b hb) _
          have hcongH2 := repr_congr_v (convertValues v) st1.heap
            (heapSet st1.heap a (.hobj (hfsDone ++ (k, hv0') :: remTail))) hv0'
            hcellsH2 hrep1
          have hnotT : ∀ b ∈ fpV st1.heap hv0' (convertValues v),
              b ∉ fpF (heapSet st1.heap a
                (.hobj (hfsDone ++ (k, hv0') :: remTail))) remTail fsTail := by
            intro b hb hm
            rw [hfpT2] at hm
            rcases hsub1 b hb with h | h
            · exact hdisj h hm
            · exact Nat.lt_irrefl _ (Nat.lt_of_lt_of_le (hltT b hm) h)
          have hcellsH3 : ∀ b ∈ fpV (heapSet st1.heap a
              (.hobj (hfsDone ++ (k, hv0') :: remTail))) hv0' (convertValues v),
              heapGet st3.heap b =
                heapGet (heapSet st1.heap a
                  (.hobj (hfsDone ++ (k, hv0') :: remTail))) b := by
            intro b hb
            rw [hcongH2.2] at hb
            exact hframe3 b (hnotT b hb) (hbneA b hb) (hlt1' b hb)
          have hcongH3 := repr_congr_v (convertValues v)
            (heapSet st1.heap a (.hobj (hfsDone ++ (k, hv0') :: remTail))) st3.heap
            hv0' hcellsH3 hcongH2.1
          have hrepH3 : reprV st3.heap hv0' (convertValues v) = true := hcongH3.1
          have hfpH3 : fpV st3.heap hv0' (convertValues v) =
              fpV st1.heap hv0' (convertValues v) := by
            rw [hcongH3.2, hcongH2.2]
          refine ⟨st3, (k, hv0') :: hfs'', ?_, ?_, ?_, ?_, ?_,
            Nat.le_trans hmono1 hmono3, hwf3, ?_⟩
          · show convFieldsH (fuel + 1) st a
              (List.map Prod.fst ((k, hv0) :: remTail)) = some st3
            simp only [List.map_cons, convFieldsH, hga, hlook, hcv, hga1, hsetf]
            exact hcf
          · rw [hga3]
            simp
          · show reprF st3.heap ((k, hv0') :: hfs'')
              (convertFields ((k, v) :: fsTail)) = true
            simp only [convertFields, reprF, Bool.and_eq_true, beq_iff_eq]
            exact ⟨⟨by simp, hrepH3⟩, hrep3⟩
          · show (fpF st3.heap ((k, hv0') :: hfs'')
              (convertFields ((k, v) :: fsTail))).Nodup
            simp only [convertFields, fpF]
            rw [List.nodup_append]
            refine ⟨by rw [hfpH3]; exact hnd1', hnd3, ?_⟩
            rw [hfpH3]
            exact disjoint_of_regions hsub1 hlt1'
              (fun b hb => by
                rcases hsub3 b hb with h | h
                · left
                  rw [← hfpT2]
                  exact h
                · right
                  exact h)
              hltV hltT hdisj
          · show ∀ b ∈ fpF st3.heap ((k, hv0') :: hfs'')
              (convertFields ((k, v) :: fsTail)),
                b ∈ fpF st.heap ((k, hv0) :: remTail) ((k, v) :: fsTail) ∨
                  st.next ≤ b
            simp only [convertFields, fpF]
            intro b hb
            rcases List.mem_append.mp hb with hb | hb
            · rw [hfpH3] at hb
              rcases hsub1 b hb with h | h
              · left
                exact List.mem_append_left _ h
              · right
                exact h
            · rcases hsub3 b hb with h | h
              · left
                refine List.mem_append_right _ ?_
                rw [← hfpT2]
                exact h
              · right
                exact Nat.le_trans hmono1 h
          · intro b hb hne hblt
            rw [hfpX] at hb
            have hb1 : b ∉ fpV st.heap hv0 v :=
              fun hm => hb (List.mem_append_left _ hm)
            have hb2 : b ∉ fpF st.heap remTail fsTail :=
              fun hm => hb (List.mem_append_right _ hm)
            have h1 := hframe1 b hb1 hblt
            have h2 : heapGet (heapSet st1.heap a
                (.hobj (hfsDone ++ (k, hv0') :: remTail))) b =
                heapGet st1.heap b := heapGet_set_ne hne _
            have hb2' : b ∉ fpF (heapSet st1.heap a
                (.hobj (hfsDone ++ (k, hv0') :: remTail))) remTail fsTail := by
              rw [hfpT2]
              exact hb2
            have h3 := hframe3 b hb2' hne (Nat.lt_of_lt_of_le hblt hmono1)
            rw [h3, h2, h1]
termination_by fuel => fuel

end

/-- Counterexample to claim C7 as stated: `convertValues` does NOT leave its
input unchanged.  On the heap holding the plain object `{a: Int(2^53+1)}` at
address 0, running the in-place normalizer on a reference to it rewrites the
cell at address 0 in place (the driver integer field becomes its decimal
string), so after the call the input object differs from what was passed
in. -/
theorem claim_C7_counterexample :
    convH 3 (HState.mk [(0, .hobj [("a", .hint 9007199254740993)])] 1)
        (.href 0) =
      some (HState.mk [(0, .hobj [("a", .hstr "9007199254740993")])] 1,
        .href 0) ∧
    heapGet [(0, HObj.hobj [("a", HVal.hstr "9007199254740993")])] 0 ≠
      heapGet [(0, HObj.hobj [("a", HVal.hint 9007199254740993)])] 0 :=
  ⟨rfl, by decide⟩

/-- Claim C7, amended: the normalizer's result depends only on the abstract
value of its argument — on any sharing-free heap representation of a driver
value `t`, the in-place `convertValues` succeeds and returns a
representation of the pure normalizer's output `convertValues t`, leaving
every heap cell outside the argument's footprint untouched; but it is not
free of in-place modification: nested plain objects (and node `properties`
objects) are rewritten through the references it was given, as the
counterexample shows. -/
theorem claim_C7 : ∀ (t : Value) (st : HState) (hv : HVal) (fuel : Nat),
    vsize t ≤ fuel → reprV st.heap hv t = true → (fpV st.heap hv t).Nodup →
    WFState st →
    ∃ st' hv',
      convH fuel st hv = some (st', hv') ∧
      reprV st'.heap hv' (convertValues t) = true ∧
      (∀ b, b ∉ fpV st.heap hv t → b < st.next →
        heapGet st'.heap b = heapGet st.heap b) := by
  intro t st hv fuel hsz hrep hnd hwf
  obtain ⟨st', hv', hc, hr, _, _, _, _, hframe⟩ :=
    conv_agree_v fuel t st hv hsz hrep hnd hwf
  exact ⟨st', hv', hc, hr, hframe⟩

/-- Witness for the amended C7 on the heap `{a: Int(5)}` at address 0. -/
theorem claim_C7_witness :
    ∃ st' hv',
      convH 4 (HState.mk [(0, .hobj [("a", .hint 5)])] 1) (.href 0) =
        some (st', hv') ∧
      reprV st'.heap hv' (convertValues (.vobj [("a", .vint 5)])) = true ∧
      (∀ b, b ∉ fpV (HState.mk [(0, .hobj [("a", .hint 5)])] 1).heap (.href 0)
          (.vobj [("a", .vint 5)]) →
        b < (HState.mk [(0, .hobj [("a", .hint 5)])] 1).next →
        heapGet st'.heap b =
          heapGet (HState.mk [(0, .hobj [("a", .hint 5)])] 1).heap b) :=
  claim_C7 (.vobj [("a", .vint 5)]) (HState.mk [(0, .hobj [("a", .hint 5)])] 1)
    (.href 0) 4 (by decide) (by decide) (by decide) (by decide)

end Neo4jRequest
